import Mathlib

/-!
# json2json: the expression parser and evaluator

A shallow embedding of `parser.go`, `parserchar.go`, `operator.go`, `constant.go`
and `function.go`, followed by theorems about it.

Conventions of the embedding.

* A Go `string` is a `List Char` (`Str`): the list of its code points, the text
  being valid UTF-8.  The
  separators the parser looks for are ASCII, so a byte offset returned by
  `strings.LastIndex` and the slices `str[:idx]`, `str[idx+1:]` correspond to
  `List.take` and `List.drop` at the offset counted in characters.
* A Go `any` is a `Value`.  The constructors are the dynamic types that the
  sources inspect or produce.
* A call returns a `Res`: a value with a nil error, a non-nil error, or a
  run-time panic that leaves the function.
* `Parser.Parse` is recursive and the recursion is not bounded in the source;
  the embedding takes a recursion budget and answers `none` when it is used up.
* The order in which `range opFunc` visits the operator table is not fixed by
  Go and can change from one call of `containsOp` to the next; `containsOp` takes
  it as an argument, and `Parse` takes the order of every call that it makes.
* The libraries the sources call (`strconv.ParseFloat`, `strings.ToUpper`,
  `github.com/spf13/cast`, `math.Pow`) are a parameter `Ext` together with the
  few facts about them that the proofs use.
-/

namespace Json2Json

/-- Go `string`, as the list of its code points. -/
abbrev Str := List Char

/-! ## parserchar.go -/

/-- LeftBracket `(` opens the arguments of a function call. -/
def LeftBracket : Char := '('
/-- RightBracket `)` closes the arguments of a function call. -/
def RightBracket : Char := ')'
/-- LeftSquareBracket `[` opens an input key path. -/
def LeftSquareBracket : Char := '['
/-- RightSquareBracket `]` closes an input key path. -/
def RightSquareBracket : Char := ']'
/-- Apostrophe (U+0027) delimits a string. -/
def Apostrophe : Char := Char.ofNat 39
/-- Dot `.` separates the keys of a path. -/
def Dot : Char := '.'
/-- Comma `,` separates the arguments of a call. -/
def Comma : Char := ','

/-! ## Package `strings` -/

/-- unicode.IsSpace: the Unicode White_Space code points. -/
def isSpace (c : Char) : Bool :=
  let n := c.toNat
  (9 ≤ n && n ≤ 13) || n == 32 || n == 0x85 || n == 0xA0 || n == 0x1680 ||
  (0x2000 ≤ n && n ≤ 0x200A) || n == 0x2028 || n == 0x2029 || n == 0x202F ||
  n == 0x205F || n == 0x3000

/-- strings.TrimSpace: drop leading and trailing white space. -/
def trimSpace (s : Str) : Str :=
  ((s.dropWhile isSpace).reverse.dropWhile isSpace).reverse

/-- strings.Split with a one-character separator: `n` occurrences give `n + 1` parts. -/
def splitChar (sep : Char) : Str → List Str
  | [] => [[]]
  | c :: cs =>
    if c = sep then [] :: splitChar sep cs
    else
      match splitChar sep cs with
      | [] => [[c]]
      | p :: ps => (c :: p) :: ps

/-- strings.Join with a one-character separator. -/
def joinChar (sep : Char) : List Str → Str
  | [] => []
  | [p] => p
  | p :: q :: rest => p ++ sep :: joinChar sep (q :: rest)

/-- The first element of `strings.SplitN(str, sep, 2)`: the text before the first `sep`. -/
def beforeFirst (sep : Char) (s : Str) : Str := s.takeWhile (fun c => c != sep)

/-- strings.HasPrefix. -/
def hasPrefixOf (s pre : Str) : Bool := pre.isPrefixOf s

/-- strings.HasSuffix. -/
def hasSuffixOf (s suf : Str) : Bool := suf.reverse.isPrefixOf s.reverse

/-- strings.TrimPrefix: `s` without the leading `pre`, or `s` itself. -/
def trimPrefixOf (s pre : Str) : Str :=
  if hasPrefixOf s pre then s.drop pre.length else s

/-- strings.TrimSuffix: `s` without the trailing `suf`, or `s` itself. -/
def trimSuffixOf (s suf : Str) : Str :=
  if hasSuffixOf s suf then s.take (s.length - suf.length) else s

/-- strings.Index: the offset of the first occurrence of `sub` in `s`. -/
def indexOf (sub : Str) : Str → Option Nat
  | [] => if sub = [] then some 0 else none
  | c :: cs =>
    if sub.isPrefixOf (c :: cs) then some 0
    else (indexOf sub cs).map (fun i => i + 1)

/-- strings.Contains. -/
def containsStr (s sub : Str) : Bool := (indexOf sub s).isSome

/-- strings.LastIndex: the offset of the last occurrence of `sub` in `s`. -/
def lastIndex (sub : Str) : Str → Option Nat
  | [] => if sub = [] then some 0 else none
  | c :: cs =>
    match lastIndex sub cs with
    | some i => some (i + 1)
    | none => if sub.isPrefixOf (c :: cs) then some 0 else none

/-! ## Package `strconv`: integers -/

/-- The decimal digit `d`. -/
def digitChar (d : Nat) : Char := Char.ofNat (48 + d)

/-- The digits of `n` in front of `acc`, least significant digit produced first. -/
def formatBits : Nat → Nat → Str → Str
  | 0, _, acc => acc
  | fuel + 1, n, acc =>
    if n < 10 then digitChar n :: acc
    else formatBits fuel (n / 10) (digitChar (n % 10) :: acc)

/-- strconv.FormatUint(n, 10). -/
def formatUint (n : Nat) : Str := formatBits (n + 1) n []

/-- strconv.FormatInt(n, 10), which is also strconv.Itoa and cast.ToString of an integer. -/
def formatInt (n : Int) : Str :=
  if n < 0 then '-' :: formatUint n.natAbs else formatUint n.natAbs

/-- The value of a decimal digit. -/
def digitVal (c : Char) : Option Nat :=
  if 48 ≤ c.toNat ∧ c.toNat ≤ 57 then some (c.toNat - 48) else none

/-- The value of a run of decimal digits, read from the left on top of `acc`. -/
def parseDigits : Str → Nat → Option Nat
  | [], acc => some acc
  | c :: cs, acc =>
    match digitVal c with
    | some d => parseDigits cs (acc * 10 + d)
    | none => none

/-- strconv.ParseUint(s, 10, 64) without the range check: a non-empty run of digits. -/
def parseUintDigits (s : Str) : Option Nat :=
  if s = [] then none else parseDigits s 0

/-- strconv.ParseInt(s, 10, 64): an optional sign and a non-empty run of decimal
digits whose value lies in `[-2^63, 2^63 - 1]`; `none` stands for a non-nil error. -/
def parseInt (s : Str) : Option Int :=
  match s with
  | [] => none
  | c :: cs =>
    if c = '-' then
      match parseUintDigits cs with
      | some u => if u ≤ 2 ^ 63 then some (-(u : Int)) else none
      | none => none
    else
      match parseUintDigits (if c = '+' then cs else c :: cs) with
      | some u => if u < 2 ^ 63 then some (u : Int) else none
      | none => none

/-! ## float64 -/

/-- IEEE-754 binary64 on bit patterns (`Nat` below `2 ^ 64`).  Every NaN is kept
as the one pattern `F64.nan`; the program cannot tell NaNs apart. -/
def F64.nan : Nat := 0x7FF8000000000001
/-- Positive infinity. -/
def F64.inf : Nat := 0x7FF0000000000000
/-- The sign bit. -/
def F64.signBit : Nat := 2 ^ 63
/-- The float64 `2`. -/
def F64.two : Nat := 0x4000000000000000
/-- The float64 `10`. -/
def F64.ten : Nat := 0x4024000000000000

/-- The sign of a pattern. -/
def F64.neg (b : Nat) : Bool := decide (2 ^ 63 ≤ b % 2 ^ 64)
/-- The pattern without its sign. -/
def F64.abs (b : Nat) : Nat := b % 2 ^ 63
/-- The biased exponent field. -/
def F64.expField (b : Nat) : Nat := (b / 2 ^ 52) % 2048
/-- The fraction field. -/
def F64.frac (b : Nat) : Nat := b % 2 ^ 52
/-- Not a number. -/
def F64.isNaN (b : Nat) : Bool := F64.expField b == 2047 && F64.frac b != 0
/-- An infinity. -/
def F64.isInf (b : Nat) : Bool := F64.expField b == 2047 && F64.frac b == 0
/-- A zero of either sign. -/
def F64.isZero (b : Nat) : Bool := F64.abs b == 0
/-- The significand of a finite pattern: its magnitude is `sig * 2 ^ expo`. -/
def F64.sig (b : Nat) : Nat :=
  if F64.expField b = 0 then F64.frac b else 2 ^ 52 + F64.frac b
/-- The binary exponent that goes with `F64.sig`. -/
def F64.expo (b : Nat) : Int :=
  if F64.expField b = 0 then -1074 else (F64.expField b : Int) - 1075

/-- Put a sign on a magnitude pattern. -/
def F64.withSign (neg : Bool) (m : Nat) : Nat := if neg then F64.signBit + m else m

/-- Search for the position of the leading bit of `k`, in the given strides. -/
def F64.log2Steps : List Nat → Nat → Nat → Nat
  | [], _, acc => acc
  | s :: ss, k, acc =>
    if 2 ^ s ≤ k then F64.log2Steps ss (k / 2 ^ s) (acc + s) else F64.log2Steps ss k acc

/-- The position of the leading bit of `k` (for `0 < k < 2 ^ 4352`). -/
def F64.log2 (k : Nat) : Nat :=
  F64.log2Steps
    [256, 256, 256, 256, 256, 256, 256, 256, 256, 256, 256, 256, 256, 256, 256, 256,
     128, 64, 32, 16, 8, 4, 2, 1] k 0

/-- Quotient, remainder and divisor of `n * 2 ^ s / d`. -/
def F64.quot (n d : Nat) (s : Int) : Nat × Nat × Nat :=
  if 0 ≤ s then (n * 2 ^ s.toNat / d, n * 2 ^ s.toNat % d, d)
  else (n / (d * 2 ^ (-s).toNat), n % (d * 2 ^ (-s).toNat), d * 2 ^ (-s).toNat)

/-- Round `n / d * 2 ^ e` to the nearest float64, ties to even; too large a magnitude
gives infinity. -/
def F64.roundScaled (neg : Bool) (n d : Nat) (e : Int) : Nat :=
  if n = 0 then F64.withSign neg 0
  else
    let b : Int := (F64.log2 n : Int) - (F64.log2 d : Int)
    let x0 : Int := max (b + e - 52) (-1074)
    let x : Int := if -1074 < x0 ∧ (F64.quot n d (e - x0)).1 < 2 ^ 52 then x0 - 1 else x0
    let q := (F64.quot n d (e - x)).1
    let r := (F64.quot n d (e - x)).2.1
    let dd := (F64.quot n d (e - x)).2.2
    let q1 := if dd < 2 * r ∨ (2 * r = dd ∧ q % 2 = 1) then q + 1 else q
    let m := (x + 1074).toNat * 2 ^ 52 + q1
    F64.withSign neg (if F64.inf ≤ m then F64.inf else m)

/-- Conversion `float64(n)` of an integer. -/
def F64.ofInt (n : Int) : Nat := F64.roundScaled (decide (n < 0)) n.natAbs 1 0

/-- The operator `x * y` on float64. -/
def F64.mul (a b : Nat) : Nat :=
  let s := F64.neg a != F64.neg b
  if F64.isNaN a || F64.isNaN b then F64.nan
  else if F64.isInf a || F64.isInf b then
    if F64.isZero a || F64.isZero b then F64.nan else F64.withSign s F64.inf
  else F64.roundScaled s (F64.sig a * F64.sig b) 1 (F64.expo a + F64.expo b)

/-- The operator `x / y` on float64. -/
def F64.div (a b : Nat) : Nat :=
  let s := F64.neg a != F64.neg b
  if F64.isNaN a || F64.isNaN b then F64.nan
  else if F64.isInf a then (if F64.isInf b then F64.nan else F64.withSign s F64.inf)
  else if F64.isInf b then F64.withSign s 0
  else if F64.isZero b then (if F64.isZero a then F64.nan else F64.withSign s F64.inf)
  else F64.roundScaled s (F64.sig a) (F64.sig b) (F64.expo a - F64.expo b)

/-- The operator `x + y` on float64. -/
def F64.add (a b : Nat) : Nat :=
  if F64.isNaN a || F64.isNaN b then F64.nan
  else if F64.isInf a then
    (if F64.isInf b && F64.neg a != F64.neg b then F64.nan else F64.withSign (F64.neg a) F64.inf)
  else if F64.isInf b then F64.withSign (F64.neg b) F64.inf
  else
    let e := min (F64.expo a) (F64.expo b)
    let ma : Int := (F64.sig a * 2 ^ (F64.expo a - e).toNat : Nat)
    let mb : Int := (F64.sig b * 2 ^ (F64.expo b - e).toNat : Nat)
    let z : Int := (if F64.neg a then -ma else ma) + (if F64.neg b then -mb else mb)
    if z = 0 then F64.withSign (F64.neg a && F64.neg b) 0
    else F64.roundScaled (decide (z < 0)) z.natAbs 1 e

/-- Negation of a float64 that is not NaN. -/
def F64.flip (b : Nat) : Nat :=
  if F64.isNaN b then F64.nan else F64.withSign (!F64.neg b) (F64.abs b)

/-- The operator `x - y` on float64. -/
def F64.sub (a b : Nat) : Nat := F64.add a (F64.flip b)

/-- The operator `x == y` on float64. -/
def F64.eq (a b : Nat) : Bool :=
  !F64.isNaN a && !F64.isNaN b &&
  ((F64.isZero a && F64.isZero b) || a % 2 ^ 64 == b % 2 ^ 64)

/-- The operator `x < y` on float64. -/
def F64.lt (a b : Nat) : Bool :=
  !F64.isNaN a && !F64.isNaN b && !(F64.isZero a && F64.isZero b) &&
  (match F64.neg a, F64.neg b with
   | true, false => true
   | false, true => false
   | false, false => decide (F64.abs a < F64.abs b)
   | true, true => decide (F64.abs b < F64.abs a))

/-- The operator `x <= y` on float64. -/
def F64.le (a b : Nat) : Bool := F64.lt a b || F64.eq a b
/-- The operator `x > y` on float64. -/
def F64.gt (a b : Nat) : Bool := F64.lt b a
/-- The operator `x >= y` on float64. -/
def F64.ge (a b : Nat) : Bool := F64.le b a

/-- math.Round: the nearest integer, halves away from zero (the bit manipulation
of `math/floor.go`); zeros, infinities and NaN are returned as they are. -/
def F64.round (b : Nat) : Nat :=
  let e := F64.expField b
  if e < 1023 then
    F64.withSign (F64.neg b) (if e = 1022 then 0x3FF0000000000000 else 0)
  else if e < 1075 then
    let sh := 52 - (e - 1023)
    let m := F64.abs b + 2 ^ sh / 2
    F64.withSign (F64.neg b) (m / 2 ^ sh * 2 ^ sh)
  else b

/-! ## Rounding to decimal digits, in exact arithmetic

What the words "x rounded to p decimal digits" ask for, written on whole numbers.
These definitions follow the words of the contract of `floatFunc`, not its code; the
code is compared with them. -/

/-- The whole number nearest to `n * 2 ^ e`, a half going up: on a magnitude this is
the rule "halves away from zero". -/
def nearestHalfAway (n : Nat) (e : Int) : Nat :=
  if 0 ≤ e then n * 2 ^ e.toNat else (2 * n + 2 ^ (-e).toNat) / (2 * 2 ^ (-e).toNat)

/-- The whole number nearest to `n * 2 ^ e`, a half going to the even neighbour. -/
def nearestHalfEven (n : Nat) (e : Int) : Nat :=
  if 0 ≤ e then n * 2 ^ e.toNat
  else
    let q := n / 2 ^ (-e).toNat
    let r := n % 2 ^ (-e).toNat
    if 2 ^ (-e).toNat < 2 * r ∨ (2 * r = 2 ^ (-e).toNat ∧ q % 2 = 1) then q + 1 else q

/-- A finite float64 `x` rounded to `p` decimal digits under the tie rule `tie`: with
`N` the whole number nearest to the magnitude of `x` times `10 ^ p`, the decimal
`N / 10 ^ p` with the sign of `x`, as the float64 nearest to it. -/
def roundToDigits (tie : Nat → Int → Nat) (x p : Nat) : Nat :=
  F64.roundScaled (F64.neg x) (tie (F64.sig x * 10 ^ p) (F64.expo x)) (10 ^ p) 0

/-- The magnitudes `m1 * 2 ^ e1` and `m2 * 2 ^ e2` are equal. -/
def F64.sameMag (m1 : Nat) (e1 : Int) (m2 : Nat) (e2 : Int) : Prop :=
  m1 * 2 ^ (e1 - min e1 e2).toNat = m2 * 2 ^ (e2 - min e1 e2).toNat

instance (m1 : Nat) (e1 : Int) (m2 : Nat) (e2 : Int) : Decidable (F64.sameMag m1 e1 m2 e2) :=
  inferInstanceAs (Decidable (_ = _))

/-- The float64 product of `x` and `10 ^ p` is exact: it is finite and its magnitude is
the magnitude of `x` times `10 ^ p`. -/
def F64.exactTimesPow10 (x p : Nat) : Prop :=
  F64.expField (F64.mul x (F64.ofInt ((10 ^ p : Nat) : Int))) < 2047 ∧
  F64.sameMag (F64.sig (F64.mul x (F64.ofInt ((10 ^ p : Nat) : Int))))
    (F64.expo (F64.mul x (F64.ofInt ((10 ^ p : Nat) : Int)))) (F64.sig x * 10 ^ p) (F64.expo x)

instance (x p : Nat) : Decidable (F64.exactTimesPow10 x p) :=
  inferInstanceAs (Decidable (_ ∧ _))

/-! ## Values, errors and results -/

/-- A Go `any`, as far as the sources look into it. -/
inductive Value where
  /-- The nil interface. -/
  | nil
  /-- A `bool`. -/
  | bool (b : Bool)
  /-- An `int` (the result of `len` and of `utf8.RuneCountInString`). -/
  | int (n : Int)
  /-- An `int64` (the result of `strconv.ParseInt`). -/
  | int64 (n : Int)
  /-- A `float64`, as its bit pattern. -/
  | float64 (bits : Nat)
  /-- A `string`. -/
  | string (s : Str)
  /-- A `[]any`. -/
  | slice (xs : List Value)
  /-- A `[]map[string]any`. -/
  | mapSlice (ms : List (List (Str × Value)))
  /-- A `map[string]any`: the list of its entries, keys pairwise different. -/
  | map (kvs : List (Str × Value))
  /-- The pointer `&NoParamVar`. -/
  | noParam

/-- The dynamic type of a `Value`, as `reflect.TypeOf` reports it. -/
inductive GoType where
  | nil | bool | int | int64 | float64 | string | slice | mapSlice | map | pointer
  deriving DecidableEq, Repr

/-- reflect.TypeOf. -/
def typeOf : Value → GoType
  | .nil => .nil
  | .bool _ => .bool
  | .int _ => .int
  | .int64 _ => .int64
  | .float64 _ => .float64
  | .string _ => .string
  | .slice _ => .slice
  | .mapSlice _ => .mapSlice
  | .map _ => .map
  | .noParam => .pointer

/-- A map index expression `m[k]` with its `ok` flag. -/
def lookupKey (k : Str) : List (Str × Value) → Option Value
  | [] => none
  | (k2, v) :: rest => if k2 = k then some v else lookupKey k rest

mutual
/-- reflect.DeepEqual on values that do not share storage: equal dynamic types and
equal contents, float64 compared with `==`, maps compared entry by entry. -/
def deepEqual : Value → Value → Bool
  | .nil, .nil => true
  | .bool a, .bool b => a == b
  | .int a, .int b => a == b
  | .int64 a, .int64 b => a == b
  | .float64 a, .float64 b => F64.eq a b
  | .string a, .string b => a == b
  | .slice xs, .slice ys => deepEqualList xs ys
  | .mapSlice xs, .mapSlice ys => deepEqualMaps xs ys
  | .map m, .map m2 => m.length == m2.length && deepEqualMap m m2
  | .noParam, .noParam => true
  | _, _ => false
termination_by structural v => v
/-- Element by element comparison of two `[]any`. -/
def deepEqualList : List Value → List Value → Bool
  | [], [] => true
  | x :: xs, y :: ys => deepEqual x y && deepEqualList xs ys
  | _, _ => false
termination_by structural v => v
/-- Every entry of the first map is found, with a deeply equal value, in the second. -/
def deepEqualMap : List (Str × Value) → List (Str × Value) → Bool
  | [], _ => true
  | (k, v) :: rest, m2 =>
    (match lookupKey k m2 with
     | some w => deepEqual v w
     | none => false) && deepEqualMap rest m2
termination_by structural v => v
/-- Element by element comparison of two `[]map[string]any`. -/
def deepEqualMaps : List (List (Str × Value)) → List (List (Str × Value)) → Bool
  | [], [] => true
  | m :: ms, n :: ns => (m.length == n.length && deepEqualMap m n) && deepEqualMaps ms ns
  | _, _ => false
termination_by structural v => v
end

/-- Func is the name of a function. -/
abbrev Func := Str

/-- The errors that the package builds. -/
inductive Err where
  /-- Errorf("invalid number of arguments: %d", n). -/
  | invalidNumberOfArguments (n : Nat)
  /-- Errorf("invalid odd number of arguments: %d", n). -/
  | invalidOddNumberOfArguments (n : Nat)
  /-- Errorf("invalid type: %T", arg). -/
  | invalidType (t : GoType)
  /-- Errorf("invalid arguments: %v", r), built from a recovered panic. -/
  | invalidArguments
  /-- Errorf("unknown string %s", str). -/
  | unknownString (s : Str)
  /-- An error returned by a conversion of package `cast`. -/
  | cast (v : Value)
  /-- Errorf("func %s: %w", fnStr, err). -/
  | func (fnStr : Func) (err : Err)

/-- A run-time panic. -/
inductive Panic where
  /-- An index expression outside the bounds of its slice. -/
  | indexOutOfRange (i len : Nat)
  /-- A slice expression outside the bounds of its string. -/
  | sliceBoundsOutOfRange
  /-- A call of a nil function value. -/
  | nilFunc

/-- What a call gives back: `(v, nil)`, `(_, err)` with a non-nil error, or a panic. -/
inductive Res (α : Type) where
  | ok (v : α)
  | error (e : Err)
  | panic (p : Panic)

/-- The index expression `args[i]`. -/
def index (args : List Value) (i : Nat) : Res Value :=
  match args.get? i with
  | some v => .ok v
  | none => .panic (.indexOutOfRange i args.length)

/-! ## The libraries -/

/-- The characters of the texts that `strconv.ParseFloat` accepts: letters, digits,
signs, the point and the underscore. -/
def floatChar (c : Char) : Bool :=
  c.isAlphanum || c == '+' || c == '-' || c == '.' || c == '_'

/-- The library functions that the sources call and that are not embedded here,
with the facts about them that the proofs use.  An `Option` result is `none` when
the library returns a non-nil error. -/
structure Ext where
  /-- strconv.ParseFloat(s, 64). -/
  parseFloat : Str → Option Nat
  /-- unicode.ToUpper, which `strings.ToUpper` applies to every code point. -/
  unicodeToUpper : Char → Char
  /-- cast.ToStringE. -/
  toStringE : Value → Option Str
  /-- cast.ToInt64E. -/
  toInt64E : Value → Option Int
  /-- cast.ToIntE. -/
  toIntE : Value → Option Int
  /-- cast.ToUintE. -/
  toUintE : Value → Option Nat
  /-- cast.ToFloat64E. -/
  toFloat64E : Value → Option Nat
  /-- cast.ToBoolE. -/
  toBoolE : Value → Option Bool
  /-- math.Pow. -/
  pow : Nat → Nat → Nat
  /-- ParseFloat accepts no empty text and no text with a character outside `floatChar`. -/
  parseFloat_chars : ∀ s f, parseFloat s = some f → s ≠ [] ∧ ∀ c ∈ s, floatChar c = true
  /-- ToUpper on ASCII turns the letters `a` to `z` into capitals and keeps the rest. -/
  unicodeToUpper_ascii : ∀ c : Char, c.toNat < 128 → unicodeToUpper c = c.toUpper
  /-- ToStringE returns a string as it is. -/
  toStringE_string : ∀ s, toStringE (.string s) = some s
  /-- ToInt64E returns an int64 as it is. -/
  toInt64E_int64 : ∀ n, toInt64E (.int64 n) = some n
  /-- ToIntE returns an int as it is. -/
  toIntE_int : ∀ n, toIntE (.int n) = some n
  /-- ToIntE converts an int64 to the int of the same value (`int` has 64 bits). -/
  toIntE_int64 : ∀ n, toIntE (.int64 n) = some n
  /-- ToFloat64E returns a float64 as it is. -/
  toFloat64E_float64 : ∀ f, toFloat64E (.float64 f) = some f
  /-- ToFloat64E converts an int64 with the conversion `float64(n)`. -/
  toFloat64E_int64 : ∀ n, toFloat64E (.int64 n) = some (F64.ofInt n)
  /-- ToBoolE returns a bool as it is. -/
  toBoolE_bool : ∀ b, toBoolE (.bool b) = some b

/-- cast.ToFloat64: the zero value when the conversion fails. -/
def Ext.toFloat64 (E : Ext) (v : Value) : Nat := (E.toFloat64E v).getD 0

/-- cast.ToBool: the zero value when the conversion fails. -/
def Ext.toBool (E : Ext) (v : Value) : Bool := (E.toBoolE v).getD false

/-- strings.ToUpper. -/
def Ext.toUpper (E : Ext) (s : Str) : Str := s.map E.unicodeToUpper

/-- A result of package `cast` as a `Res`. -/
def castRes {α : Type} (v : Value) (f : α → Value) : Option α → Res Value
  | some a => .ok (f a)
  | none => .error (.cast v)

/-! ## constant.go -/

/-- Const is the name of a constant. -/
abbrev Const := Str

/-- The constant `NIL`. -/
def Const.Nil : Const := "NIL".toList
/-- The constant `TRUE`. -/
def Const.True : Const := "TRUE".toList
/-- The constant `FALSE`. -/
def Const.False : Const := "FALSE".toList
/-- The constant `NO_PARAM`. -/
def Const.NoParam : Const := "NO_PARAM".toList
/-- The constant `EMPTY_ARRAY`. -/
def Const.EmptyArray : Const := "EMPTY_ARRAY".toList

/-- constMap is a map that contains all constants. -/
def constMap : List (Const × Value) :=
  [(Const.Nil, .nil), (Const.True, .bool true), (Const.False, .bool false),
   (Const.NoParam, .noParam), (Const.EmptyArray, .slice [])]

/-! ## operator.go -/

/-- Operator is the symbol of an operator. -/
abbrev Operator := Str

/-- The operator `=`. -/
def Operator.Eq : Operator := "=".toList
/-- The operator `<>`. -/
def Operator.NotEq : Operator := "<>".toList
/-- The operator `*`. -/
def Operator.Mul : Operator := "*".toList
/-- The operator `/`. -/
def Operator.Div : Operator := "/".toList
/-- The operator `+`. -/
def Operator.Add : Operator := "+".toList
/-- The operator `-`. -/
def Operator.Sub : Operator := "-".toList

/-- eqFunc checks if two values are equal. -/
def eqFunc (_ : Ext) (x y : Value) : Value := .bool (deepEqual x y)
/-- notEqFunc checks if two values are not equal. -/
def notEqFunc (_ : Ext) (x y : Value) : Value := .bool (!deepEqual x y)
/-- mulFunc multiplies two values. -/
def mulFunc (E : Ext) (x y : Value) : Value := .float64 (F64.mul (E.toFloat64 x) (E.toFloat64 y))
/-- divFunc divides two values. -/
def divFunc (E : Ext) (x y : Value) : Value := .float64 (F64.div (E.toFloat64 x) (E.toFloat64 y))
/-- addFunc adds two values. -/
def addFunc (E : Ext) (x y : Value) : Value := .float64 (F64.add (E.toFloat64 x) (E.toFloat64 y))
/-- subFunc subtracts two values. -/
def subFunc (E : Ext) (x y : Value) : Value := .float64 (F64.sub (E.toFloat64 x) (E.toFloat64 y))

/-- opFunc is a map that contains all operator functions. -/
def opFunc : List (Operator × (Ext → Value → Value → Value)) :=
  [(Operator.Eq, eqFunc), (Operator.NotEq, notEqFunc), (Operator.Mul, mulFunc),
   (Operator.Div, divFunc), (Operator.Add, addFunc), (Operator.Sub, subFunc)]

/-- The keys of `opFunc`, in the order of the source text. -/
def opKeys : List Operator := opFunc.map Prod.fst

/-- The index expression `opFunc[op]`. -/
def opFuncAt (op : Operator) : Option (Ext → Value → Value → Value) :=
  (opFunc.find? (fun e => e.1 == op)).map Prod.snd

/-- containsOp checks if a string contains an operator.  `order` is the order in
which the `range` over `opFunc` visits the keys in this call. -/
def containsOp (order : List Operator) (str : Str) : Option Operator :=
  order.find? (fun op => containsStr str op)

/-! ## function.go -/

/-- The function name `STRING`. -/
def Func.String : Func := "STRING".toList
/-- The function name `INT`. -/
def Func.Int : Func := "INT".toList
/-- The function name `FLOAT`. -/
def Func.Float : Func := "FLOAT".toList
/-- The function name `BOOL`. -/
def Func.Bool : Func := "BOOL".toList
/-- The function name `OBJECT`. -/
def Func.Object : Func := "OBJECT".toList
/-- The function name `ARRAY`. -/
def Func.Array : Func := "ARRAY".toList
/-- The function name `VAR`. -/
def Func.Var : Func := "VAR".toList
/-- The function name `SET`. -/
def Func.Set : Func := "SET".toList
/-- The function name `LEN`. -/
def Func.Len : Func := "LEN".toList
/-- The function name `SLICE_STR`. -/
def Func.SliceStr : Func := "SLICE_STR".toList
/-- The function name `IF`. -/
def Func.If : Func := "IF".toList
/-- The function name `SWITCH`. -/
def Func.Switch : Func := "SWITCH".toList
/-- The function name `AND`. -/
def Func.And : Func := "AND".toList
/-- The function name `OR`. -/
def Func.Or : Func := "OR".toList
/-- The function name `GTE`. -/
def Func.Gte : Func := "GTE".toList
/-- The function name `GT`. -/
def Func.Gt : Func := "GT".toList
/-- The function name `LTE`. -/
def Func.Lte : Func := "LTE".toList
/-- The function name `LT`. -/
def Func.Lt : Func := "LT".toList

/-- stringFunc is the string function: STRING(expr) converts expr to string. -/
def stringFunc (E : Ext) (args : List Value) : Res Value :=
  match args with
  | [a] => castRes a Value.string (E.toStringE a)
  | _ => .error (.invalidNumberOfArguments args.length)

/-- intFunc is the int function: INT(expr) converts expr to int. -/
def intFunc (E : Ext) (args : List Value) : Res Value :=
  match args with
  | [a] => castRes a Value.int64 (E.toInt64E a)
  | _ => .error (.invalidNumberOfArguments args.length)

/-- The last two lines of `floatFunc`:
`math.Round(floatNum*precisionPow) / precisionPow` with `precisionPow = math.Pow(10, precision)`. -/
def roundAt (E : Ext) (floatNum precision : Nat) : Nat :=
  F64.div (F64.round (F64.mul floatNum (E.pow F64.ten precision))) (E.pow F64.ten precision)

/-- floatFunc is the float function: FLOAT(expr, precision) converts expr to float;
precision is the number of digits after the decimal point, 2 by default. -/
def floatFunc (E : Ext) (args : List Value) : Res Value :=
  match args with
  | [a] =>
    match E.toFloat64E a with
    | none => .error (.cast a)
    | some floatNum => .ok (.float64 (roundAt E floatNum F64.two))
  | [a, b] =>
    match E.toFloat64E a with
    | none => .error (.cast a)
    | some floatNum =>
      match E.toUintE b with
      | none => .error (.cast b)
      | some uintPrecision => .ok (.float64 (roundAt E floatNum (F64.ofInt uintPrecision)))
  | _ => .error (.invalidNumberOfArguments args.length)

/-- boolFunc is the bool function: BOOL(expr) converts expr to bool. -/
def boolFunc (E : Ext) (args : List Value) : Res Value :=
  match args with
  | [a] => castRes a Value.bool (E.toBoolE a)
  | _ => .error (.invalidNumberOfArguments args.length)

/-- objectFunc is the object function: OBJECT(expr, default). -/
def objectFunc (E : Ext) (args : List Value) : Res Value :=
  match args with
  | [a] => .ok (.bool (E.toBool a))
  | [a, b] => if E.toBool a then .ok (.bool (E.toBool a)) else .ok b
  | _ => .error (.invalidNumberOfArguments args.length)

/-- The type assertions of `arrayFunc`: a `[]any` or a `[]map[string]any`. -/
def isArray : Value → Bool
  | .slice _ => true
  | .mapSlice _ => true
  | _ => false

/-- arrayFunc is the array function: ARRAY(expr, default). -/
def arrayFunc (_ : Ext) (args : List Value) : Res Value :=
  match args with
  | [_] => .ok (.bool true)
  | [a, b] => if isArray a then .ok (.bool true) else .ok b
  | _ => .error (.invalidNumberOfArguments args.length)

/-- setFunc is the set function: SET(expr) returns expr. -/
def setFunc (_ : Ext) (args : List Value) : Res Value :=
  match args with
  | [a] => .ok a
  | _ => .error (.invalidNumberOfArguments args.length)

/-- varFunc is the var function: VAR(expr, default) returns default if expr is nil. -/
def varFunc (_ : Ext) (args : List Value) : Res Value :=
  match args with
  | [a, b] =>
    match a with
    | .nil => .ok b
    | _ => .ok a
  | _ => .error (.invalidNumberOfArguments args.length)

/-- lenFunc is the len function: the number of characters of a string, of elements of
an array, of keys of an object; an error for every other type. -/
def lenFunc (_ : Ext) (args : List Value) : Res Value :=
  match args with
  | [a] =>
    match a with
    | .string arg => .ok (.int arg.length)
    | .slice arg => .ok (.int arg.length)
    | .map arg => .ok (.int arg.length)
    | arg => .error (.invalidType (typeOf arg))
  | _ => .error (.invalidNumberOfArguments args.length)

/-- utf8string.NewString(str).Slice(start, end): the characters at the offsets
`[start, end)`; `none` stands for the panic of an offset out of range. -/
def utf8Slice (str : Str) (start stop : Int) : Option Str :=
  if 0 ≤ start ∧ start ≤ stop ∧ stop ≤ str.length then
    some ((str.drop start.toNat).take (stop.toNat - start.toNat))
  else none

/-- sliceStrFunc is the sliceStr function: SLICE_STR(str, start, end).  The panic of
`Slice` is recovered by the deferred function and turned into an error. -/
def sliceStrFunc (E : Ext) (args : List Value) : Res Value :=
  match args with
  | [a, b, c] =>
    let str := (E.toStringE a).getD []
    match E.toIntE b with
    | none => .error (.cast b)
    | some start =>
      match E.toIntE c with
      | none => .error (.cast c)
      | some stop =>
        match utf8Slice str start stop with
        | some anyStr => .ok (.string anyStr)
        | none => .error .invalidArguments
  | _ => .error (.invalidNumberOfArguments args.length)

/-- ifFunc is the if function: IF(expr, x, y) returns x if expr is true, else y. -/
def ifFunc (E : Ext) (args : List Value) : Res Value :=
  match args with
  | [a, x, y] =>
    match E.toBoolE a with
    | none => .error (.cast a)
    | some expr => if expr then .ok x else .ok y
  | _ => .error (.invalidNumberOfArguments args.length)

/-- The values `1, 3, 5, ...` that the loop variable of `switchFunc` takes below `n`. -/
def oddIndices (n : Nat) : List Nat := (List.range n).filter (fun i => i % 2 == 1)

/-- The condition under which the loop of `switchFunc` returns at index `i`. -/
def switchMatch (args : List Value) (i : Nat) : Bool :=
  decide (typeOf (args.getD 0 .nil) = typeOf (args.getD i .nil)) &&
  deepEqual (args.getD 0 .nil) (args.getD i .nil)

/-- switchFunc is the switch function: SWITCH(expr, x1, y1, ..., xn, yn, default).
The loop returns `args[i+1]` at the first odd `i < len(args)` whose `args[i]` has the
type of `expr` and is deeply equal to it; after the loop the last argument is returned. -/
def switchFunc (_ : Ext) (args : List Value) : Res Value :=
  if args.length % 2 ≠ 0 then .error (.invalidOddNumberOfArguments args.length)
  else if args.length = 0 then .error (.invalidNumberOfArguments args.length)
  else if args.length = 2 then index args 1
  else
    match (oddIndices args.length).find? (switchMatch args) with
    | some i => index args (i + 1)
    | none => index args (args.length - 1)

/-- The loop of `andFunc`. -/
def andLoop (E : Ext) : List Value → Res Value
  | [] => .ok (.bool true)
  | arg :: rest =>
    match E.toBoolE arg with
    | none => .error (.cast arg)
    | some expr => if !expr then .ok (.bool false) else andLoop E rest

/-- andFunc is the and function: AND(expr1, ..., exprn). -/
def andFunc (E : Ext) (args : List Value) : Res Value :=
  if args.length = 0 then .error (.invalidNumberOfArguments args.length)
  else andLoop E args

/-- The loop of `orFunc`. -/
def orLoop (E : Ext) : List Value → Res Value
  | [] => .ok (.bool false)
  | arg :: rest =>
    match E.toBoolE arg with
    | none => .error (.cast arg)
    | some expr => if expr then .ok (.bool true) else orLoop E rest

/-- orFunc is the or function: OR(expr1, ..., exprn). -/
def orFunc (E : Ext) (args : List Value) : Res Value :=
  if args.length = 0 then .error (.invalidNumberOfArguments args.length)
  else orLoop E args

/-- The common body of the four comparison functions. -/
def compareFunc (cmp : Nat → Nat → Bool) (E : Ext) (args : List Value) : Res Value :=
  match args with
  | [a, b] =>
    match E.toFloat64E a with
    | none => .error (.cast a)
    | some first =>
      match E.toFloat64E b with
      | none => .error (.cast b)
      | some second => .ok (.bool (cmp first second))
  | _ => .error (.invalidNumberOfArguments args.length)

/-- gteFunc is the greater than or equal function: GTE(expr1, expr2). -/
def gteFunc : Ext → List Value → Res Value := compareFunc (fun x y => F64.ge x y)
/-- gtFunc is the greater than function: GT(expr1, expr2). -/
def gtFunc : Ext → List Value → Res Value := compareFunc (fun x y => F64.gt x y)
/-- lteFunc is the less than or equal function: LTE(expr1, expr2). -/
def lteFunc : Ext → List Value → Res Value := compareFunc (fun x y => F64.le x y)
/-- ltFunc is the less than function: LT(expr1, expr2). -/
def ltFunc : Ext → List Value → Res Value := compareFunc (fun x y => F64.lt x y)

/-- fnFunc is a map that contains all functions. -/
def fnFunc : List (Func × (Ext → List Value → Res Value)) :=
  [(Func.String, stringFunc), (Func.Int, intFunc), (Func.Float, floatFunc),
   (Func.Bool, boolFunc), (Func.Object, objectFunc), (Func.Array, arrayFunc),
   (Func.Var, varFunc), (Func.Set, setFunc), (Func.Len, lenFunc),
   (Func.SliceStr, sliceStrFunc), (Func.If, ifFunc), (Func.Switch, switchFunc),
   (Func.And, andFunc), (Func.Or, orFunc), (Func.Gte, gteFunc), (Func.Gt, gtFunc),
   (Func.Lte, lteFunc), (Func.Lt, ltFunc)]

/-- The index expression `fnFunc[fnStr]` with its `ok` flag. -/
def fnFuncAt (fnStr : Func) : Option (Ext → List Value → Res Value) :=
  (fnFunc.find? (fun e => e.1 == fnStr)).map Prod.snd

/-! ## parser.go -/

/-- Parser parses a string and returns the result. -/
structure Parser where
  input : List (Str × Value)
  funcStack : List Func

/-- NewParser creates a new parser. -/
def NewParser (input : List (Str × Value)) : Parser := ⟨input, []⟩

/-- The loop of `removeWhitespace`: `parts[i] = strings.TrimSpace(parts[i])` for even `i`. -/
def trimEven : List Str → List Str
  | [] => []
  | [a] => [trimSpace a]
  | a :: b :: rest => trimSpace a :: b :: trimEven rest

/-- removeWhitespace remove all spaces except if inside two apostrophes which defines
a hardcoded string. -/
def removeWhitespace (str : Str) : Str :=
  joinChar Apostrophe (trimEven (splitChar Apostrophe str))

/-- The local variables of `splitArgs`. -/
structure SplitState where
  result : List Str
  buffer : Str
  openBrackets : Nat
  openApostrophes : Bool

/-- The body of the loop of `splitArgs`. -/
def splitArgsStep (st : SplitState) (char : Char) : SplitState :=
  if char = Apostrophe then
    ⟨st.result, st.buffer ++ [char], st.openBrackets, !st.openApostrophes⟩
  else if char = LeftBracket ∨ char = LeftSquareBracket then
    ⟨st.result, st.buffer ++ [char], st.openBrackets + 1, st.openApostrophes⟩
  else if char = RightBracket ∨ char = RightSquareBracket then
    if 0 < st.openBrackets then
      ⟨st.result, st.buffer ++ [char], st.openBrackets - 1, st.openApostrophes⟩
    else st
  else if char = Comma then
    if st.openBrackets = 0 ∧ st.openApostrophes = false then
      if 0 < st.buffer.length then ⟨st.result ++ [st.buffer], [], st.openBrackets, st.openApostrophes⟩
      else st
    else ⟨st.result, st.buffer ++ [char], st.openBrackets, st.openApostrophes⟩
  else ⟨st.result, st.buffer ++ [char], st.openBrackets, st.openApostrophes⟩

/-- splitArgs split args string by comma except for inside other operators:
brackets, apostrophes, square brackets. -/
def splitArgs (str : Str) : List Str :=
  let st := str.foldl splitArgsStep ⟨[], [], 0, false⟩
  if 0 < st.buffer.length then st.result ++ [st.buffer] else st.result

/-- The map that `parseInputByKey` builds from a `[]any`: the element at `i` under the
key `cast.ToString(i)`. -/
def reindex (xs : List Value) : List (Str × Value) :=
  xs.enum.map (fun iv => (formatInt iv.1, iv.2))

/-- The loop of `parseInputByKey` over the parts of the key that are left. -/
def keyLoop (inputTemp : List (Str × Value)) : List Str → Value
  | [] => .nil
  | keyPart :: rest =>
    match lookupKey keyPart inputTemp with
    | some val =>
      match val with
      | .map m => if rest.isEmpty then val else keyLoop m rest
      | .slice xs => if rest.isEmpty then val else keyLoop (reindex xs) rest
      | .mapSlice ms => if rest.isEmpty then val else keyLoop (reindex (ms.map Value.map)) rest
      | _ => val
    | none => keyLoop inputTemp rest

/-- parseInputByKey parse input by key, e.g. [key1.key2.key3]. -/
def parseInputByKey (p : Parser) (str : Str) : Res Value :=
  let key := trimSuffixOf (trimPrefixOf str [LeftSquareBracket]) [RightSquareBracket]
  let keyParts := splitChar Dot key
  .ok (keyLoop p.input keyParts)

/-- The index expression `constMap[c]` with its `ok` flag. -/
def constMapAt (c : Const) : Option Value :=
  (constMap.find? (fun e => e.1 == c)).map Prod.snd

/-- The branch of `Parse` for a text without operator: an integer, a float, a string
between apostrophes, a key path between square brackets, or a constant. -/
def parseLiteral (E : Ext) (p : Parser) (str : Str) : Res Value :=
  match parseInt str with
  | some strInt => .ok (.int64 strInt)
  | none =>
    match E.parseFloat str with
    | some strFloat => .ok (.float64 strFloat)
    | none =>
      if hasPrefixOf str [Apostrophe] && hasSuffixOf str [Apostrophe] then
        .ok (.string (trimSuffixOf (trimPrefixOf str [Apostrophe]) [Apostrophe]))
      else if hasPrefixOf str [LeftSquareBracket] && hasSuffixOf str [RightSquareBracket] then
        parseInputByKey p str
      else
        match constMapAt (E.toUpper str) with
        | some constant => .ok constant
        | none => .error (.unknownString str)

/-- The deferred function of `Parse`: `p.funcStack = p.funcStack[:len(p.funcStack)-1]`. -/
def popFunc (p : Parser) : Parser := ⟨p.input, p.funcStack.dropLast⟩

/-- The loop of `Parse` over the argument texts; `rec i` is the recursive call for the
argument at position `i`. -/
def parseArgs (rec : Nat → Parser → Str → Option (Res Value × Parser)) :
    Parser → List Str → List Value → Option (Res (List Value) × Parser)
  | p, [], args => some (.ok args, p)
  | p, a :: rest, args =>
    match rec args.length p a with
    | none => none
    | some (.ok arg, p1) => parseArgs rec p1 rest (args ++ [arg])
    | some (.error err, p1) => some (.error err, p1)
    | some (.panic x, p1) => some (.panic x, p1)

/-- Parse parses a string and returns the result.

* `visit` gives, for each call of `Parse`, the order in which the `range` of its call of
  `containsOp` visits the keys of `opFunc`; a call is named by its place in the tree of
  recursive calls (`path`): the call for the argument at position `i` of a function call
  is the child `i`, the calls for the left and the right operand of an operator are the
  children `0` and `1`.
* The first `Nat` bounds the depth of the recursion; `none` is returned when the bound
  is reached.
* The result comes with the parser as the call leaves it. -/
def Parse (E : Ext) (visit : List Nat → List Operator) :
    Nat → List Nat → Parser → Str → Option (Res Value × Parser)
  | 0, _, _, _ => none
  | fuel + 1, path, p, str0 =>
    let str := removeWhitespace str0
    let fnStr : Func := beforeFirst LeftBracket str
    match fnFuncAt fnStr with
    | some fn =>
      let argStr := trimSuffixOf (trimPrefixOf str (fnStr ++ [LeftBracket])) [RightBracket]
      match parseArgs (fun i => Parse E visit fuel (path ++ [i]))
          ⟨p.input, p.funcStack ++ [fnStr]⟩ (splitArgs argStr) [] with
      | none => none
      | some (.ok args, p1) =>
        match fn E args with
        | .ok res => some (.ok res, popFunc p1)
        | .error err => some (.error (.func fnStr err), popFunc p1)
        | .panic x => some (.panic x, popFunc p1)
      | some (.error err, p1) => some (.error err, popFunc p1)
      | some (.panic x, p1) => some (.panic x, popFunc p1)
    | none =>
      match containsOp (visit path) str with
      | some op =>
        match lastIndex op str with
        | none => some (.panic .sliceBoundsOutOfRange, p)
        | some idx =>
          match Parse E visit fuel (path ++ [0]) p (str.take idx) with
          | none => none
          | some (.ok x, p1) =>
            match Parse E visit fuel (path ++ [1]) p1 (str.drop (idx + 1)) with
            | none => none
            | some (.ok y, p2) =>
              match opFuncAt op with
              | some f => some (.ok (f E x y), p2)
              | none => some (.panic .nilFunc, p2)
            | some (.error err, p2) => some (.error err, p2)
            | some (.panic x, p2) => some (.panic x, p2)
          | some (.error err, p1) => some (.error err, p1)
          | some (.panic x, p1) => some (.panic x, p1)
      | none => some (parseLiteral E p str, p)

/-! ## An instance of the libraries

`refExt` runs the definitions on concrete inputs.  It covers the plain cases of the
libraries: decimal float literals, the ASCII letters, the conversions between
`nil`, `bool`, the integers, `float64` and `string` that are listed at each function,
and integer powers.  Everything else is answered with an error. -/

/-- The characters of `s` in lower case. -/
def Ref.lower (s : Str) : Str := s.map Char.toLower

/-- An optional sign in front of a text. -/
def Ref.sign (s : Str) : Bool × Str :=
  match s with
  | [] => (false, [])
  | c :: r => if c = '-' then (true, r) else if c = '+' then (false, r) else (false, c :: r)

/-- The decimal exponent after the mantissa: nothing, or `e` with a signed run of digits. -/
def Ref.exponent (s : Str) : Option Int :=
  match s with
  | [] => some 0
  | c :: r =>
    if c = 'e' ∨ c = 'E' then
      match parseUintDigits (Ref.sign r).2 with
      | some n => some (if (Ref.sign r).1 then -(n : Int) else (n : Int))
      | none => none
    else none

/-- The fraction digits after the integer digits, and what follows them. -/
def Ref.fraction (s : Str) : Str × Str :=
  match s with
  | [] => ([], [])
  | c :: r => if c = '.' then (r.takeWhile Char.isDigit, r.dropWhile Char.isDigit) else ([], c :: r)

/-- A decimal literal `[sign] digits [. digits] [e [sign] digits]` of at most 300 digits,
rounded to the nearest float64; `none` when the text is not of this form or the value
is out of range. -/
def Ref.parseDecimal (s : Str) : Option Nat :=
  let neg := (Ref.sign s).1
  let ip := (Ref.sign s).2.takeWhile Char.isDigit
  let fp := (Ref.fraction ((Ref.sign s).2.dropWhile Char.isDigit)).1
  let rest := (Ref.fraction ((Ref.sign s).2.dropWhile Char.isDigit)).2
  if (ip = [] ∧ fp = []) ∨ 300 < ip.length + fp.length then none
  else
    match Ref.exponent rest with
    | none => none
    | some ex =>
      let m := (parseDigits (ip ++ fp) 0).getD 0
      let k : Int := ex - fp.length
      if m = 0 then some (F64.withSign neg 0)
      else if 310 < k then none
      else if k < -700 then some (F64.withSign neg 0)
      else
        let r := if 0 ≤ k then F64.roundScaled neg (m * 10 ^ k.toNat) 1 0
                 else F64.roundScaled neg m (10 ^ (-k).toNat) 0
        if F64.isInf r then none else some r

/-- The texts `inf`, `infinity` (with an optional sign) and `nan`, in any case, and the
decimal literals of `Ref.parseDecimal`. -/
def Ref.parseFloat (s : Str) : Option Nat :=
  if s = [] ∨ !s.all floatChar then none
  else if Ref.lower s = "nan".toList then some F64.nan
  else if Ref.lower (Ref.sign s).2 = "inf".toList ∨ Ref.lower (Ref.sign s).2 = "infinity".toList then
    some (F64.withSign (Ref.sign s).1 F64.inf)
  else Ref.parseDecimal s

/-- strconv.ParseBool. -/
def Ref.parseBool (s : Str) : Option Bool :=
  if s ∈ ["1".toList, "t".toList, "T".toList, "TRUE".toList, "true".toList, "True".toList] then
    some true
  else if s ∈ ["0".toList, "f".toList, "F".toList, "FALSE".toList, "false".toList, "False".toList] then
    some false
  else none

/-- ToStringE on `nil`, `bool`, integers and `string`. -/
def Ref.toStringE : Value → Option Str
  | .string s => some s
  | .bool b => some (if b then "true".toList else "false".toList)
  | .int n => some (formatInt n)
  | .int64 n => some (formatInt n)
  | .nil => some []
  | _ => none

/-- ToInt64E and ToIntE on `nil`, `bool` and integers. -/
def Ref.toInt64E : Value → Option Int
  | .int64 n => some n
  | .int n => some n
  | .bool b => some (if b then 1 else 0)
  | .nil => some 0
  | _ => none

/-- ToUintE on `nil`, `bool` and integers that are not negative. -/
def Ref.toUintE : Value → Option Nat
  | .int64 n => if n < 0 then none else some n.toNat
  | .int n => if n < 0 then none else some n.toNat
  | .bool b => some (if b then 1 else 0)
  | .nil => some 0
  | _ => none

/-- ToFloat64E on `nil`, `bool`, integers, `float64` and decimal texts. -/
def Ref.toFloat64E : Value → Option Nat
  | .float64 f => some f
  | .int64 n => some (F64.ofInt n)
  | .int n => some (F64.ofInt n)
  | .bool b => some (if b then F64.ofInt 1 else 0)
  | .nil => some 0
  | .string s => Ref.parseFloat s
  | _ => none

/-- ToBoolE on `nil`, `bool`, integers and texts. -/
def Ref.toBoolE : Value → Option Bool
  | .bool b => some b
  | .nil => some false
  | .int n => some (n != 0)
  | .int64 n => some (n != 0)
  | .string s => Ref.parseBool s
  | _ => none

/-- The power `x ^ y` for a finite `x` and a whole `y` with `0 ≤ y ≤ 64`, rounded once;
NaN otherwise. -/
def Ref.pow (x y : Nat) : Nat :=
  if F64.isNaN x || F64.isInf x || F64.neg y || decide (1029 < F64.expField y) then F64.nan
  else if F64.isZero y then F64.ofInt 1
  else
    let k := (F64.quot (F64.sig y) 1 (F64.expo y)).1
    if (F64.quot (F64.sig y) 1 (F64.expo y)).2.1 = 0 ∧ k ≤ 64 then
      F64.roundScaled (F64.neg x && k % 2 == 1) (F64.sig x ^ k) 1 (F64.expo x * k)
    else F64.nan

/-- The instance. -/
def refExt : Ext where
  parseFloat := Ref.parseFloat
  unicodeToUpper := Char.toUpper
  toStringE := Ref.toStringE
  toInt64E := Ref.toInt64E
  toIntE := Ref.toInt64E
  toUintE := Ref.toUintE
  toFloat64E := Ref.toFloat64E
  toBoolE := Ref.toBoolE
  pow := Ref.pow
  parseFloat_chars := by
    intro s f h
    unfold Ref.parseFloat at h
    split at h
    · exact absurd h (by simp)
    · rename_i hc
      have h1 : s ≠ [] := fun h0 => hc (Or.inl h0)
      have h2 : s.all floatChar = true := by
        cases hall : s.all floatChar
        · exact absurd (Or.inr (by simp [hall])) hc
        · rfl
      exact ⟨h1, fun c hcs => List.all_eq_true.mp h2 c hcs⟩
  unicodeToUpper_ascii := fun _ _ => rfl
  toStringE_string := fun _ => rfl
  toInt64E_int64 := fun _ => rfl
  toIntE_int := fun _ => rfl
  toIntE_int64 := fun _ => rfl
  toFloat64E_float64 := fun _ => rfl
  toFloat64E_int64 := fun _ => rfl
  toBoolE_bool := fun _ => rfl

/-- The order of the keys of `opFunc` in the source text, one of the orders in which
`range opFunc` can visit them. -/
def sourceOrder : List Operator := opKeys

/-- The same visiting order in every call of `containsOp`. -/
def always (order : List Operator) : List Nat → List Operator := fun _ => order

/-! ## Calls and their argument texts -/

/-- The text of a call: the function name, `(`, the argument texts with a comma between
them, `)`. -/
def callText (fnStr : Func) (args : List Str) : Str :=
  fnStr ++ LeftBracket :: (joinChar Comma args ++ [RightBracket])

/-- The parser while `Parse` evaluates the arguments of a call of `fnStr`: the name is on
the stack. -/
def pushFunc (p : Parser) (fnStr : Func) : Parser := ⟨p.input, p.funcStack ++ [fnStr]⟩

/-- The result of `Parse` without the parser. -/
def eval (E : Ext) (visit : List Nat → List Operator) (fuel : Nat) (path : List Nat)
    (p : Parser) (str : Str) : Option (Res Value) :=
  (Parse E visit fuel path p str).map Prod.fst

/-- An opening parenthesis or an opening square bracket. -/
def isOpener (c : Char) : Bool := c == LeftBracket || c == LeftSquareBracket

/-- A closing parenthesis or a closing square bracket. -/
def isCloser (c : Char) : Bool := c == RightBracket || c == RightSquareBracket

/-- The number of opening brackets of a text. -/
def openers (s : Str) : Nat := s.countP isOpener

/-- The number of closing brackets of a text. -/
def closers (s : Str) : Nat := s.countP isCloser

/-- The number of apostrophes of a text. -/
def quotes (s : Str) : Nat := s.countP (fun c => c == Apostrophe)

/-- A well-formed argument text: it is not empty, it has an even number of apostrophes,
its brackets are balanced and no prefix has more closers than openers, and each of its
commas stands at bracket depth > 0 or inside an open quote. -/
def WellFormedArg (a : Str) : Prop :=
  a ≠ [] ∧ quotes a % 2 = 0 ∧ openers a = closers a ∧
  (∀ i, i ≤ a.length → closers (a.take i) ≤ openers (a.take i)) ∧
  (∀ i, i < a.length → a.get? i = some Comma →
    closers (a.take i) < openers (a.take i) ∨ quotes (a.take i) % 2 = 1)

instance (a : Str) : Decidable (WellFormedArg a) :=
  inferInstanceAs (Decidable (_ ∧ _ ∧ _ ∧ _ ∧ _))

/-- The bracket counter and the quote flag of `splitArgs` after a character that it
writes to the buffer; `none` for a character that it does not write there: a comma at
top level, or a closing bracket while the counter is 0. -/
def scanStep (st : Nat × Bool) (c : Char) : Option (Nat × Bool) :=
  if c = Apostrophe then some (st.1, !st.2)
  else if c = LeftBracket ∨ c = LeftSquareBracket then some (st.1 + 1, st.2)
  else if c = RightBracket ∨ c = RightSquareBracket then
    if 0 < st.1 then some (st.1 - 1, st.2) else none
  else if c = Comma then
    if st.1 = 0 ∧ st.2 = false then none else some st
  else some st

/-- The counter and the flag of `splitArgs` after a text all of whose characters are
written to the buffer. -/
def scanArg : Nat × Bool → Str → Option (Nat × Bool)
  | st, [] => some st
  | st, c :: cs => (scanStep st c).bind (fun st2 => scanArg st2 cs)

/-! ## White space next to apostrophes -/

/-- The text without its leading white space. -/
def trimL (s : Str) : Str := s.dropWhile isSpace

/-- The text without its trailing white space. -/
def trimR (s : Str) : Str := (s.reverse.dropWhile isSpace).reverse

/-- The span `t` without its leading white space if `l` is set and without its trailing
white space if `r` is set. -/
def trimBoth (l r : Bool) (t : Str) : Str :=
  if r then trimR (if l then trimL t else t) else (if l then trimL t else t)

/-- The spans of a text, those outside the apostrophes (at the even offsets) trimmed:
the first of them at its left end only if `l` is set, the last of them at its right end
only if `r` is set, at both ends otherwise. -/
def trimSpans (l r : Bool) : List Str → List Str
  | [] => []
  | [t] => [trimBoth l r t]
  | t :: q :: rest => trimBoth l true t :: q :: trimSpans true r rest

/-- The text with the spans outside its apostrophes trimmed as `trimSpans` tells;
`removeWhitespace` is the case of both flags set. -/
def trimOutside (l r : Bool) (s : Str) : Str :=
  joinChar Apostrophe (trimSpans l r (splitChar Apostrophe s))

/-- An argument text as `removeWhitespace` leaves it where it stands in a call, between
an opening bracket or a comma and a comma or a closing bracket: the white space next to
its apostrophes, outside them, is removed. -/
def normInner (s : Str) : Str := trimOutside false false s

/-! ## The trace of an error -/

/-- The error has an entry `func fnStr: ...` for the function `fnStr`, at any depth of
its wrapping. -/
def Err.carries (fnStr : Func) : Err → Bool
  | .func g err => g == fnStr || Err.carries fnStr err
  | _ => false

/-! ## The input path resolver in the words of the specification -/

/-- The Input Path Resolver as the specification words it: start at the input document
and look up each segment as a key of the current container; descend into a Map value,
reindex a List value by its decimal indices and descend into that; return the value of
the last segment, Null when the last segment is not a key.  The answer is `none` when a
segment before the last is not a key of the container reached so far, or is a key of
something that is neither a Map nor a List. -/
def resolvePath : List (Str × Value) → List Str → Option Value
  | _, [] => none
  | m, [k] => some ((lookupKey k m).getD .nil)
  | m, k :: k2 :: rest =>
    match lookupKey k m with
    | some (.map m2) => resolvePath m2 (k2 :: rest)
    | some (.slice xs) => resolvePath (reindex xs) (k2 :: rest)
    | some (.mapSlice ms) => resolvePath (reindex (ms.map Value.map)) (k2 :: rest)
    | _ => none

/-! ## parser_test.go -/

/-- One row of the table of `TestParser_Parse`. -/
structure TestCase where
  name : String
  input : String
  jsonInput : List (Str × Value)
  want : Value
  wantErr : Bool

/-- The table of `TestParser_Parse`; the float64 `123.45` is written as its bit pattern. -/
def parserTests : List TestCase :=
  [
   ⟨"simple string", "STRING('hello world')", [], .string "hello world".toList, false⟩,
   ⟨"empty string", "STRING()", [], .nil, true⟩,
   ⟨"simple int", "INT(123)", [], .int64 123, false⟩,
   ⟨"empty int", "INT()", [], .nil, true⟩,
   ⟨"simple float", "FLOAT(123.45)", [], .float64 0x405EDCCCCCCCCCCD, false⟩,
   ⟨"simple float with precision", "FLOAT(123.45, 2)", [], .float64 0x405EDCCCCCCCCCCD, false⟩,
   ⟨"error float", "FLOAT('two point five')", [], .nil, true⟩,
   ⟨"empty float", "FLOAT()", [], .nil, true⟩,
   ⟨"error float with precision", "FLOAT(123.45, 'two')", [], .nil, true⟩,
   ⟨"simple bool", "BOOL(TRUE)", [], .bool true, false⟩,
   ⟨"empty bool", "BOOL()", [], .nil, true⟩,
   ⟨"simple set", "SET(STRING('hello world'))", [], .string "hello world".toList, false⟩,
   ⟨"simple var", "VAR('a', 'b')", [], .string "a".toList, false⟩,
   ⟨"default var", "VAR([a], 'b')", [], .string "b".toList, false⟩,
   ⟨"error var", "VAR([a])", [], .nil, true⟩,
   ⟨"empty var", "VAR()", [], .nil, true⟩,
   ⟨"simple len from string", "LEN('hello world')", [], .int 11, false⟩,
   ⟨"simple len from input array", "LEN([a])", [("a".toList, .slice [.int 1, .int 2, .int 3])], .int 3, false⟩,
   ⟨"simple len from input map", "LEN([a])", [("a".toList, .map [("b".toList, .int 1), ("c".toList, .int 2)])], .int 2, false⟩,
   ⟨"error len", "LEN(123)", [], .nil, true⟩,
   ⟨"empty len", "LEN()", [], .nil, true⟩,
   ⟨"simple slice_str", "SLICE_STR('hello world', 0, 5)", [], .string "hello".toList, false⟩,
   ⟨"error slice_str invalid start", "SLICE_STR('hello world', 12, 5)", [], .nil, true⟩,
   ⟨"error slice_str second arg", "SLICE_STR('hello world', 'a', 5)", [], .nil, true⟩,
   ⟨"error slice_str third arg", "SLICE_STR('hello world', 0, 'a')", [], .nil, true⟩,
   ⟨"empty slice_str", "SLICE_STR()", [], .nil, true⟩,
   ⟨"empty set", "SET()", [], .nil, true⟩,
   ⟨"simple if", "IF(TRUE, STRING('hello world'), STRING('goodbye world'))", [], .string "hello world".toList, false⟩,
   ⟨"simple if else", "IF(FALSE, STRING('hello world'), STRING('goodbye world'))", [], .string "goodbye world".toList, false⟩,
   ⟨"error if expr", "IF('a', 'b', 'c')", [], .nil, true⟩,
   ⟨"empty if", "IF()", [], .nil, true⟩,
   ⟨"simple switch", "SWITCH([a], INT(1), 'one', 'zero')", [("a".toList, .int64 1)], .string "one".toList, false⟩,
   ⟨"simple switch default", "SWITCH([a], INT(1), 'one', 'zero')", [], .string "zero".toList, false⟩,
   ⟨"simple switch default only", "SWITCH([a], 'zero')", [], .string "zero".toList, false⟩,
   ⟨"error odd switch", "SWITCH([a], INT(1), 'zero')", [], .nil, true⟩,
   ⟨"error empty switch", "SWITCH()", [], .nil, true⟩,
   ⟨"simple and", "AND(TRUE, TRUE)", [], .bool true, false⟩,
   ⟨"simple and false", "AND(TRUE, FALSE)", [], .bool false, false⟩,
   ⟨"simple and error", "AND(TRUE, 'a')", [], .nil, true⟩,
   ⟨"empty and", "AND()", [], .nil, true⟩,
   ⟨"simple or", "OR(TRUE, FALSE)", [], .bool true, false⟩,
   ⟨"simple or false", "OR(FALSE, FALSE)", [], .bool false, false⟩,
   ⟨"simple or error", "OR('a', FALSE)", [], .nil, true⟩,
   ⟨"empty or", "OR()", [], .nil, true⟩,
   ⟨"simple gte", "GTE(INT(1), INT(1))", [], .bool true, false⟩,
   ⟨"simple gte false", "GTE(INT(1), INT(2))", [], .bool false, false⟩,
   ⟨"simple gte first error", "GTE('a', INT(1))", [], .nil, true⟩,
   ⟨"simple gte second error", "GTE(INT(1), 'a')", [], .nil, true⟩,
   ⟨"empty gte", "GTE()", [], .nil, true⟩,
   ⟨"simple gt", "GT(INT(2), INT(1))", [], .bool true, false⟩,
   ⟨"simple gt false", "GT(INT(1), INT(2))", [], .bool false, false⟩,
   ⟨"simple gt first error", "GT('a', INT(1))", [], .nil, true⟩,
   ⟨"simple gt second error", "GT(INT(1), 'a')", [], .nil, true⟩,
   ⟨"empty gt", "GT()", [], .nil, true⟩,
   ⟨"simple lte", "LTE(INT(1), INT(1))", [], .bool true, false⟩,
   ⟨"simple lte false", "LTE(INT(2), INT(1))", [], .bool false, false⟩,
   ⟨"simple lte first error", "LTE('a', INT(1))", [], .nil, true⟩,
   ⟨"simple lte second error", "LTE(INT(1), 'a')", [], .nil, true⟩,
   ⟨"empty lte", "LTE()", [], .nil, true⟩,
   ⟨"simple lt", "LT(INT(1), INT(2))", [], .bool true, false⟩,
   ⟨"simple lt false", "LT(INT(2), INT(1))", [], .bool false, false⟩,
   ⟨"simple lt first error", "LT('a', INT(1))", [], .nil, true⟩,
   ⟨"simple lt second error", "LT(INT(1), 'a')", [], .nil, true⟩,
   ⟨"empty lt", "LT()", [], .nil, true⟩]

/-- The body of the loop of `TestParser_Parse`: the row passes when the error is there
exactly if `wantErr` says so and the result equals `want`. -/
def testPasses (E : Ext) (tt : TestCase) : Bool :=
  match Parse E (always sourceOrder) 8 [] (NewParser tt.jsonInput) tt.input.toList with
  | some (.ok got, _) =>
    !tt.wantErr && decide (typeOf got = typeOf tt.want) && deepEqual got tt.want
  | some (.error _, _) => tt.wantErr && decide (typeOf tt.want = .nil)
  | _ => false

/-! ## Lemmas on strings -/

theorem splitChar_of_not_mem (sep : Char) (s : Str) (h : sep ∉ s) : splitChar sep s = [s] := by
  induction s with
  | nil => rfl
  | cons c cs ih =>
    have hc : c ≠ sep := fun e => h (by simp [e])
    have hcs : sep ∉ cs := fun e => h (List.mem_cons_of_mem _ e)
    simp [splitChar, hc, ih hcs]

theorem splitChar_append (sep : Char) (a b : Str) (h : sep ∉ a) :
    splitChar sep (a ++ sep :: b) = a :: splitChar sep b := by
  induction a with
  | nil => simp [splitChar]
  | cons c cs ih =>
    have hc : c ≠ sep := fun e => h (by simp [e])
    have hcs : sep ∉ cs := fun e => h (List.mem_cons_of_mem _ e)
    simp [splitChar, hc, ih hcs]

theorem splitChar_joinChar (sep : Char) (ks : List Str) (hne : ks ≠ [])
    (h : ∀ k ∈ ks, sep ∉ k) : splitChar sep (joinChar sep ks) = ks := by
  induction ks with
  | nil => exact absurd rfl hne
  | cons k rest ih =>
    cases rest with
    | nil => simpa [joinChar] using splitChar_of_not_mem sep k (h k (by simp))
    | cons q rest2 =>
      have hk : sep ∉ k := h k (by simp)
      have := ih (by simp) (fun x hx => h x (List.mem_cons_of_mem _ hx))
      simp only [joinChar]
      rw [splitChar_append sep k _ hk, this]

theorem trimSpace_eq_self (s : Str) (h1 : ∀ c, s.head? = some c → isSpace c = false)
    (h2 : ∀ c, s.getLast? = some c → isSpace c = false) : trimSpace s = s := by
  unfold trimSpace
  have e1 : s.dropWhile isSpace = s := by
    cases s with
    | nil => rfl
    | cons c cs => simp [List.dropWhile, h1 c rfl]
  rw [e1]
  have e2 : s.reverse.dropWhile isSpace = s.reverse := by
    cases hr : s.reverse with
    | nil => rfl
    | cons c cs =>
      have : s.getLast? = some c := by
        rw [List.getLast?_eq_head?_reverse, hr]; rfl
      simp [List.dropWhile, h2 c this]
  rw [e2, List.reverse_reverse]

theorem removeWhitespace_of_not_mem (s : Str) (h : Apostrophe ∉ s)
    (h1 : ∀ c, s.head? = some c → isSpace c = false)
    (h2 : ∀ c, s.getLast? = some c → isSpace c = false) : removeWhitespace s = s := by
  unfold removeWhitespace
  rw [splitChar_of_not_mem _ _ h]
  simp [trimEven, joinChar, trimSpace_eq_self s h1 h2]

theorem trimPrefixOf_append (pre s : Str) : trimPrefixOf (pre ++ s) pre = s := by
  unfold trimPrefixOf hasPrefixOf
  have : pre.isPrefixOf (pre ++ s) = true := by
    rw [List.isPrefixOf_iff_prefix]; exact List.prefix_append _ _
  simp [this]

theorem trimSuffixOf_append (s suf : Str) : trimSuffixOf (s ++ suf) suf = s := by
  unfold trimSuffixOf hasSuffixOf
  have : suf.reverse.isPrefixOf (s ++ suf).reverse = true := by
    rw [List.isPrefixOf_iff_prefix, List.reverse_append]; exact List.prefix_append _ _
  simp [this]

theorem beforeFirst_append (sep : Char) (a b : Str) (h : sep ∉ a) :
    beforeFirst sep (a ++ sep :: b) = a := by
  unfold beforeFirst
  induction a with
  | nil => simp [List.takeWhile]
  | cons c cs ih =>
    have hc : (c != sep) = true := by
      simp only [bne_iff_ne, ne_eq]
      exact fun e => h (by simp [e])
    have hcs : sep ∉ cs := fun e => h (List.mem_cons_of_mem _ e)
    simp only [List.cons_append, List.takeWhile, hc]
    congr 1
    exact ih hcs

theorem beforeFirst_of_not_mem (sep : Char) (a : Str) (h : sep ∉ a) :
    beforeFirst sep a = a := by
  unfold beforeFirst
  induction a with
  | nil => rfl
  | cons c cs ih =>
    have hc : (c != sep) = true := by
      simp only [bne_iff_ne, ne_eq]
      exact fun e => h (by simp [e])
    have hcs : sep ∉ cs := fun e => h (List.mem_cons_of_mem _ e)
    simp only [List.cons_append, List.takeWhile, hc]
    congr 1
    exact ih hcs

/-! ## Lemmas on decimal digits -/

/-- The decimal digits are none of the characters that the parser looks for. -/
theorem digitChar_props (d : Nat) (h : d < 10) :
    digitChar d ≠ Apostrophe ∧ digitChar d ≠ LeftBracket ∧ digitChar d ≠ LeftSquareBracket ∧
    digitChar d ≠ RightBracket ∧ digitChar d ≠ RightSquareBracket ∧ digitChar d ≠ Comma ∧
    digitChar d ≠ Dot ∧ isSpace (digitChar d) = false ∧ (digitChar d).isUpper = false ∧
    digitChar d ≠ '=' ∧ digitChar d ≠ '<' ∧ digitChar d ≠ '*' ∧ digitChar d ≠ '/' ∧
    digitChar d ≠ '+' ∧ digitChar d ≠ '-' := by
  interval_cases d <;> decide

/-- The characters `0` to `9`. -/
theorem digitVal_digitChar (d : Nat) (h : d < 10) : digitVal (digitChar d) = some d := by
  interval_cases d <;> rfl

theorem formatBits_eq (n : Nat) : ∀ (f : Nat) (acc : Str), n < f →
    formatBits f n acc = formatUint n ++ acc := by
  induction n using Nat.strong_induction_on with
  | _ n ih =>
    intro f acc hf
    cases f with
    | zero => exact absurd hf (Nat.not_lt_zero _)
    | succ f =>
      by_cases h10 : n < 10
      · simp [formatBits, formatUint, h10]
      · have hlt : n / 10 < n := Nat.div_lt_self (by omega) (by decide)
        have e1 : formatBits (f + 1) n acc =
            formatUint (n / 10) ++ (digitChar (n % 10) :: acc) := by
          simp only [formatBits, h10, if_false]
          exact ih (n / 10) hlt f _ (by omega)
        have e2 : formatUint n = formatUint (n / 10) ++ [digitChar (n % 10)] := by
          have hn : n = (n - 1) + 1 := by omega
          unfold formatUint
          simp only [formatBits, h10, if_false]
          exact ih (n / 10) hlt n _ hlt
        rw [e1, e2]; simp

theorem formatUint_small (n : Nat) (h : n < 10) : formatUint n = [digitChar n] := by
  simp [formatUint, formatBits, h]

theorem formatUint_step (n : Nat) (h : ¬ n < 10) :
    formatUint n = formatUint (n / 10) ++ [digitChar (n % 10)] := by
  have hlt : n / 10 < n := Nat.div_lt_self (by omega) (by decide)
  unfold formatUint
  simp only [formatBits, h, if_false]
  exact formatBits_eq (n / 10) n _ hlt

theorem formatUint_digits (n : Nat) : ∀ c ∈ formatUint n, ∃ d, d < 10 ∧ c = digitChar d := by
  induction n using Nat.strong_induction_on with
  | _ n ih =>
    by_cases h10 : n < 10
    · rw [formatUint_small n h10]
      intro c hc
      exact ⟨n, h10, by simpa using hc⟩
    · rw [formatUint_step n h10]
      intro c hc
      rcases List.mem_append.mp hc with h | h
      · exact ih (n / 10) (Nat.div_lt_self (by omega) (by decide)) c h
      · exact ⟨n % 10, Nat.mod_lt _ (by decide), by simpa using h⟩

theorem formatUint_ne_nil (n : Nat) : formatUint n ≠ [] := by
  by_cases h10 : n < 10
  · rw [formatUint_small n h10]; simp
  · rw [formatUint_step n h10]; simp

theorem parseDigits_append (a b : Str) : ∀ acc,
    parseDigits (a ++ b) acc = (parseDigits a acc).bind (parseDigits b) := by
  induction a with
  | nil => intro acc; simp [parseDigits]
  | cons c cs ih =>
    intro acc
    simp only [List.cons_append, parseDigits]
    cases digitVal c with
    | none => simp
    | some d => simpa using ih (acc * 10 + d)

theorem parseDigits_formatUint (n : Nat) : parseDigits (formatUint n) 0 = some n := by
  induction n using Nat.strong_induction_on with
  | _ n ih =>
    by_cases h10 : n < 10
    · rw [formatUint_small n h10]
      simp [parseDigits, digitVal_digitChar n h10]
    · rw [formatUint_step n h10, parseDigits_append,
        ih (n / 10) (Nat.div_lt_self (by omega) (by decide))]
      simp only [Option.some_bind, parseDigits, digitVal_digitChar _ (Nat.mod_lt n (by decide))]
      congr 1
      omega

theorem formatUint_injective (m n : Nat) (h : formatUint m = formatUint n) : m = n := by
  have h1 := parseDigits_formatUint m
  rw [h, parseDigits_formatUint] at h1
  exact (Option.some.inj h1).symm

theorem formatInt_ofNat (n : Nat) : formatInt (n : Int) = formatUint n := by
  simp [formatInt]

theorem parseInt_formatUint (n : Nat) (h : n < 2 ^ 63) :
    parseInt (formatUint n) = some (n : Int) := by
  have hne := formatUint_ne_nil n
  have hp := parseDigits_formatUint n
  cases hs : formatUint n with
  | nil => exact absurd hs hne
  | cons c cs =>
    obtain ⟨d, hd, hc⟩ := formatUint_digits n c (by rw [hs]; simp)
    have h1 : c ≠ '-' := by
      rw [hc]; interval_cases d <;> decide
    have h2 : c ≠ '+' := by
      rw [hc]; interval_cases d <;> decide
    rw [hs] at hp
    have h3 : n < 9223372036854775808 := by norm_num at h; exact h
    simp [parseInt, h1, h2, parseUintDigits, hp, h3]

/-! ## Lemmas on the search for operators and function names -/

theorem indexOf_isSome_iff (sub : Str) : ∀ s : Str, (indexOf sub s).isSome = true ↔ sub <:+: s := by
  intro s
  induction s with
  | nil =>
    simp only [indexOf, List.infix_nil]
    by_cases h : sub = [] <;> simp [h]
  | cons c cs ih =>
    have e : indexOf sub (c :: cs) =
        if sub.isPrefixOf (c :: cs) then some 0 else (indexOf sub cs).map (fun i => i + 1) := rfl
    rw [List.infix_cons_iff, ← ih, ← List.isPrefixOf_iff_prefix, e]
    by_cases h : sub.isPrefixOf (c :: cs) = true
    · simp [h]
    · simp [h]

theorem containsStr_iff (s sub : Str) : containsStr s sub = true ↔ sub <:+: s :=
  indexOf_isSome_iff sub s

theorem containsStr_false_of_not_mem (s sub : Str) (c : Char) (hc : c ∈ sub) (h : c ∉ s) :
    containsStr s sub = false := by
  cases hx : containsStr s sub with
  | false => rfl
  | true =>
    have := (containsStr_iff s sub).mp hx
    exact absurd (this.subset hc) h

theorem containsOp_eq_none (order : List Operator) (s : Str)
    (h : ∀ op ∈ order, containsStr s op = false) : containsOp order s = none := by
  unfold containsOp
  rw [List.find?_eq_none]
  intro op hop
  simp [h op hop]

/-- Every operator symbol has a character among `= < * / + -`. -/
theorem opKeys_char (op : Operator) (h : op ∈ opKeys) :
    ∃ c ∈ op, c = '=' ∨ c = '<' ∨ c = '*' ∨ c = '/' ∨ c = '+' ∨ c = '-' := by
  simp only [opKeys, opFunc, List.map_cons, List.map_nil, List.mem_cons, List.mem_singleton,
    List.not_mem_nil, or_false] at h
  rcases h with h | h | h | h | h | h <;> subst h <;>
    simp [Operator.Eq, Operator.NotEq, Operator.Mul, Operator.Div, Operator.Add, Operator.Sub]

theorem containsOp_none_of_chars (order : List Operator) (s : Str) (hp : order.Perm opKeys)
    (h : ∀ c ∈ s, c ≠ '=' ∧ c ≠ '<' ∧ c ≠ '*' ∧ c ≠ '/' ∧ c ≠ '+' ∧ c ≠ '-') :
    containsOp order s = none := by
  apply containsOp_eq_none
  intro op hop
  obtain ⟨c, hc, hcc⟩ := opKeys_char op (hp.subset hop)
  apply containsStr_false_of_not_mem s op c hc
  intro hcs
  have := h c hcs
  rcases hcc with e | e | e | e | e | e <;> simp [e] at this

theorem infix_of_infix_wrap (a : Char) (sub s : Str) (hne : sub ≠ []) (ha : a ∉ sub)
    (h : sub <:+: a :: (s ++ [a])) : sub <:+: s := by
  rcases List.infix_cons_iff.mp h with h1 | h1
  · cases sub with
    | nil => exact absurd rfl hne
    | cons x xs =>
      obtain ⟨t, ht⟩ := h1
      simp only [List.cons_append, List.cons.injEq] at ht
      exact absurd (by simp [ht.1]) ha
  · have h2 : sub.reverse <:+: a :: s.reverse := by
      have := List.reverse_infix.mpr h1
      simpa using this
    rcases List.infix_cons_iff.mp h2 with h3 | h3
    · cases hr : sub.reverse with
      | nil => exact absurd (List.reverse_eq_nil_iff.mp hr) hne
      | cons x xs =>
        rw [hr] at h3
        obtain ⟨t, ht⟩ := h3
        simp only [List.cons_append, List.cons.injEq] at ht
        have : a ∈ sub.reverse := by rw [hr, ht.1]; simp
        exact absurd (List.mem_reverse.mp this) ha
    · exact List.reverse_infix.mp h3

theorem containsStr_wrap (a : Char) (sub s : Str) (hne : sub ≠ []) (ha : a ∉ sub)
    (h : containsStr s sub = false) : containsStr (a :: (s ++ [a])) sub = false := by
  cases hx : containsStr (a :: (s ++ [a])) sub with
  | false => rfl
  | true =>
    have h1 := infix_of_infix_wrap a sub s hne ha ((containsStr_iff _ _).mp hx)
    rw [(containsStr_iff _ _).mpr h1] at h
    exact absurd h (by simp)

theorem opKeys_no_apostrophe (op : Operator) (h : op ∈ opKeys) : op ≠ [] ∧ Apostrophe ∉ op := by
  simp only [opKeys, opFunc, List.map_cons, List.map_nil, List.mem_cons, List.mem_singleton,
    List.not_mem_nil, or_false] at h
  rcases h with h | h | h | h | h | h <;> subst h <;> decide

/-- No function name is the empty text and every function name begins with a capital letter. -/
theorem fnFuncAt_none_of_head (t : Str) (h : ∀ c, t.head? = some c → c.isUpper = false) :
    fnFuncAt t = none := by
  cases t with
  | nil => rfl
  | cons c cs =>
    have hc := h c rfl
    have e : ∀ (x : Char) (xs : Str), x.isUpper = true → ((x :: xs) == (c :: cs)) = false := by
      intro x xs hx
      have : x ≠ c := fun e => by rw [e, hc] at hx; exact absurd hx (by simp)
      simp [this]
    simp only [fnFuncAt, fnFunc, Func.String, Func.Int, Func.Float, Func.Bool, Func.Object,
      Func.Array, Func.Var, Func.Set, Func.Len, Func.SliceStr, Func.If, Func.Switch, Func.And,
      Func.Or, Func.Gte, Func.Gt, Func.Lte, Func.Lt, String.toList, List.find?]
    simp only [e _ _ (by decide : 'S'.isUpper = true), e _ _ (by decide : 'I'.isUpper = true),
      e _ _ (by decide : 'F'.isUpper = true), e _ _ (by decide : 'B'.isUpper = true),
      e _ _ (by decide : 'O'.isUpper = true), e _ _ (by decide : 'A'.isUpper = true),
      e _ _ (by decide : 'V'.isUpper = true), e _ _ (by decide : 'L'.isUpper = true),
      e _ _ (by decide : 'G'.isUpper = true)]
    rfl

/-- When one operator symbol alone occurs in a text, every visiting order finds it. -/
theorem containsOp_unique (order : List Operator) (hp : order.Perm opKeys) (s : Str)
    (o : Operator) (ho : o ∈ opKeys) (hc : containsStr s o = true)
    (hu : ∀ op ∈ opKeys, containsStr s op = true → op = o) : containsOp order s = some o := by
  unfold containsOp
  cases hf : order.find? (fun op => containsStr s op) with
  | none =>
    rw [List.find?_eq_none] at hf
    exact absurd hc (by simpa using hf o (hp.symm.subset ho))
  | some x =>
    have h1 := List.find?_some hf
    have h2 := List.mem_of_find?_eq_some hf
    rw [hu x (hp.subset h2) h1]

/-! ## Lemmas on `splitArgs` -/

theorem foldl_splitArgsStep_plain (s : Str) : ∀ (r : List Str) (buf : Str) (k : Nat) (q : Bool),
    (∀ c ∈ s, c ≠ Apostrophe ∧ c ≠ LeftBracket ∧ c ≠ LeftSquareBracket ∧ c ≠ RightBracket ∧
      c ≠ RightSquareBracket ∧ c ≠ Comma) →
    s.foldl splitArgsStep ⟨r, buf, k, q⟩ = ⟨r, buf ++ s, k, q⟩ := by
  induction s with
  | nil => intro r buf k q _; simp
  | cons c cs ih =>
    intro r buf k q h
    obtain ⟨h1, h2, h3, h4, h5, h6⟩ := h c (by simp)
    simp only [List.foldl_cons, splitArgsStep, h1, h2, h3, h4, h5, h6, if_false, or_self]
    rw [ih _ _ _ _ (fun x hx => h x (List.mem_cons_of_mem _ hx))]
    simp

theorem foldl_splitArgsStep_quoted (s : Str) : ∀ (r : List Str) (buf : Str) (k : Nat),
    (∀ c ∈ s, c ≠ Apostrophe ∧ c ≠ RightBracket ∧ c ≠ RightSquareBracket) →
    ∃ k2, s.foldl splitArgsStep ⟨r, buf, k, true⟩ = ⟨r, buf ++ s, k2, true⟩ := by
  induction s with
  | nil => intro r buf k _; exact ⟨k, by simp⟩
  | cons c cs ih =>
    intro r buf k h
    obtain ⟨h1, h4, h5⟩ := h c (by simp)
    have hrest := fun x hx => h x (List.mem_cons_of_mem _ hx)
    have step : ∃ k1, splitArgsStep ⟨r, buf, k, true⟩ c = ⟨r, buf ++ [c], k1, true⟩ := by
      by_cases hb : c = LeftBracket ∨ c = LeftSquareBracket
      · exact ⟨k + 1, by simp [splitArgsStep, h1, hb]⟩
      · by_cases hc : c = Comma
        · refine ⟨k, ?_⟩
          rw [hc] at h1 hb h4 h5 ⊢
          simp [splitArgsStep, h1, hb, h4, h5]
        · exact ⟨k, by simp [splitArgsStep, h1, hb, h4, h5, hc]⟩
    obtain ⟨k1, hk1⟩ := step
    obtain ⟨k2, hk⟩ := ih r (buf ++ [c]) k1 hrest
    refine ⟨k2, ?_⟩
    rw [List.foldl_cons, hk1, hk]
    simp

theorem splitArgs_plain (s : Str) (hne : s ≠ [])
    (h : ∀ c ∈ s, c ≠ Apostrophe ∧ c ≠ LeftBracket ∧ c ≠ LeftSquareBracket ∧ c ≠ RightBracket ∧
      c ≠ RightSquareBracket ∧ c ≠ Comma) : splitArgs s = [s] := by
  unfold splitArgs
  rw [foldl_splitArgsStep_plain s [] [] 0 false h]
  have : 0 < s.length := List.length_pos.mpr hne
  simp [this]

theorem splitArgs_quoted (s : Str)
    (h : ∀ c ∈ s, c ≠ Apostrophe ∧ c ≠ RightBracket ∧ c ≠ RightSquareBracket) :
    splitArgs (Apostrophe :: (s ++ [Apostrophe])) = [Apostrophe :: (s ++ [Apostrophe])] := by
  unfold splitArgs
  obtain ⟨k2, hk⟩ := foldl_splitArgsStep_quoted s [] [Apostrophe] 0 h
  have e : (Apostrophe :: (s ++ [Apostrophe])).foldl splitArgsStep ⟨[], [], 0, false⟩ =
      ⟨[], Apostrophe :: (s ++ [Apostrophe]), k2, false⟩ := by
    simp only [List.foldl_cons, List.foldl_append, List.foldl_nil]
    have e0 : splitArgsStep ⟨[], [], 0, false⟩ Apostrophe = ⟨[], [Apostrophe], 0, true⟩ := by
      simp [splitArgsStep]
    rw [e0, hk]
    simp [splitArgsStep]
  rw [e]
  simp

/-! ## Lemmas on `Parse` -/

/-- The branch of `Parse` for a text that is no function call and holds no operator. -/
theorem Parse_literal (E : Ext) (visit : List Nat → List Operator) (fuel : Nat)
    (path : List Nat) (p : Parser) (str0 : Str)
    (h1 : fnFuncAt (beforeFirst LeftBracket (removeWhitespace str0)) = none)
    (h2 : containsOp (visit path) (removeWhitespace str0) = none) :
    Parse E visit (fuel + 1) path p str0 =
      some (parseLiteral E p (removeWhitespace str0), p) := by
  simp only [Parse, h1, h2]

/-- The function call branch of `Parse`. -/
theorem Parse_call (E : Ext) (visit : List Nat → List Operator) (fuel : Nat)
    (path : List Nat) (p : Parser)
    (str0 : Str) (fnStr : Func) (fn : Ext → List Value → Res Value) (l : List Str)
    (h1 : beforeFirst LeftBracket (removeWhitespace str0) = fnStr)
    (h2 : fnFuncAt fnStr = some fn)
    (h3 : splitArgs (trimSuffixOf (trimPrefixOf (removeWhitespace str0) (fnStr ++ [LeftBracket]))
      [RightBracket]) = l) :
    Parse E visit (fuel + 1) path p str0 =
      match parseArgs (fun i => Parse E visit fuel (path ++ [i]))
          ⟨p.input, p.funcStack ++ [fnStr]⟩ l [] with
      | none => none
      | some (.ok args, p1) =>
        match fn E args with
        | .ok res => some (.ok res, popFunc p1)
        | .error err => some (.error (.func fnStr err), popFunc p1)
        | .panic x => some (.panic x, popFunc p1)
      | some (.error err, p1) => some (.error err, popFunc p1)
      | some (.panic x, p1) => some (.panic x, popFunc p1) := by
  subst h1 h3
  rw [Parse]
  simp only [h2]

/-- A function call with one argument text whose evaluation succeeds. -/
theorem Parse_call_one (E : Ext) (visit : List Nat → List Operator) (fuel : Nat)
    (path : List Nat) (p : Parser)
    (str0 : Str) (fnStr : Func) (fn : Ext → List Value → Res Value) (a : Str) (v : Value)
    (h1 : beforeFirst LeftBracket (removeWhitespace str0) = fnStr)
    (h2 : fnFuncAt fnStr = some fn)
    (h3 : splitArgs (trimSuffixOf (trimPrefixOf (removeWhitespace str0) (fnStr ++ [LeftBracket]))
      [RightBracket]) = [a])
    (h4 : Parse E visit fuel (path ++ [0]) ⟨p.input, p.funcStack ++ [fnStr]⟩ a =
      some (.ok v, ⟨p.input, p.funcStack ++ [fnStr]⟩)) :
    Parse E visit (fuel + 1) path p str0 =
      some ((match fn E [v] with
        | .ok res => .ok res
        | .error err => .error (.func fnStr err)
        | .panic x => .panic x), p) := by
  rw [Parse_call E visit fuel path p str0 fnStr fn [a] h1 h2 h3]
  simp only [parseArgs, List.length_nil, h4, List.nil_append, popFunc, List.dropLast_concat]
  cases fn E [v] <;> rfl

/-- The operator branch of `Parse`. -/
theorem Parse_op (E : Ext) (visit : List Nat → List Operator) (fuel : Nat)
    (path : List Nat) (p : Parser) (str0 : Str) (op : Operator) (idx : Nat)
    (h1 : fnFuncAt (beforeFirst LeftBracket (removeWhitespace str0)) = none)
    (h2 : containsOp (visit path) (removeWhitespace str0) = some op)
    (h3 : lastIndex op (removeWhitespace str0) = some idx) :
    Parse E visit (fuel + 1) path p str0 =
      match Parse E visit fuel (path ++ [0]) p ((removeWhitespace str0).take idx) with
      | none => none
      | some (.ok x, p1) =>
        match Parse E visit fuel (path ++ [1]) p1 ((removeWhitespace str0).drop (idx + 1)) with
        | none => none
        | some (.ok y, p2) =>
          match opFuncAt op with
          | some f => some (.ok (f E x y), p2)
          | none => some (.panic .nilFunc, p2)
        | some (.error err, p2) => some (.error err, p2)
        | some (.panic x, p2) => some (.panic x, p2)
      | some (.error err, p1) => some (.error err, p1)
      | some (.panic x, p1) => some (.panic x, p1) := by
  rw [Parse]
  simp only [h1, h2, h3]

theorem parseArgs_mono (r1 r2 : Nat → Parser → Str → Option (Res Value × Parser))
    (h : ∀ i p s x, r1 i p s = some x → r2 i p s = some x) :
    ∀ (l : List Str) (p : Parser) (args : List Value) (x : Res (List Value) × Parser),
      parseArgs r1 p l args = some x → parseArgs r2 p l args = some x := by
  intro l
  induction l with
  | nil => intro p args x hx; simpa [parseArgs] using hx
  | cons a rest ih =>
    intro p args x hx
    simp only [parseArgs] at hx ⊢
    cases h1 : r1 args.length p a with
    | none => rw [h1] at hx; exact absurd hx (by simp)
    | some y =>
      rw [h1] at hx
      rw [h _ p a y h1]
      obtain ⟨res, p1⟩ := y
      cases res with
      | ok v => exact ih p1 _ x hx
      | error e => exact hx
      | panic e => exact hx

/-- More budget does not change a result. -/
theorem Parse_succ (E : Ext) (visit : List Nat → List Operator) : ∀ (fuel : Nat)
    (path : List Nat) (p : Parser) (s : Str) (x : Res Value × Parser),
    Parse E visit fuel path p s = some x → Parse E visit (fuel + 1) path p s = some x := by
  intro fuel
  induction fuel with
  | zero => intro path p s x h; simp [Parse] at h
  | succ n ih =>
    intro path p s x h
    rw [Parse] at h ⊢
    simp only at h ⊢
    split
    · rename_i fn hfn
      rw [hfn] at h
      simp only at h
      cases hpa : parseArgs (fun i => Parse E visit n (path ++ [i])) ⟨p.input, p.funcStack ++
          [beforeFirst LeftBracket (removeWhitespace s)]⟩ (splitArgs (trimSuffixOf (trimPrefixOf
          (removeWhitespace s) (beforeFirst LeftBracket (removeWhitespace s) ++ [LeftBracket]))
          [RightBracket])) [] with
      | none => rw [hpa] at h; simp at h
      | some y =>
        rw [parseArgs_mono _ (fun i => Parse E visit (n + 1) (path ++ [i]))
          (fun i p s x hx => ih (path ++ [i]) p s x hx) _ _ _ y hpa]
        rw [hpa] at h
        exact h
    · rename_i hfn
      rw [hfn] at h
      simp only at h
      split
      · rename_i op hop
        rw [hop] at h
        simp only at h
        split
        · rename_i hidx
          rw [hidx] at h
          exact h
        · rename_i idx hidx
          rw [hidx] at h
          simp only at h
          cases hx : Parse E visit n (path ++ [0]) p (List.take idx (removeWhitespace s)) with
          | none => rw [hx] at h; simp at h
          | some y =>
            rw [ih _ _ _ y hx]
            rw [hx] at h
            obtain ⟨res, p1⟩ := y
            cases res with
            | ok v =>
              simp only at h ⊢
              cases hy : Parse E visit n (path ++ [1]) p1
                  (List.drop (idx + 1) (removeWhitespace s)) with
              | none => rw [hy] at h; simp at h
              | some z =>
                rw [ih _ _ _ z hy]
                rw [hy] at h
                exact h
            | error e => exact h
            | panic e => exact h
      · rename_i hop
        rw [hop] at h
        exact h

theorem Parse_mono (E : Ext) (visit : List Nat → List Operator) (fuel k : Nat)
    (path : List Nat) (p : Parser) (s : Str)
    (x : Res Value × Parser) (h : Parse E visit fuel path p s = some x) :
    Parse E visit (fuel + k) path p s = some x := by
  induction k with
  | zero => exact h
  | succ k ih => exact Parse_succ E visit (fuel + k) path p s x ih

/-! ## The scan of `splitArgs` over one argument -/

theorem scanStep_splitArgsStep (r : List Str) (buf : Str) (st st2 : Nat × Bool) (c : Char)
    (h : scanStep st c = some st2) :
    splitArgsStep ⟨r, buf, st.1, st.2⟩ c = ⟨r, buf ++ [c], st2.1, st2.2⟩ := by
  simp only [scanStep] at h
  simp only [splitArgsStep]
  split_ifs at h ⊢ <;> (cases h; rfl)

theorem foldl_splitArgsStep_scan (a : Str) : ∀ (r : List Str) (buf : Str) (st st2 : Nat × Bool),
    scanArg st a = some st2 →
    a.foldl splitArgsStep ⟨r, buf, st.1, st.2⟩ = ⟨r, buf ++ a, st2.1, st2.2⟩ := by
  induction a with
  | nil =>
    intro r buf st st2 h
    simp only [scanArg, Option.some.injEq] at h
    subst h
    simp
  | cons c cs ih =>
    intro r buf st st2 h
    simp only [scanArg] at h
    cases h1 : scanStep st c with
    | none => rw [h1] at h; simp at h
    | some st1 =>
      rw [h1] at h
      simp only [Option.some_bind] at h
      rw [List.foldl_cons, scanStep_splitArgsStep r buf st st1 c h1, ih _ _ _ _ h]
      simp

theorem scanArg_append (x y : Str) : ∀ st : Nat × Bool,
    scanArg st (x ++ y) = (scanArg st x).bind (fun st2 => scanArg st2 y) := by
  induction x with
  | nil => intro st; simp [scanArg]
  | cons c cs ih =>
    intro st
    simp only [List.cons_append, scanArg]
    cases scanStep st c with
    | none => rfl
    | some st1 => simp only [Option.some_bind]; exact ih st1

theorem counts_append_singleton (pre : Str) (c : Char) :
    openers (pre ++ [c]) = openers pre + (if isOpener c then 1 else 0) ∧
    closers (pre ++ [c]) = closers pre + (if isCloser c then 1 else 0) ∧
    quotes (pre ++ [c]) = quotes pre + (if c = Apostrophe then 1 else 0) := by
  simp [openers, closers, quotes, List.countP_append, List.countP_cons]

/-- One step of the scan, in terms of the numbers of brackets and apostrophes read. -/
theorem scanStep_counts (pre : Str) (c : Char)
    (h1 : closers pre ≤ openers pre)
    (h2 : closers (pre ++ [c]) ≤ openers (pre ++ [c]))
    (h3 : c = Comma → closers pre < openers pre ∨ quotes pre % 2 = 1) :
    scanStep (openers pre - closers pre, decide (quotes pre % 2 = 1)) c =
      some (openers (pre ++ [c]) - closers (pre ++ [c]),
        decide (quotes (pre ++ [c]) % 2 = 1)) := by
  obtain ⟨e1, e2, e3⟩ := counts_append_singleton pre c
  rw [e1, e2] at h2
  rw [e1, e2, e3]
  by_cases c1 : c = Apostrophe
  · subst c1
    have : isOpener Apostrophe = false ∧ isCloser Apostrophe = false := by decide
    simp only [scanStep, this.1, this.2, if_true, Bool.false_eq_true, if_false, Nat.add_zero]
    congr 2
    rcases Nat.mod_two_eq_zero_or_one (quotes pre) with h | h <;> simp [h, Nat.add_mod]
  · by_cases c2 : c = LeftBracket ∨ c = LeftSquareBracket
    · have ho : isOpener c = true := by rcases c2 with e | e <;> subst e <;> decide
      have hc : isCloser c = false := by rcases c2 with e | e <;> subst e <;> decide
      simp only [scanStep, c1, c2, ho, hc, if_true, if_false, Bool.false_eq_true, Nat.add_zero]
      congr 2
      omega
    · by_cases c3 : c = RightBracket ∨ c = RightSquareBracket
      · have ho : isOpener c = false := by rcases c3 with e | e <;> subst e <;> decide
        have hc : isCloser c = true := by rcases c3 with e | e <;> subst e <;> decide
        rw [ho, hc] at h2
        simp only [if_true, Bool.false_eq_true, if_false, Nat.add_zero] at h2
        have hk : 0 < openers pre - closers pre := by omega
        simp only [scanStep, c1, c2, c3, ho, hc, hk, if_true, if_false, Bool.false_eq_true,
          Nat.add_zero]
        congr 2
      · have ho : isOpener c = false := by
          simp only [not_or] at c2
          simp [isOpener, c2.1, c2.2]
        have hc : isCloser c = false := by
          simp only [not_or] at c3
          simp [isCloser, c3.1, c3.2]
        by_cases c4 : c = Comma
        · have hk : ¬ (openers pre - closers pre = 0 ∧
              decide (quotes pre % 2 = 1) = false) := by
            rcases h3 c4 with h | h
            · intro hh; omega
            · intro hh; simp [h] at hh
          subst c4
          have hd : Comma ≠ Apostrophe ∧ ¬ (Comma = LeftBracket ∨ Comma = LeftSquareBracket) ∧
              ¬ (Comma = RightBracket ∨ Comma = RightSquareBracket) := by decide
          simp only [scanStep, hd.1, hd.2.1, hd.2.2, ho, hc, hk, if_true, if_false,
            Bool.false_eq_true, Nat.add_zero]
        · simp only [scanStep, c1, c2, c3, c4, ho, hc, if_true, if_false, Bool.false_eq_true,
            Nat.add_zero]

/-- The scan of a prefix of a well-formed argument: the counter is the number of
brackets that are open, the flag tells whether an apostrophe is open. -/
theorem scanArg_take (a : Str)
    (hpre : ∀ i, i ≤ a.length → closers (a.take i) ≤ openers (a.take i))
    (hcomma : ∀ i, i < a.length → a.get? i = some Comma →
      closers (a.take i) < openers (a.take i) ∨ quotes (a.take i) % 2 = 1) :
    ∀ i, i ≤ a.length → scanArg (0, false) (a.take i) =
      some (openers (a.take i) - closers (a.take i),
        decide (quotes (a.take i) % 2 = 1)) := by
  intro i
  induction i with
  | zero => intro _; rfl
  | succ i ih =>
    intro hi
    have hlt : i < a.length := hi
    have e : a.take (i + 1) = a.take i ++ [a.get ⟨i, hlt⟩] := by
      rw [List.take_succ, List.getElem?_eq_getElem hlt]
      rfl
    have hg : a.get? i = some (a.get ⟨i, hlt⟩) := List.get?_eq_get hlt
    rw [e, scanArg_append, ih (Nat.le_of_lt hlt)]
    simp only [Option.some_bind, scanArg]
    rw [scanStep_counts (a.take i) (a.get ⟨i, hlt⟩) (hpre i (Nat.le_of_lt hlt))
      (by rw [← e]; exact hpre (i + 1) hi)
      (fun hc => hcomma i hlt (by rw [hg, hc]))]
    rfl

/-- The scan of a well-formed argument writes every character and ends at top level. -/
theorem scanArg_wellFormed (a : Str) (h : WellFormedArg a) :
    scanArg (0, false) a = some (0, false) := by
  obtain ⟨_, hq, hb, hpre, hcomma⟩ := h
  have := scanArg_take a hpre hcomma a.length (le_refl _)
  rw [List.take_length] at this
  rw [this, hb, hq]
  simp

/-- The state of `splitArgs` after arguments with commas between them, each of them not
empty and scanned from top level to top level. -/
theorem splitArgs_joinChar (as : List Str) : ∀ (r : List Str), as ≠ [] →
    (∀ a ∈ as, a ≠ [] ∧ scanArg (0, false) a = some (0, false)) →
    (let st := (joinChar Comma as).foldl splitArgsStep ⟨r, [], 0, false⟩
     if 0 < st.buffer.length then st.result ++ [st.buffer] else st.result) = r ++ as := by
  induction as with
  | nil => intro r h; exact absurd rfl h
  | cons a rest ih =>
    intro r _ hw
    have ha := hw a (List.mem_cons_self _ _)
    have hs := foldl_splitArgsStep_scan a r [] (0, false) (0, false) ha.2
    have hlen : 0 < a.length := List.length_pos.mpr ha.1
    cases rest with
    | nil =>
      simp only [joinChar]
      rw [hs]
      simp [hlen]
    | cons b rest2 =>
      simp only [joinChar, List.foldl_append, List.foldl_cons]
      rw [hs]
      have hstep : splitArgsStep ⟨r, [] ++ a, 0, false⟩ Comma = ⟨r ++ [a], [], 0, false⟩ := by
        have : Comma ≠ Apostrophe ∧ Comma ≠ LeftBracket ∧ Comma ≠ LeftSquareBracket ∧
            Comma ≠ RightBracket ∧ Comma ≠ RightSquareBracket := by decide
        simp [splitArgsStep, this, hlen]
      simp only at hstep ⊢
      rw [hstep]
      have := ih (r ++ [a]) (by simp) (fun x hx => hw x (List.mem_cons_of_mem _ hx))
      simpa using this

theorem splitArgs_of_scan (as : List Str) (hne : as ≠ [])
    (hw : ∀ a ∈ as, a ≠ [] ∧ scanArg (0, false) a = some (0, false)) :
    splitArgs (joinChar Comma as) = as := by
  have := splitArgs_joinChar as [] hne hw
  simpa [splitArgs] using this

/-! ## White space at the ends of a span -/

theorem trimL_append_cons (x y : Str) (c : Char) (hc : isSpace c = false) :
    trimL (x ++ c :: y) = trimL x ++ c :: y := by
  unfold trimL
  induction x with
  | nil => simp [List.dropWhile, hc]
  | cons d ds ih =>
    cases hd : isSpace d with
    | true => simp only [List.cons_append, List.dropWhile, hd]; exact ih
    | false => simp only [List.cons_append, List.dropWhile, hd]; rfl

theorem trimR_eq (s : Str) : trimR s = (trimL s.reverse).reverse := rfl

theorem trimR_append_cons (x y : Str) (c : Char) (hc : isSpace c = false) :
    trimR (x ++ c :: y) = x ++ c :: trimR y := by
  rw [trimR_eq, trimR_eq]
  have : (x ++ c :: y).reverse = y.reverse ++ c :: x.reverse := by simp
  rw [this, trimL_append_cons _ _ _ hc]
  simp

theorem trimSpace_eq (s : Str) : trimSpace s = trimR (trimL s) := rfl

theorem trimBoth_append_cons (l r : Bool) (x y : Str) (c : Char) (hc : isSpace c = false) :
    trimBoth l r (x ++ c :: y) = trimBoth l false x ++ c :: trimBoth false r y := by
  cases l <;> cases r <;>
    simp [trimBoth, trimL_append_cons _ _ _ hc, trimR_append_cons _ _ _ hc]

theorem trimL_of_all (s : Str) (h : ∀ c ∈ s, isSpace c = true) : trimL s = [] := by
  unfold trimL
  induction s with
  | nil => rfl
  | cons d ds ih =>
    simp only [List.dropWhile, h d (List.mem_cons_self _ _)]
    exact ih (fun c hc => h c (List.mem_cons_of_mem _ hc))

theorem trimR_of_all (s : Str) (h : ∀ c ∈ s, isSpace c = true) : trimR s = [] := by
  rw [trimR_eq, trimL_of_all _ (fun c hc => h c (List.mem_reverse.mp hc))]
  rfl

/-- A text is white space only, or it has a character that is none. -/
theorem all_space_or_split (s : Str) :
    (∀ c ∈ s, isSpace c = true) ∨ ∃ x c y, s = x ++ c :: y ∧ isSpace c = false := by
  induction s with
  | nil => left; simp
  | cons d ds ih =>
    cases hd : isSpace d with
    | false => right; exact ⟨[], d, ds, rfl, hd⟩
    | true =>
      rcases ih with h | ⟨x, c, y, e, hc⟩
      · left
        intro c hc
        rcases List.mem_cons.mp hc with e | e
        · rw [e]; exact hd
        · exact h c e
      · right; exact ⟨d :: x, c, y, by rw [e]; rfl, hc⟩

theorem trimL_trimL (s : Str) : trimL (trimL s) = trimL s := by
  unfold trimL
  exact List.dropWhile_idempotent _ _

theorem trimR_trimR (s : Str) : trimR (trimR s) = trimR s := by
  rw [trimR_eq, trimR_eq, List.reverse_reverse, trimL_trimL]

theorem trimL_trimR (s : Str) : trimL (trimR s) = trimR (trimL s) := by
  rcases all_space_or_split s with h | ⟨x, c, y, e, hc⟩
  · rw [trimL_of_all s h, trimR_of_all s h]; rfl
  · subst e
    rw [trimL_append_cons _ _ _ hc, trimR_append_cons _ _ _ hc, trimL_append_cons _ _ _ hc,
      trimR_append_cons _ _ _ hc]

/-- Trimming at both ends after any trimming is trimming at both ends. -/
theorem trimBoth_trimBoth (l r : Bool) (t : Str) :
    trimBoth true true (trimBoth l r t) = trimBoth true true t := by
  cases l <;> cases r <;>
    simp [trimBoth, trimL_trimR, trimL_trimL, trimR_trimR]

theorem trimBoth_filter (l r : Bool) (t : Str) (p : Char → Bool)
    (hp : ∀ c, isSpace c = true → p c = false) :
    (trimBoth l r t).filter p = t.filter p := by
  have hL : ∀ u : Str, (trimL u).filter p = u.filter p := by
    intro u
    unfold trimL
    induction u with
    | nil => rfl
    | cons d ds ih =>
      cases hd : isSpace d with
      | true => simp only [List.dropWhile, hd, List.filter, hp d hd]; exact ih
      | false => simp only [List.dropWhile, hd]
  have hR : ∀ u : Str, (trimR u).filter p = u.filter p := by
    intro u
    rw [trimR_eq, List.filter_reverse, hL, List.filter_reverse, List.reverse_reverse]
  cases l <;> cases r <;> simp [trimBoth, hL, hR]

theorem not_mem_trimBoth (l r : Bool) (t : Str) (a : Char) (h : a ∉ t) :
    a ∉ trimBoth l r t := by
  have hL : ∀ u : Str, a ∉ u → a ∉ trimL u :=
    fun u hu hm => hu ((List.dropWhile_sublist _).subset hm)
  have hR : ∀ u : Str, a ∉ u → a ∉ trimR u := by
    intro u hu hm
    rw [trimR_eq, List.mem_reverse] at hm
    exact hL u.reverse (fun x => hu (List.mem_reverse.mp x)) hm
  cases l <;> cases r <;> simp only [trimBoth, if_true, if_false, Bool.false_eq_true]
  · exact h
  · exact hR _ h
  · exact hL _ h
  · exact hR _ (hL _ h)

/-! ## The spans between apostrophes -/

theorem splitChar_ne_nil (sep : Char) (s : Str) : splitChar sep s ≠ [] := by
  cases s with
  | nil => simp [splitChar]
  | cons c cs =>
    simp only [splitChar]
    split_ifs
    · simp
    · split <;> simp

theorem splitChar_prepend (sep : Char) (s v : Str) (h : sep ∉ s) :
    splitChar sep (s ++ v) =
      match splitChar sep v with
      | [] => [s]
      | t :: ts => (s ++ t) :: ts := by
  induction s with
  | nil =>
    cases hv : splitChar sep v with
    | nil => exact absurd hv (splitChar_ne_nil sep v)
    | cons t ts => simp [hv]
  | cons c cs ih =>
    have hc : c ≠ sep := fun e => h (by simp [e])
    have hcs : sep ∉ cs := fun e => h (List.mem_cons_of_mem _ e)
    have e : splitChar sep (c :: cs ++ v) =
        match splitChar sep (cs ++ v) with
        | [] => [[c]]
        | p :: ps => (c :: p) :: ps := by
      simp only [List.cons_append, splitChar, hc, if_false]
      rfl
    rw [e, ih hcs]
    cases hv : splitChar sep v with
    | nil => exact absurd hv (splitChar_ne_nil sep v)
    | cons t ts => simp

theorem joinChar_cons (sep : Char) (p : Str) (rest : List Str) (h : rest ≠ []) :
    joinChar sep (p :: rest) = p ++ sep :: joinChar sep rest := by
  cases rest with
  | nil => exact absurd rfl h
  | cons q r => rfl

theorem joinChar_splitChar (sep : Char) (s : Str) : joinChar sep (splitChar sep s) = s := by
  induction s with
  | nil => rfl
  | cons c cs ih =>
    by_cases hc : c = sep
    · simp only [splitChar, hc, if_true]
      rw [joinChar_cons _ _ _ (splitChar_ne_nil _ _), ih]
      rfl
    · simp only [splitChar, hc, if_false]
      cases hv : splitChar sep cs with
      | nil => exact absurd hv (splitChar_ne_nil sep cs)
      | cons t ts =>
        rw [hv] at ih
        cases ts with
        | nil => simp only [joinChar] at ih ⊢; rw [ih]
        | cons q r => simp only [joinChar] at ih ⊢; rw [← ih]; rfl

theorem not_mem_of_mem_splitChar (sep : Char) (s : Str) :
    ∀ x ∈ splitChar sep s, sep ∉ x := by
  induction s with
  | nil => intro x hx; simp [splitChar] at hx; simp [hx]
  | cons c cs ih =>
    intro x hx
    by_cases hc : c = sep
    · simp only [splitChar, hc, if_true, List.mem_cons] at hx
      rcases hx with e | e
      · simp [e]
      · exact ih x e
    · simp only [splitChar, hc, if_false] at hx
      cases hv : splitChar sep cs with
      | nil => exact absurd hv (splitChar_ne_nil sep cs)
      | cons t ts =>
        rw [hv] at hx ih
        simp only [List.mem_cons] at hx
        rcases hx with e | e
        · rw [e]
          intro hm
          rcases List.mem_cons.mp hm with e2 | e2
          · exact hc e2.symm
          · exact ih t (List.mem_cons_self _ _) e2
        · exact ih x (List.mem_cons_of_mem _ e)

/-- Induction over a list two elements at a time. -/
theorem two_step_induction {α : Type} (P : List α → Prop) (h0 : P [])
    (h1 : ∀ a, P [a]) (h2 : ∀ a b rest, P rest → P (a :: b :: rest)) : ∀ l, P l := by
  have : ∀ l, P l ∧ ∀ a, P (a :: l) := by
    intro l
    induction l with
    | nil => exact ⟨h0, h1⟩
    | cons b rest ih => exact ⟨ih.2 b, fun a => h2 a b rest ih.1⟩
  exact fun l => (this l).1

theorem trimEven_eq (xs : List Str) : trimEven xs = trimSpans true true xs := by
  induction xs using two_step_induction with
  | h0 => rfl
  | h1 a => rfl
  | h2 a b rest ih => simp only [trimEven, trimSpans, ih]; rfl

theorem removeWhitespace_eq (s : Str) : removeWhitespace s = trimOutside true true s := by
  unfold removeWhitespace trimOutside
  rw [trimEven_eq]

theorem trimSpans_ne_nil (l r : Bool) (xs : List Str) (h : xs ≠ []) :
    trimSpans l r xs ≠ [] := by
  cases xs with
  | nil => exact absurd rfl h
  | cons a rest =>
    cases rest with
    | nil => simp [trimSpans]
    | cons b rest2 => simp [trimSpans]

theorem trimOutside_of_not_mem (l r : Bool) (s : Str) (h : Apostrophe ∉ s) :
    trimOutside l r s = trimBoth l r s := by
  unfold trimOutside
  rw [splitChar_of_not_mem _ _ h]
  rfl

theorem trimOutside_quote (l r : Bool) (x q u : Str) (hx : Apostrophe ∉ x)
    (hq : Apostrophe ∉ q) :
    trimOutside l r (x ++ Apostrophe :: (q ++ Apostrophe :: u)) =
      trimBoth l true x ++ Apostrophe :: (q ++ Apostrophe :: trimOutside true r u) := by
  unfold trimOutside
  rw [splitChar_append _ _ _ hx, splitChar_append _ _ _ hq]
  simp only [trimSpans]
  rw [joinChar_cons _ _ _ (by simp),
    joinChar_cons _ _ _ (trimSpans_ne_nil _ _ _ (splitChar_ne_nil _ _))]

/-- A span that ends where a character `c`, no white space and no apostrophe, stands
between two texts: the first text takes the trimming of the left end, the second one
that of the right end. -/
theorem trimSpans_prepend (l r : Bool) (s t : Str) (ts : List Str) (c : Char)
    (hc : isSpace c = false) :
    joinChar Apostrophe (trimSpans l r ((s ++ c :: t) :: ts)) =
      trimBoth l false s ++ c :: joinChar Apostrophe (trimSpans false r (t :: ts)) := by
  cases ts with
  | nil => simp only [trimSpans, joinChar]; exact trimBoth_append_cons l r s t c hc
  | cons q rest =>
    simp only [trimSpans]
    rw [joinChar_cons _ _ _ (by simp), joinChar_cons _ (trimBoth false true t) _ (by simp),
      trimBoth_append_cons l true s t c hc]
    simp

theorem not_mem_or_split (a : Char) (u : Str) :
    a ∉ u ∨ ∃ x w, u = x ++ a :: w ∧ a ∉ x := by
  induction u with
  | nil => left; simp
  | cons d ds ih =>
    by_cases hd : d = a
    · right; exact ⟨[], ds, by rw [hd]; rfl, by simp⟩
    · rcases ih with h | ⟨x, w, e, hx⟩
      · left
        intro hm
        rcases List.mem_cons.mp hm with e | e
        · exact hd e.symm
        · exact h e
      · right
        refine ⟨d :: x, w, by rw [e]; rfl, ?_⟩
        intro hm
        rcases List.mem_cons.mp hm with e | e
        · exact hd e.symm
        · exact hx e

theorem quotes_of_not_mem (x : Str) (h : Apostrophe ∉ x) : quotes x = 0 := by
  unfold quotes
  rw [List.countP_eq_zero]
  intro c hc
  simp only [beq_iff_eq]
  intro e
  exact h (e ▸ hc)

theorem quotes_append_cons (x w : Str) :
    quotes (x ++ Apostrophe :: w) = quotes x + quotes w + 1 := by
  simp [quotes, List.countP_append, List.countP_cons]
  omega

/-- A text with an even number of apostrophes has none, or it starts with a text
without apostrophe, a quoted text and a text with an even number of apostrophes. -/
theorem even_quotes_split (u : Str) (h : quotes u % 2 = 0) :
    Apostrophe ∉ u ∨ ∃ x q w, u = x ++ Apostrophe :: (q ++ Apostrophe :: w) ∧
      Apostrophe ∉ x ∧ Apostrophe ∉ q ∧ quotes w % 2 = 0 := by
  rcases not_mem_or_split Apostrophe u with h1 | ⟨x, w, e, hx⟩
  · exact Or.inl h1
  · right
    subst e
    rw [quotes_append_cons, quotes_of_not_mem x hx] at h
    rcases not_mem_or_split Apostrophe w with h2 | ⟨q, w2, e2, hq⟩
    · rw [quotes_of_not_mem w h2] at h
      omega
    · subst e2
      rw [quotes_append_cons, quotes_of_not_mem q hq] at h
      exact ⟨x, q, w2, rfl, hx, hq, by omega⟩

/-! ## The white space of a call text -/

theorem trimOutside_append_cons_plain (l r : Bool) (u v : Str) (c : Char)
    (hc : isSpace c = false) (hA : c ≠ Apostrophe) (hu : Apostrophe ∉ u) :
    trimOutside l r (u ++ c :: v) = trimBoth l false u ++ c :: trimOutside false r v := by
  unfold trimOutside
  have hs : Apostrophe ∉ u ++ [c] := by
    intro hm
    rcases List.mem_append.mp hm with e | e
    · exact hu e
    · exact hA (List.mem_singleton.mp e).symm
  have e : u ++ c :: v = (u ++ [c]) ++ v := by simp
  rw [e, splitChar_prepend _ _ _ hs]
  cases hv : splitChar Apostrophe v with
  | nil => exact absurd hv (splitChar_ne_nil _ _)
  | cons t ts =>
    simp only
    have e2 : u ++ [c] ++ t = u ++ c :: t := by simp
    rw [e2]
    exact trimSpans_prepend l r u t ts c hc

/-- The trimming of a text with a character `c`, no white space and no apostrophe,
behind an even number of apostrophes: each side of `c` is trimmed on its own. -/
theorem trimOutside_append_cons (r : Bool) (v : Str) (c : Char)
    (hc : isSpace c = false) (hA : c ≠ Apostrophe) :
    ∀ (n : Nat) (u : Str) (l : Bool), u.length ≤ n → quotes u % 2 = 0 →
      trimOutside l r (u ++ c :: v) = trimOutside l false u ++ c :: trimOutside false r v := by
  intro n
  induction n with
  | zero =>
    intro u l hn _
    have : u = [] := List.length_eq_zero.mp (Nat.le_zero.mp hn)
    subst this
    rw [trimOutside_append_cons_plain l r [] v c hc hA (by simp),
      trimOutside_of_not_mem l false [] (by simp)]
  | succ n ih =>
    intro u l hn hq
    rcases even_quotes_split u hq with h | ⟨x, q, w, e, hx, hq1, hw⟩
    · rw [trimOutside_append_cons_plain l r u v c hc hA h, trimOutside_of_not_mem l false u h]
    · subst e
      have hlen : w.length ≤ n := by
        simp only [List.length_append, List.length_cons] at hn
        omega
      have e1 : x ++ Apostrophe :: (q ++ Apostrophe :: w) ++ c :: v =
          x ++ Apostrophe :: (q ++ Apostrophe :: (w ++ c :: v)) := by simp
      rw [e1, trimOutside_quote l r x q _ hx hq1, trimOutside_quote l false x q _ hx hq1,
        ih w true hlen hw]
      simp

theorem trimOutside_args (as : List Str) (hne : as ≠ [])
    (h : ∀ a ∈ as, quotes a % 2 = 0) :
    trimOutside false true (joinChar Comma as ++ [RightBracket]) =
      joinChar Comma (as.map normInner) ++ [RightBracket] := by
  induction as with
  | nil => exact absurd rfl hne
  | cons a rest ih =>
    have ha := h a (List.mem_cons_self _ _)
    cases rest with
    | nil =>
      simp only [joinChar, List.map]
      rw [trimOutside_append_cons true [] RightBracket (by decide) (by decide) a.length a false
        (le_refl _) ha]
      rfl
    | cons b rest2 =>
      have e : joinChar Comma (a :: b :: rest2) ++ [RightBracket] =
          a ++ Comma :: (joinChar Comma (b :: rest2) ++ [RightBracket]) := by
        simp [joinChar]
      rw [e, trimOutside_append_cons true _ Comma (by decide) (by decide) a.length a false
        (le_refl _) ha, ih (by simp) (fun x hx => h x (List.mem_cons_of_mem _ hx))]
      simp [joinChar, normInner]

/-- The names of the registry have no apostrophe and no opening bracket and start with
a character that is no white space. -/
theorem fnFuncAt_name (F : Func) (fn : Ext → List Value → Res Value)
    (h : fnFuncAt F = some fn) : Apostrophe ∉ F ∧ LeftBracket ∉ F ∧ trimL F = F := by
  have hm : F ∈ fnFunc.map Prod.fst := by
    unfold fnFuncAt at h
    cases hf : fnFunc.find? (fun e => e.1 == F) with
    | none => rw [hf] at h; simp at h
    | some e =>
      have h1 := List.find?_some hf
      have h2 := List.mem_of_find?_eq_some hf
      have h3 : e.1 = F := by simpa using h1
      rw [← h3]
      exact List.mem_map_of_mem _ h2
  have hall : ∀ G ∈ fnFunc.map Prod.fst,
      Apostrophe ∉ G ∧ LeftBracket ∉ G ∧ trimL G = G := by decide
  exact hall F hm

/-- What `removeWhitespace` makes of a call text whose arguments have an even number of
apostrophes each: the white space next to the apostrophes of the arguments goes. -/
theorem removeWhitespace_callText (F : Func) (fn : Ext → List Value → Res Value)
    (as : List Str) (hF : fnFuncAt F = some fn) (hne : as ≠ [])
    (h : ∀ a ∈ as, quotes a % 2 = 0) :
    removeWhitespace (callText F as) = callText F (as.map normInner) := by
  obtain ⟨h1, _, h3⟩ := fnFuncAt_name F fn hF
  rw [removeWhitespace_eq]
  unfold callText
  rw [trimOutside_append_cons true _ LeftBracket (by decide) (by decide) F.length F true
    (le_refl _) (by rw [quotes_of_not_mem F h1]), trimOutside_args as hne h,
    trimOutside_of_not_mem true false F h1]
  simp [trimBoth, h3]

/-! ## The arguments of a call after `removeWhitespace` -/

theorem joinChar_filter (sep : Char) (p : Char → Bool) (hp : p sep = true) (xs : List Str) :
    (joinChar sep xs).filter p = joinChar sep (xs.map (fun x => x.filter p)) := by
  induction xs with
  | nil => rfl
  | cons a rest ih =>
    cases rest with
    | nil => rfl
    | cons b rest2 =>
      simp only [joinChar, List.map, List.filter_append, List.filter_cons, hp, if_true]
      simp only [List.map] at ih
      rw [ih]

theorem trimSpans_filter (p : Char → Bool) (hp : ∀ c, isSpace c = true → p c = false)
    (xs : List Str) : ∀ l r : Bool,
    (trimSpans l r xs).map (fun x => x.filter p) = xs.map (fun x => x.filter p) := by
  induction xs using two_step_induction with
  | h0 => intro l r; rfl
  | h1 a => intro l r; simp [trimSpans, trimBoth_filter l r a p hp]
  | h2 a b rest ih =>
    intro l r
    simp [trimSpans, trimBoth_filter l true a p hp, ih true r]

/-- The characters of a text that are no white space stay, in their order. -/
theorem trimOutside_filter (l r : Bool) (s : Str) :
    (trimOutside l r s).filter (fun c => !isSpace c) = s.filter (fun c => !isSpace c) := by
  unfold trimOutside
  rw [joinChar_filter _ _ (by decide), trimSpans_filter _ (by intro c hc; simp [hc]),
    ← joinChar_filter _ _ (by decide), joinChar_splitChar]

theorem scanStep_space (st : Nat × Bool) (c : Char) (hc : isSpace c = true) :
    scanStep st c = some st := by
  have h1 : c ≠ Apostrophe := fun e => by rw [e] at hc; exact absurd hc (by decide)
  have h2 : c ≠ LeftBracket := fun e => by rw [e] at hc; exact absurd hc (by decide)
  have h3 : c ≠ LeftSquareBracket := fun e => by rw [e] at hc; exact absurd hc (by decide)
  have h4 : c ≠ RightBracket := fun e => by rw [e] at hc; exact absurd hc (by decide)
  have h5 : c ≠ RightSquareBracket := fun e => by rw [e] at hc; exact absurd hc (by decide)
  have h6 : c ≠ Comma := fun e => by rw [e] at hc; exact absurd hc (by decide)
  simp [scanStep, h1, h2, h3, h4, h5, h6]

/-- The scan of `splitArgs` does not look at white space. -/
theorem scanArg_filter (s : Str) : ∀ st : Nat × Bool,
    scanArg st (s.filter (fun c => !isSpace c)) = scanArg st s := by
  induction s with
  | nil => intro st; rfl
  | cons c cs ih =>
    intro st
    cases hc : isSpace c with
    | true =>
      simp only [List.filter_cons, hc, Bool.not_true, Bool.false_eq_true, if_false, scanArg,
        scanStep_space st c hc, Option.some_bind]
      exact ih st
    | false =>
      simp only [List.filter_cons, hc, Bool.not_false, if_true, scanArg]
      cases scanStep st c with
      | none => rfl
      | some st2 => simp only [Option.some_bind]; exact ih st2

theorem scanArg_normInner (a : Str) (h : scanArg (0, false) a = some (0, false)) :
    scanArg (0, false) (normInner a) = some (0, false) := by
  rw [← scanArg_filter, normInner, trimOutside_filter, scanArg_filter]
  exact h

theorem normInner_ne_nil (a : Str) (h : a ≠ []) : normInner a ≠ [] := by
  rcases not_mem_or_split Apostrophe a with h1 | ⟨x, w, e, hx⟩
  · rw [normInner, trimOutside_of_not_mem _ _ _ h1]
    exact h
  · subst e
    unfold normInner trimOutside
    rw [splitChar_append _ _ _ hx]
    cases hv : splitChar Apostrophe w with
    | nil => exact absurd hv (splitChar_ne_nil _ _)
    | cons t ts => simp [trimSpans, joinChar]

theorem not_mem_trimSpans (a : Char) (xs : List Str) : ∀ l r : Bool,
    (∀ y ∈ xs, a ∉ y) → ∀ x ∈ trimSpans l r xs, a ∉ x := by
  induction xs using two_step_induction with
  | h0 => intro l r _ x hx; simp [trimSpans] at hx
  | h1 t =>
    intro l r h x hx
    simp only [trimSpans, List.mem_singleton] at hx
    rw [hx]
    exact not_mem_trimBoth l r t a (h t (by simp))
  | h2 t q rest ih =>
    intro l r h x hx
    simp only [trimSpans, List.mem_cons] at hx
    rcases hx with e | e | e
    · rw [e]; exact not_mem_trimBoth l true t a (h t (by simp))
    · rw [e]; exact h q (by simp)
    · exact ih true r (fun y hy => h y (by simp [hy])) x e

theorem trimSpans_trimSpans (xs : List Str) : ∀ l r : Bool,
    trimSpans true true (trimSpans l r xs) = trimSpans true true xs := by
  induction xs using two_step_induction with
  | h0 => intro l r; rfl
  | h1 t => intro l r; simp [trimSpans, trimBoth_trimBoth]
  | h2 t q rest ih => intro l r; simp [trimSpans, trimBoth_trimBoth, ih true r]

/-- The function `removeWhitespace` makes the same text of an argument and of what the
`removeWhitespace` of the call has left of it. -/
theorem removeWhitespace_normInner (a : Str) :
    removeWhitespace (normInner a) = removeWhitespace a := by
  rw [removeWhitespace_eq, removeWhitespace_eq]
  unfold normInner trimOutside
  rw [splitChar_joinChar _ _ (trimSpans_ne_nil _ _ _ (splitChar_ne_nil _ _))
    (not_mem_trimSpans _ _ _ _ (not_mem_of_mem_splitChar _ _)), trimSpans_trimSpans]

/-- The function `Parse` looks at its text through `removeWhitespace` only. -/
theorem Parse_congr (E : Ext) (visit : List Nat → List Operator) (fuel : Nat)
    (path : List Nat) (p : Parser) (s t : Str)
    (h : removeWhitespace s = removeWhitespace t) :
    Parse E visit fuel path p s = Parse E visit fuel path p t := by
  cases fuel with
  | zero => rfl
  | succ n =>
    rw [Parse, Parse]
    simp only [h]

theorem parseArgs_map (rec : Nat → Parser → Str → Option (Res Value × Parser))
    (f : Str → Str) (h : ∀ i p a, rec i p (f a) = rec i p a) :
    ∀ (l : List Str) (p : Parser) (args : List Value),
      parseArgs rec p (l.map f) args = parseArgs rec p l args := by
  intro l
  induction l with
  | nil => intro p args; rfl
  | cons a rest ih =>
    intro p args
    simp only [List.map, parseArgs, h]
    cases rec args.length p a with
    | none => rfl
    | some x =>
      obtain ⟨r, p1⟩ := x
      cases r with
      | ok v => exact ih p1 _
      | error e => rfl
      | panic e => rfl

theorem popFunc_pushFunc (p : Parser) (fnStr : Func) : popFunc (pushFunc p fnStr) = p := by
  simp [popFunc, pushFunc]

theorem parseArgs_state (rec : Nat → Parser → Str → Option (Res Value × Parser))
    (h : ∀ i p s r p1, rec i p s = some (r, p1) → p1 = p) :
    ∀ (l : List Str) (p : Parser) (args : List Value) (r : Res (List Value)) (p1 : Parser),
      parseArgs rec p l args = some (r, p1) → p1 = p := by
  intro l
  induction l with
  | nil =>
    intro p args r p1 hx
    simp only [parseArgs, Option.some.injEq, Prod.mk.injEq] at hx
    exact hx.2.symm
  | cons a rest ih =>
    intro p args r p1 hx
    simp only [parseArgs] at hx
    cases h1 : rec args.length p a with
    | none => rw [h1] at hx; exact absurd hx (by simp)
    | some y =>
      obtain ⟨r1, q⟩ := y
      have hq := h _ _ _ _ _ h1
      subst hq
      rw [h1] at hx
      cases r1 with
      | ok v => exact ih _ _ _ _ hx
      | error e =>
        simp only [Option.some.injEq, Prod.mk.injEq] at hx
        exact hx.2.symm
      | panic e =>
        simp only [Option.some.injEq, Prod.mk.injEq] at hx
        exact hx.2.symm

/-! ## The parser state and the evaluation of a call -/

/-- A call of `Parse` that returns leaves the parser as it found it. -/
theorem Parse_state (E : Ext) (visit : List Nat → List Operator) : ∀ (fuel : Nat)
    (path : List Nat) (p : Parser) (s : Str) (r : Res Value) (p1 : Parser),
    Parse E visit fuel path p s = some (r, p1) → p1 = p := by
  intro fuel
  induction fuel with
  | zero => intro path p s r p1 h; simp [Parse] at h
  | succ n ih =>
    intro path p s r p1 h
    rw [Parse] at h
    simp only at h
    split at h
    · rename_i fn hfn
      cases hpa : parseArgs (fun i => Parse E visit n (path ++ [i])) ⟨p.input, p.funcStack ++
          [beforeFirst LeftBracket (removeWhitespace s)]⟩ (splitArgs (trimSuffixOf (trimPrefixOf
          (removeWhitespace s) (beforeFirst LeftBracket (removeWhitespace s) ++ [LeftBracket]))
          [RightBracket])) [] with
      | none => rw [hpa] at h; simp at h
      | some y =>
        obtain ⟨ra, q⟩ := y
        have hq := parseArgs_state _
          (fun i p s r p1 hx => ih (path ++ [i]) p s r p1 hx) _ _ _ _ _ hpa
        have hpop := popFunc_pushFunc p (beforeFirst LeftBracket (removeWhitespace s))
        unfold pushFunc at hpop
        rw [hpa] at h
        subst hq
        cases ra with
        | ok args =>
          simp only at h
          cases hfa : fn E args <;> rw [hfa] at h <;>
            simp only [Option.some.injEq, Prod.mk.injEq] at h <;> rw [← h.2, hpop]
        | error e =>
          simp only [Option.some.injEq, Prod.mk.injEq] at h
          rw [← h.2, hpop]
        | panic e =>
          simp only [Option.some.injEq, Prod.mk.injEq] at h
          rw [← h.2, hpop]
    · split at h
      · rename_i op hop
        split at h
        · simp only [Option.some.injEq, Prod.mk.injEq] at h
          exact h.2.symm
        · rename_i idx hidx
          cases hx : Parse E visit n (path ++ [0]) p (List.take idx (removeWhitespace s)) with
          | none => rw [hx] at h; simp at h
          | some y =>
            obtain ⟨rx, q⟩ := y
            have hq := ih _ _ _ _ _ hx
            subst hq
            rw [hx] at h
            cases rx with
            | ok v =>
              simp only at h
              cases hy : Parse E visit n (path ++ [1]) q
                  (List.drop (idx + 1) (removeWhitespace s)) with
              | none => rw [hy] at h; simp at h
              | some z =>
                obtain ⟨ry, q2⟩ := z
                have hq2 := ih _ _ _ _ _ hy
                subst hq2
                rw [hy] at h
                cases ry with
                | ok w =>
                  simp only at h
                  cases hof : opFuncAt op <;> rw [hof] at h <;>
                    simp only [Option.some.injEq, Prod.mk.injEq] at h <;> exact h.2.symm
                | error e =>
                  simp only [Option.some.injEq, Prod.mk.injEq] at h
                  exact h.2.symm
                | panic e =>
                  simp only [Option.some.injEq, Prod.mk.injEq] at h
                  exact h.2.symm
            | error e =>
              simp only [Option.some.injEq, Prod.mk.injEq] at h
              exact h.2.symm
            | panic e =>
              simp only [Option.some.injEq, Prod.mk.injEq] at h
              exact h.2.symm
      · simp only [Option.some.injEq, Prod.mk.injEq] at h
        exact h.2.symm

theorem eval_eq (E : Ext) (visit : List Nat → List Operator) (fuel : Nat) (path : List Nat)
    (p : Parser) (s : Str) (r : Res Value) :
    eval E visit fuel path p s = some r ↔ Parse E visit fuel path p s = some (r, p) := by
  unfold eval
  constructor
  · intro h
    cases hx : Parse E visit fuel path p s with
    | none => rw [hx] at h; simp at h
    | some y =>
      obtain ⟨r1, p1⟩ := y
      rw [hx] at h
      simp only [Option.map_some', Option.some.injEq] at h
      rw [Parse_state E visit fuel path p s r1 p1 hx, h]
  · intro h
    rw [h]
    rfl

/-- The evaluation of a call whose arguments `splitArgs` scans from top level to top
level: the arguments are evaluated from left to right, each at its place in the
recursion and with the name of the function on the stack, up to the first one that does
not return a value; then the function is applied. -/
theorem Parse_callText_scan (E : Ext) (visit : List Nat → List Operator) (fuel : Nat)
    (path : List Nat) (p : Parser) (F : Func) (fn : Ext → List Value → Res Value)
    (as : List Str) (hF : fnFuncAt F = some fn) (hne : as ≠ [])
    (hw : ∀ a ∈ as, a ≠ [] ∧ quotes a % 2 = 0 ∧ scanArg (0, false) a = some (0, false)) :
    Parse E visit (fuel + 1) path p (callText F as) =
      match parseArgs (fun i => Parse E visit fuel (path ++ [i])) (pushFunc p F) as [] with
      | none => none
      | some (.ok args, p1) =>
        match fn E args with
        | .ok res => some (.ok res, popFunc p1)
        | .error err => some (.error (.func F err), popFunc p1)
        | .panic x => some (.panic x, popFunc p1)
      | some (.error err, p1) => some (.error err, popFunc p1)
      | some (.panic x, p1) => some (.panic x, popFunc p1) := by
  obtain ⟨_, h2, _⟩ := fnFuncAt_name F fn hF
  have hrw := removeWhitespace_callText F fn as hF hne (fun a ha => (hw a ha).2.1)
  have hb : beforeFirst LeftBracket (removeWhitespace (callText F as)) = F := by
    rw [hrw]
    exact beforeFirst_append LeftBracket F _ h2
  have hs : splitArgs (trimSuffixOf (trimPrefixOf (removeWhitespace (callText F as))
      (F ++ [LeftBracket])) [RightBracket]) = as.map normInner := by
    rw [hrw]
    have e : callText F (as.map normInner) =
        (F ++ [LeftBracket]) ++ (joinChar Comma (as.map normInner) ++ [RightBracket]) := by
      simp [callText]
    rw [e, trimPrefixOf_append, trimSuffixOf_append]
    apply splitArgs_of_scan _ (by simpa using hne)
    intro a ha
    obtain ⟨b, hb1, hb2⟩ := List.mem_map.mp ha
    rw [← hb2]
    exact ⟨normInner_ne_nil b (hw b hb1).1, scanArg_normInner b (hw b hb1).2.2⟩
  rw [Parse_call E visit fuel path p _ F fn _ hb hF hs,
    parseArgs_map _ normInner (fun i q a =>
      Parse_congr E visit fuel (path ++ [i]) q _ _ (removeWhitespace_normInner a))]
  rfl

/-- The evaluation of a call with well-formed arguments. -/
theorem Parse_callText (E : Ext) (visit : List Nat → List Operator) (fuel : Nat)
    (path : List Nat) (p : Parser) (F : Func) (fn : Ext → List Value → Res Value)
    (as : List Str) (hF : fnFuncAt F = some fn) (hne : as ≠ [])
    (hw : ∀ a ∈ as, WellFormedArg a) :
    Parse E visit (fuel + 1) path p (callText F as) =
      match parseArgs (fun i => Parse E visit fuel (path ++ [i])) (pushFunc p F) as [] with
      | none => none
      | some (.ok args, p1) =>
        match fn E args with
        | .ok res => some (.ok res, popFunc p1)
        | .error err => some (.error (.func F err), popFunc p1)
        | .panic x => some (.panic x, popFunc p1)
      | some (.error err, p1) => some (.error err, popFunc p1)
      | some (.panic x, p1) => some (.panic x, popFunc p1) :=
  Parse_callText_scan E visit fuel path p F fn as hF hne
    (fun a ha => ⟨(hw a ha).1, (hw a ha).2.1, scanArg_wellFormed a (hw a ha)⟩)

/-! ## A key of one segment -/

/-- A key between square brackets, of one segment, free of operator symbols, brackets,
commas, apostrophes and dots, that the input document does not have: `Parse` returns
nil. -/
theorem Parse_key_absent (E : Ext) (visit : List Nat → List Operator) (path : List Nat)
    (p : Parser) (k : Str) (fuel : Nat) (hp : (visit path).Perm opKeys)
    (hk : ∀ c ∈ k, c ∉ ['=', '<', '>', '*', '/', '+', '-', '(', ')', '[', ']', ',',
      Apostrophe, '.'])
    (habs : lookupKey k p.input = none) :
    Parse E visit (fuel + 1) path p (LeftSquareBracket :: (k ++ [RightSquareBracket])) =
      some (.ok .nil, p) := by
  have hk2 : ∀ c ∈ k, c ≠ '=' ∧ c ≠ '<' ∧ c ≠ '*' ∧ c ≠ '/' ∧ c ≠ '+' ∧ c ≠ '-' ∧
      c ≠ LeftBracket ∧ c ≠ Apostrophe ∧ c ≠ Dot := by
    intro c hc
    have := hk c hc
    simp only [List.mem_cons, List.mem_singleton, List.not_mem_nil, or_false, not_or] at this
    exact ⟨this.1, this.2.1, this.2.2.2.1, this.2.2.2.2.1, this.2.2.2.2.2.1,
      this.2.2.2.2.2.2.1, this.2.2.2.2.2.2.2.1, this.2.2.2.2.2.2.2.2.2.2.2.2.1,
      this.2.2.2.2.2.2.2.2.2.2.2.2.2⟩
  have hA : Apostrophe ∉ LeftSquareBracket :: (k ++ [RightSquareBracket]) := by
    intro hm
    simp only [List.mem_cons, List.mem_append, List.mem_singleton, List.not_mem_nil,
      or_false] at hm
    rcases hm with e | e | e
    · exact absurd e (by decide)
    · exact (hk2 _ e).2.2.2.2.2.2.2.1 rfl
    · exact absurd e (by decide)
  have hw : removeWhitespace (LeftSquareBracket :: (k ++ [RightSquareBracket])) =
      LeftSquareBracket :: (k ++ [RightSquareBracket]) := by
    apply removeWhitespace_of_not_mem _ hA
    · intro c hc
      simp only [List.head?_cons, Option.some.injEq] at hc
      rw [← hc]; decide
    · intro c hc
      have e : (LeftSquareBracket :: (k ++ [RightSquareBracket])).getLast? =
          some RightSquareBracket := by
        rw [show LeftSquareBracket :: (k ++ [RightSquareBracket]) =
          (LeftSquareBracket :: k) ++ [RightSquareBracket] by simp]
        exact List.getLast?_concat _
      rw [e, Option.some.injEq] at hc
      rw [← hc]; decide
  rw [Parse_literal E visit fuel path p _]
  · rw [hw]
    have h1 : parseInt (LeftSquareBracket :: (k ++ [RightSquareBracket])) = none := by
      have e1 : LeftSquareBracket ≠ '-' := by decide
      have e2 : LeftSquareBracket ≠ '+' := by decide
      have e3 : digitVal LeftSquareBracket = none := by decide
      simp [parseInt, e1, e2, parseUintDigits, parseDigits, e3]
    have h2 : E.parseFloat (LeftSquareBracket :: (k ++ [RightSquareBracket])) = none := by
      cases hx : E.parseFloat (LeftSquareBracket :: (k ++ [RightSquareBracket])) with
      | none => rfl
      | some f =>
        have := (E.parseFloat_chars _ f hx).2 LeftSquareBracket (by simp)
        exact absurd this (by decide)
    have h3 : hasPrefixOf (LeftSquareBracket :: (k ++ [RightSquareBracket])) [Apostrophe] =
        false := by
      have : (Apostrophe == LeftSquareBracket) = false := by decide
      simp [hasPrefixOf, List.isPrefixOf, this]
    have h4 : hasPrefixOf (LeftSquareBracket :: (k ++ [RightSquareBracket]))
        [LeftSquareBracket] = true := by
      simp [hasPrefixOf]
    have h5 : hasSuffixOf (LeftSquareBracket :: (k ++ [RightSquareBracket]))
        [RightSquareBracket] = true := by
      simp [hasSuffixOf]
    have h6 : trimSuffixOf (trimPrefixOf (LeftSquareBracket :: (k ++ [RightSquareBracket]))
        [LeftSquareBracket]) [RightSquareBracket] = k := by
      have := trimPrefixOf_append [LeftSquareBracket] (k ++ [RightSquareBracket])
      simp only [List.singleton_append] at this
      rw [this, trimSuffixOf_append]
    have h7 : splitChar Dot k = [k] :=
      splitChar_of_not_mem Dot k (fun hm => (hk2 _ hm).2.2.2.2.2.2.2.2 rfl)
    simp only [parseLiteral, h1, h2, h3, h4, h5, Bool.false_and, Bool.and_self, if_true,
      Bool.false_eq_true, if_false, parseInputByKey, h6, h7, keyLoop, habs]
  · rw [hw]
    apply fnFuncAt_none_of_head
    intro c hc
    have hb : (LeftSquareBracket != LeftBracket) = true := by decide
    simp only [beforeFirst, List.takeWhile, hb, List.head?_cons, Option.some.injEq] at hc
    rw [← hc]; decide
  · rw [hw]
    apply containsOp_none_of_chars _ _ hp
    intro c hc
    simp only [List.mem_cons, List.mem_append, List.mem_singleton, List.not_mem_nil,
      or_false] at hc
    rcases hc with e | e | e
    · rw [e]; decide
    · have := hk2 c e
      exact ⟨this.1, this.2.1, this.2.2.1, this.2.2.2.1, this.2.2.2.2.1, this.2.2.2.2.2.1⟩
    · rw [e]; decide

/-! ## VAR with an absent key -/

theorem removeWhitespace_cons_space (c : Char) (d : Str) (hc : isSpace c = true) :
    removeWhitespace (c :: d) = removeWhitespace d := by
  have hA : c ≠ Apostrophe := fun e => by rw [e] at hc; exact absurd hc (by decide)
  rw [removeWhitespace_eq, removeWhitespace_eq]
  unfold trimOutside
  have e : splitChar Apostrophe (c :: d) =
      match splitChar Apostrophe d with
      | [] => [[c]]
      | t :: ts => (c :: t) :: ts := by
    simp only [splitChar, hA, if_false]
  rw [e]
  have hL : ∀ t : Str, trimL (c :: t) = trimL t := by
    intro t
    simp [trimL, List.dropWhile, hc]
  cases hv : splitChar Apostrophe d with
  | nil => exact absurd hv (splitChar_ne_nil _ _)
  | cons t ts =>
    cases ts with
    | nil => simp [trimSpans, trimBoth, hL]
    | cons q rest => simp [trimSpans, trimBoth, hL]

theorem scanArg_plain (k : Str) (st : Nat × Bool)
    (h : ∀ c ∈ k, c ≠ Apostrophe ∧ c ≠ LeftBracket ∧ c ≠ LeftSquareBracket ∧
      c ≠ RightBracket ∧ c ≠ RightSquareBracket ∧ c ≠ Comma) : scanArg st k = some st := by
  induction k with
  | nil => rfl
  | cons c cs ih =>
    have hc := h c (List.mem_cons_self _ _)
    have e : scanStep st c = some st := by
      simp [scanStep, hc.1, hc.2.1, hc.2.2.1, hc.2.2.2.1, hc.2.2.2.2.1, hc.2.2.2.2.2]
    simp only [scanArg, e, Option.some_bind]
    exact ih (fun x hx => h x (List.mem_cons_of_mem _ hx))

/-- VAR with a default that is a well-formed argument: for a key `k` of one segment
(free of operator symbols, brackets, commas, apostrophes and dots) that the input
document does not have and a default `d` that evaluates to the value `v` at its place in
the call, `Parse("VAR([" + k + "], " + d + ")")` returns `v`; and `varFunc` returns a
first argument that is not nil. -/
theorem var_default_of_wellFormed (E : Ext) (visit : List Nat → List Operator)
    (fuel : Nat) (path : List Nat) (p : Parser) (k d : Str) (v : Value)
    (hp : (visit (path ++ [0])).Perm opKeys)
    (hk : ∀ c ∈ k, c ∉ ['=', '<', '>', '*', '/', '+', '-', '(', ')', '[', ']', ',',
      Apostrophe, '.'])
    (habs : lookupKey k p.input = none) (hd : WellFormedArg d)
    (ed : eval E visit (fuel + 1) (path ++ [1]) (pushFunc p Func.Var) d = some (.ok v)) :
    Parse E visit (fuel + 2) path p
        (Func.Var ++ LeftBracket :: LeftSquareBracket ::
          (k ++ RightSquareBracket :: Comma :: ' ' :: (d ++ [RightBracket]))) =
      some (.ok v, p) ∧
    ∀ a b : Value, a ≠ .nil → varFunc E [a, b] = .ok a := by
  constructor
  · have hk2 : ∀ c ∈ k, c ≠ Apostrophe ∧ c ≠ LeftBracket ∧ c ≠ LeftSquareBracket ∧
        c ≠ RightBracket ∧ c ≠ RightSquareBracket ∧ c ≠ Comma := by
      intro c hc
      have := hk c hc
      simp only [List.mem_cons, List.mem_singleton, List.not_mem_nil, or_false, not_or] at this
      exact ⟨this.2.2.2.2.2.2.2.2.2.2.2.2.1, this.2.2.2.2.2.2.2.1, this.2.2.2.2.2.2.2.2.2.1,
        this.2.2.2.2.2.2.2.2.1, this.2.2.2.2.2.2.2.2.2.2.1, this.2.2.2.2.2.2.2.2.2.2.2.1⟩
    have hA : Apostrophe ∉ LeftSquareBracket :: (k ++ [RightSquareBracket]) := by
      intro hm
      simp only [List.mem_cons, List.mem_append, List.mem_singleton, List.not_mem_nil,
        or_false] at hm
      rcases hm with e | e | e
      · exact absurd e (by decide)
      · exact (hk2 _ e).1 rfl
      · exact absurd e (by decide)
    have hs1 : scanArg (0, false) (LeftSquareBracket :: (k ++ [RightSquareBracket])) =
        some (0, false) := by
      have e1 : scanStep (0, false) LeftSquareBracket = some (1, false) := by decide
      have e2 : scanStep (1, false) RightSquareBracket = some (0, false) := by decide
      simp only [scanArg, e1, Option.some_bind, scanArg_append, scanArg_plain k (1, false) hk2,
        e2]
    have hs2 : scanArg (0, false) (' ' :: d) = some (0, false) := by
      simp only [scanArg, scanStep_space (0, false) ' ' (by decide), Option.some_bind]
      exact scanArg_wellFormed d hd
    have hq2 : quotes (' ' :: d) % 2 = 0 := by
      have : quotes (' ' :: d) = quotes d := by
        simp [quotes, List.countP_cons, show (' ' == Apostrophe) = false by decide]
      rw [this]; exact hd.2.1
    have htext : Func.Var ++ LeftBracket :: LeftSquareBracket ::
        (k ++ RightSquareBracket :: Comma :: ' ' :: (d ++ [RightBracket])) =
        callText Func.Var [LeftSquareBracket :: (k ++ [RightSquareBracket]), ' ' :: d] := by
      simp [callText, joinChar]
    rw [htext, Parse_callText_scan E visit (fuel + 1) path p Func.Var varFunc _ rfl (by simp)
      (by
        intro a ha
        simp only [List.mem_cons, List.mem_singleton, List.not_mem_nil, or_false] at ha
        rcases ha with e | e
        · rw [e]; exact ⟨by simp, by rw [quotes_of_not_mem _ hA], hs1⟩
        · rw [e]; exact ⟨by simp, hq2, hs2⟩)]
    have h0 := Parse_key_absent E visit (path ++ [0]) (pushFunc p Func.Var) k fuel hp hk habs
    have h1 : Parse E visit (fuel + 1) (path ++ [1]) (pushFunc p Func.Var) (' ' :: d) =
        some (.ok v, pushFunc p Func.Var) := by
      rw [Parse_congr E visit (fuel + 1) (path ++ [1]) _ (' ' :: d) d
        (removeWhitespace_cons_space ' ' d (by decide))]
      exact (eval_eq E visit (fuel + 1) (path ++ [1]) _ d _).mp ed
    simp only [parseArgs, List.length_nil, h0, List.nil_append, List.length_singleton, h1]
    simp [varFunc, popFunc_pushFunc]
  · intro a b ha
    cases a <;> first | rfl | exact absurd rfl ha

/-- SET of a well-formed argument: the call returns what its argument returns at its
place in the call, a value or an error (or a panic). -/
theorem set_of_wellFormed (E : Ext) (visit : List Nat → List Operator) (fuel : Nat)
    (path : List Nat) (p : Parser) (L : Str) (r : Res Value) (hL : WellFormedArg L)
    (e : eval E visit fuel (path ++ [0]) (pushFunc p Func.Set) L = some r) :
    Parse E visit (fuel + 1) path p (callText Func.Set [L]) = some (r, p) := by
  rw [Parse_callText E visit fuel path p Func.Set setFunc [L] rfl (by simp)
    (by intro a ha; rw [List.mem_singleton.mp ha]; exact hL)]
  rw [eval_eq] at e
  cases r <;> simp [parseArgs, e, setFunc, popFunc_pushFunc]

/-! ## math.Round -/

/-- The arithmetic of `F64.round` on a magnitude with exponent field `e` and fraction
`fr`, for the power `P` of two that weighs one unit: the pattern is cut to a multiple of
`P` after half of `P` is added; the sum stays in the binade or reaches the next one. -/
theorem round_arith (e fr P Q : Nat) (hPQ : P * Q = 2 ^ 52) (hP : 2 ≤ P)
    (hfr : fr < 2 ^ 52) (he : e < 2047) :
    ((e * 2 ^ 52 + fr + P / 2) / P * P / 2 ^ 52 % 2048 = e ∧
      2 ^ 52 + (e * 2 ^ 52 + fr + P / 2) / P * P % 2 ^ 52 = (2 ^ 52 + fr + P / 2) / P * P) ∨
    ((e * 2 ^ 52 + fr + P / 2) / P * P / 2 ^ 52 % 2048 = e + 1 ∧
      (e * 2 ^ 52 + fr + P / 2) / P * P % 2 ^ 52 = 0 ∧
      (2 ^ 52 + fr + P / 2) / P = 2 * Q) := by
  have hPpos : 0 < P := by omega
  have e1 : e * 2 ^ 52 + fr + P / 2 = (fr + P / 2) + (e * Q) * P := by
    rw [← hPQ]; ring
  have e2 : 2 ^ 52 + fr + P / 2 = (fr + P / 2) + Q * P := by
    rw [← hPQ]; ring
  rw [e1, e2, Nat.add_mul_div_right _ _ hPpos, Nat.add_mul_div_right _ _ hPpos]
  have hlt : fr + P / 2 < (Q + 1) * P := by
    have : P / 2 < P := Nat.div_lt_self hPpos (by decide)
    have : (Q + 1) * P = P * Q + P := by ring
    omega
  have hq : (fr + P / 2) / P ≤ Q := Nat.lt_succ_iff.mp ((Nat.div_lt_iff_lt_mul hPpos).mpr hlt)
  generalize (fr + P / 2) / P = q at hq ⊢
  have hQP : Q * P = 2 ^ 52 := by rw [Nat.mul_comm]; exact hPQ
  rcases Nat.lt_or_eq_of_le hq with h | h
  · left
    have hg : q * P < 2 ^ 52 := by
      rw [← hQP]; exact Nat.mul_lt_mul_of_pos_right h hPpos
    have ex : (q + e * Q) * P = e * 2 ^ 52 + q * P := by rw [← hQP]; ring
    have ey : (q + Q) * P = 2 ^ 52 + q * P := by rw [← hQP]; ring
    rw [ex, ey]
    generalize q * P = g at hg ⊢
    norm_num at hg hfr ⊢
    omega
  · right
    subst h
    have ex : (q + e * q) * P = (e + 1) * 2 ^ 52 := by rw [← hQP]; ring
    rw [ex]
    norm_num
    omega


theorem F64.abs_eq (f : Nat) : F64.abs f = F64.expField f * 2 ^ 52 + F64.frac f := by
  simp only [F64.abs, F64.expField, F64.frac]
  norm_num
  omega

theorem F64.fields_withSign (s : Bool) (m : Nat) (hm : m < 2 ^ 63) :
    F64.neg (F64.withSign s m) = s ∧ F64.expField (F64.withSign s m) = m / 2 ^ 52 % 2048 ∧
    F64.frac (F64.withSign s m) = m % 2 ^ 52 := by
  cases s <;> simp only [F64.neg, F64.expField, F64.frac, F64.withSign, F64.signBit] <;>
    norm_num at hm ⊢ <;> omega

/-- math.Round on a magnitude in `[1, 2 ^ 52)`. -/
theorem F64.round_nearest (f : Nat) (h1 : 1023 ≤ F64.expField f) (h2 : F64.expField f < 1075) :
    F64.neg (F64.round f) = F64.neg f ∧
    1023 ≤ F64.expField (F64.round f) ∧ F64.expField (F64.round f) ≤ 1075 ∧
    F64.sig (F64.round f) =
      (F64.sig f + 2 ^ (1075 - F64.expField f) / 2) / 2 ^ (1075 - F64.expField f) *
        2 ^ (1075 - F64.expField (F64.round f)) := by
  have hsh : 52 - (F64.expField f - 1023) = 1075 - F64.expField f := by omega
  have hr : F64.round f = F64.withSign (F64.neg f)
      ((F64.expField f * 2 ^ 52 + F64.frac f + 2 ^ (1075 - F64.expField f) / 2) /
        2 ^ (1075 - F64.expField f) * 2 ^ (1075 - F64.expField f)) := by
    simp only [F64.round, not_lt.mpr h1, h2, if_true, if_false, hsh, F64.abs_eq]
  have hsig : F64.sig f = 2 ^ 52 + F64.frac f := by
    simp only [F64.sig]
    rw [if_neg (by omega)]
  have hfr : F64.frac f < 2 ^ 52 := Nat.mod_lt _ (by norm_num)
  generalize F64.expField f = e at *
  generalize F64.frac f = fr at *
  obtain ⟨k, hk⟩ : ∃ k, 1075 - e = k + 1 := ⟨1075 - e - 1, by omega⟩
  have hk52 : k + 1 + (52 - (k + 1)) = 52 := by omega
  have hPQ : 2 ^ (1075 - e) * 2 ^ (52 - (1075 - e)) = 2 ^ 52 := by
    rw [hk, ← pow_add, hk52]
  have hP : 2 ≤ 2 ^ (1075 - e) := by
    rw [hk, pow_succ]
    have : 0 < 2 ^ k := Nat.two_pow_pos k
    omega
  have hlt : (e * 2 ^ 52 + fr + 2 ^ (1075 - e) / 2) / 2 ^ (1075 - e) * 2 ^ (1075 - e) <
      2 ^ 63 := by
    have a1 := Nat.div_mul_le_self (e * 2 ^ 52 + fr + 2 ^ (1075 - e) / 2) (2 ^ (1075 - e))
    have a2 : 2 ^ (1075 - e) ≤ 2 ^ 52 := Nat.pow_le_pow_right (by norm_num) (by omega)
    have a3 : 2 ^ (1075 - e) / 2 ≤ 2 ^ (1075 - e) := Nat.div_le_self _ _
    generalize (e * 2 ^ 52 + fr + 2 ^ (1075 - e) / 2) / 2 ^ (1075 - e) * 2 ^ (1075 - e) = X
      at a1 ⊢
    generalize 2 ^ (1075 - e) = P at a1 a2 a3
    norm_num at hfr a1 a2 ⊢
    omega
  obtain ⟨f1, f2, f3⟩ := F64.fields_withSign (F64.neg f) _ hlt
  rw [hr, hsig]
  refine ⟨f1, ?_⟩
  simp only [F64.sig, f2, f3]
  rcases round_arith e fr (2 ^ (1075 - e)) (2 ^ (52 - (1075 - e))) hPQ hP hfr (by omega) with
    ⟨g1, g2⟩ | ⟨g1, g2, g3⟩
  · rw [g1]
    refine ⟨h1, by omega, ?_⟩
    rw [if_neg (by omega), g2]
  · rw [g1, g2, g3]
    refine ⟨by omega, by omega, ?_⟩
    rw [if_neg (by omega)]
    have : 1075 - (e + 1) = k := by omega
    rw [this, hk] at *
    have hkk : k + (52 - (k + 1)) + 1 = 52 := by omega
    rw [Nat.add_zero]
    calc 2 ^ 52 = 2 ^ (k + (52 - (k + 1)) + 1) := by rw [hkk]
      _ = 2 * 2 ^ (52 - (k + 1)) * 2 ^ k := by rw [pow_succ, pow_add]; ring

/-! ## The loop of `switchFunc` -/

theorem oddIndices_eq (k : Nat) :
    oddIndices (2 * k + 2) = (List.range (k + 1)).map (fun j => 2 * j + 1) := by
  induction k with
  | zero => rfl
  | succ k ih =>
    have e1 : 2 * (k + 1) + 2 = (2 * k + 2) + 1 + 1 := by ring
    have h1 : ((2 * k + 2) % 2 == 1) = false := by
      have : (2 * k + 2) % 2 = 0 := by omega
      simp [this]
    have h2 : ((2 * k + 2 + 1) % 2 == 1) = true := by
      have : (2 * k + 2 + 1) % 2 = 1 := by omega
      simp [this]
    unfold oddIndices at ih ⊢
    rw [e1, List.range_succ, List.range_succ, List.filter_append, List.filter_append, ih,
      List.range_succ (k + 1), List.map_append]
    simp only [List.filter_cons, h1, h2, List.filter_nil, List.append_nil, List.map_cons,
      List.map_nil, if_true, Bool.false_eq_true, if_false]
    rfl

theorem find?_range_first (q : Nat → Bool) (n j : Nat) (hj : j < n) (h1 : q j = true)
    (h2 : ∀ i, i < j → q i = false) : (List.range n).find? q = some j := by
  induction n with
  | zero => omega
  | succ n ih =>
    rw [List.range_succ, List.find?_append]
    by_cases hjn : j < n
    · rw [ih hjn]; rfl
    · have e : j = n := by omega
      subst e
      have : (List.range j).find? q = none := by
        rw [List.find?_eq_none]
        intro x hx
        simp [h2 x (List.mem_range.mp hx)]
      rw [this]
      simp [List.find?, h1]

/-- The texts of the cases and of the results in the flat argument list. -/
theorem get?_flat (d : Value) (pairs : List (Value × Value)) : ∀ j : Nat,
    (pairs.flatMap (fun cr => [cr.1, cr.2]) ++ [d]).get? (2 * j) =
      (pairs.map Prod.fst ++ [d]).get? j ∧
    (pairs.flatMap (fun cr => [cr.1, cr.2]) ++ [d]).get? (2 * j + 1) =
      (pairs.map Prod.snd).get? j := by
  induction pairs with
  | nil =>
    intro j
    cases j with
    | zero => exact ⟨rfl, rfl⟩
    | succ j => exact ⟨rfl, rfl⟩
  | cons cr rest ih =>
    intro j
    cases j with
    | zero => exact ⟨rfl, rfl⟩
    | succ j =>
      have e1 : 2 * (j + 1) = 2 * j + 1 + 1 := by ring
      rw [e1]
      simp only [List.flatMap_cons, List.cons_append, List.nil_append, List.get?_cons_succ,
        List.map_cons]
      exact ih j

/-- The whole of `switchFunc` on a list `(subject, c1, r1, ..., ck, rk, default)` with
`k > 0`: the result `r` of the first case that has the type of the subject and is deeply
equal to it; the default when the subject matches none of the cases nor the default; a
panic (the read of `args[len(args)]`) when it matches none of the cases and matches the
default. -/
theorem switchFunc_cases (E : Ext) (subject d : Value) (pairs : List (Value × Value))
    (hne : pairs ≠ []) :
    (∀ j c r, pairs.get? j = some (c, r) → switchMatch [subject, c] 1 = true →
      (∀ i c2 r2, i < j → pairs.get? i = some (c2, r2) → switchMatch [subject, c2] 1 = false) →
      switchFunc E (subject :: (pairs.flatMap (fun cr => [cr.1, cr.2]) ++ [d])) = .ok r) ∧
    ((∀ cr ∈ pairs, switchMatch [subject, cr.1] 1 = false) →
      switchMatch [subject, d] 1 = false →
      switchFunc E (subject :: (pairs.flatMap (fun cr => [cr.1, cr.2]) ++ [d])) = .ok d) ∧
    ((∀ cr ∈ pairs, switchMatch [subject, cr.1] 1 = false) →
      switchMatch [subject, d] 1 = true →
      switchFunc E (subject :: (pairs.flatMap (fun cr => [cr.1, cr.2]) ++ [d])) =
        .panic (.indexOutOfRange (2 * pairs.length + 2) (2 * pairs.length + 2))) := by
  obtain ⟨k, hk⟩ : ∃ k, pairs.length = k + 1 := by
    cases pairs with
    | nil => exact absurd rfl hne
    | cons a rest => exact ⟨rest.length, rfl⟩
  have hflat : (pairs.flatMap (fun cr => [cr.1, cr.2])).length = 2 * pairs.length := by
    clear hk hne
    induction pairs with
    | nil => rfl
    | cons a rest ih => simp only [List.flatMap_cons, List.length_append, ih]; simp; ring
  have hlen : (subject :: (pairs.flatMap (fun cr => [cr.1, cr.2]) ++ [d])).length =
      2 * (k + 1) + 2 := by
    simp only [List.length_cons, List.length_append, hflat, hk, List.length_nil]
  have hm : ∀ j, switchMatch (subject :: (pairs.flatMap (fun cr => [cr.1, cr.2]) ++ [d]))
      (2 * j + 1) = switchMatch [subject, (pairs.map Prod.fst ++ [d]).getD j .nil] 1 := by
    intro j
    simp only [switchMatch, List.getD_cons_zero, List.getD_cons_succ, List.getD_eq_getElem?_getD,
      ← List.get?_eq_getElem?, (get?_flat d pairs j).1]
    simp only [List.get?_cons_zero, List.get?_cons_succ, Option.getD_some,
      (get?_flat d pairs j).1]
  have hsw : switchFunc E (subject :: (pairs.flatMap (fun cr => [cr.1, cr.2]) ++ [d])) =
      match (List.range (k + 1 + 1)).find? (fun j => switchMatch
        [subject, (pairs.map Prod.fst ++ [d]).getD j .nil] 1) with
      | some j => index (subject :: (pairs.flatMap (fun cr => [cr.1, cr.2]) ++ [d])) (2 * j + 2)
      | none => index (subject :: (pairs.flatMap (fun cr => [cr.1, cr.2]) ++ [d]))
          (2 * (k + 1) + 1) := by
    unfold switchFunc
    rw [hlen, oddIndices_eq, List.find?_map]
    have e1 : ¬ (2 * (k + 1) + 2) % 2 ≠ 0 := by omega
    have e2 : ¬ 2 * (k + 1) + 2 = 0 := by omega
    have e3 : ¬ 2 * (k + 1) + 2 = 2 := by omega
    simp only [e1, e2, e3, if_false]
    have e4 : (switchMatch (subject :: (pairs.flatMap (fun cr => [cr.1, cr.2]) ++ [d])) ∘
        fun j => 2 * j + 1) = fun j => switchMatch
        [subject, (pairs.map Prod.fst ++ [d]).getD j .nil] 1 := by
      funext j
      exact hm j
    rw [e4]
    cases (List.range (k + 1 + 1)).find? (fun j => switchMatch
        [subject, (pairs.map Prod.fst ++ [d]).getD j .nil] 1) with
    | none => rfl
    | some j => rfl
  have hgetc : ∀ j c r, pairs.get? j = some (c, r) →
      (pairs.map Prod.fst ++ [d]).getD j .nil = c ∧ (pairs.map Prod.snd).get? j = some r := by
    intro j c r h
    have hj : j < pairs.length := by
      rcases Nat.lt_or_ge j pairs.length with h1 | h1
      · exact h1
      · rw [List.get?_eq_none.mpr h1] at h; exact absurd h (by simp)
    constructor
    · rw [List.getD_eq_getElem?_getD, List.getElem?_append_left (by simpa using hj),
        List.getElem?_map, ← List.get?_eq_getElem?, h]
      rfl
    · rw [List.get?_eq_getElem?, List.getElem?_map, ← List.get?_eq_getElem?, h]
      rfl
  have hgetd : (pairs.map Prod.fst ++ [d]).getD (k + 1) .nil = d := by
    rw [List.getD_eq_getElem?_getD, List.getElem?_append_right (by simp [hk])]
    simp [hk]
  have hall : (∀ cr ∈ pairs, switchMatch [subject, cr.1] 1 = false) → ∀ i, i < k + 1 →
      switchMatch [subject, (pairs.map Prod.fst ++ [d]).getD i .nil] 1 = false := by
    intro h i hi
    have hi2 : i < pairs.length := by omega
    have hg : pairs.get? i = some ((pairs.get ⟨i, hi2⟩).1, (pairs.get ⟨i, hi2⟩).2) :=
      List.get?_eq_get hi2
    rw [(hgetc i _ _ hg).1]
    exact h _ (List.get_mem pairs i hi2)
  refine ⟨?_, ?_, ?_⟩
  · intro j c r hj hmatch hbefore
    have hjl : j < pairs.length := by
      rcases Nat.lt_or_ge j pairs.length with h1 | h1
      · exact h1
      · rw [List.get?_eq_none.mpr h1] at hj; exact absurd hj (by simp)
    have hfind : (List.range (k + 1 + 1)).find? (fun j => switchMatch
        [subject, (pairs.map Prod.fst ++ [d]).getD j .nil] 1) = some j := by
      apply find?_range_first _ _ _ (by omega)
      · simp only [(hgetc j c r hj).1]; exact hmatch
      · intro i hi
        have hi2 : i < pairs.length := by omega
        have hg : pairs.get? i = some ((pairs.get ⟨i, hi2⟩).1, (pairs.get ⟨i, hi2⟩).2) :=
          List.get?_eq_get hi2
        simp only [(hgetc i _ _ hg).1]
        exact hbefore i _ _ hi hg
    rw [hsw, hfind]
    simp only [index, List.get?_cons_succ, (get?_flat d pairs j).2, (hgetc j c r hj).2]
  · intro hnone hd
    have hfind : (List.range (k + 1 + 1)).find? (fun j => switchMatch
        [subject, (pairs.map Prod.fst ++ [d]).getD j .nil] 1) = none := by
      rw [List.find?_eq_none]
      intro i hi
      have hi2 := List.mem_range.mp hi
      intro hc
      have hc2 : switchMatch [subject, (pairs.map Prod.fst ++ [d]).getD i .nil] 1 = true := hc
      rcases Nat.lt_or_ge i (k + 1) with h1 | h1
      · rw [hall hnone i h1] at hc2
        exact absurd hc2 (by simp)
      · have : i = k + 1 := by omega
        rw [this, hgetd, hd] at hc2
        exact absurd hc2 (by simp)
    rw [hsw, hfind]
    simp only [index, List.get?_cons_succ, (get?_flat d pairs (k + 1)).1]
    rw [List.get?_eq_getElem?, List.getElem?_append_right (by simp [hk])]
    simp [hk]
  · intro hnone hd
    have hfind : (List.range (k + 1 + 1)).find? (fun j => switchMatch
        [subject, (pairs.map Prod.fst ++ [d]).getD j .nil] 1) = some (k + 1) := by
      apply find?_range_first _ _ _ (by omega)
      · simp only [hgetd]; exact hd
      · intro i hi
        exact hall hnone i hi
    rw [hsw, hfind]
    have hnone2 : (subject :: (pairs.flatMap (fun cr => [cr.1, cr.2]) ++ [d])).get?
        (2 * (k + 1) + 2) = none := by
      rw [List.get?_eq_none]
      rw [hlen]
    simp only [index, hnone2, hlen, hk]

/-! ## The loops of `andFunc` and `orFunc` -/

theorem andLoop_append (E : Ext) (pre rest : List Value)
    (h : ∀ x ∈ pre, E.toBoolE x = some true) : andLoop E (pre ++ rest) = andLoop E rest := by
  induction pre with
  | nil => rfl
  | cons a pre ih =>
    simp only [List.cons_append, andLoop, h a (List.mem_cons_self _ _)]
    exact ih (fun x hx => h x (List.mem_cons_of_mem _ hx))

theorem orLoop_append (E : Ext) (pre rest : List Value)
    (h : ∀ x ∈ pre, E.toBoolE x = some false) : orLoop E (pre ++ rest) = orLoop E rest := by
  induction pre with
  | nil => rfl
  | cons a pre ih =>
    simp only [List.cons_append, orLoop, h a (List.mem_cons_self _ _)]
    exact ih (fun x hx => h x (List.mem_cons_of_mem _ hx))

theorem andLoop_true_iff (E : Ext) (args : List Value) :
    andLoop E args = .ok (.bool true) ↔ ∀ x ∈ args, E.toBoolE x = some true := by
  induction args with
  | nil => simp [andLoop]
  | cons a rest ih =>
    simp only [andLoop, List.mem_cons, forall_eq_or_imp]
    cases h : E.toBoolE a with
    | none => simp
    | some b => cases b <;> simp [ih]

theorem orLoop_false_iff (E : Ext) (args : List Value) :
    orLoop E args = .ok (.bool false) ↔ ∀ x ∈ args, E.toBoolE x = some false := by
  induction args with
  | nil => simp [orLoop]
  | cons a rest ih =>
    simp only [orLoop, List.mem_cons, forall_eq_or_imp]
    cases h : E.toBoolE a with
    | none => simp
    | some b => cases b <;> simp [ih]

theorem andFunc_eq (E : Ext) (args : List Value) (h : args ≠ []) :
    andFunc E args = andLoop E args := by
  unfold andFunc
  rw [if_neg (fun e => h (List.length_eq_zero.mp e))]

theorem orFunc_eq (E : Ext) (args : List Value) (h : args ≠ []) :
    orFunc E args = orLoop E args := by
  unfold orFunc
  rw [if_neg (fun e => h (List.length_eq_zero.mp e))]

/-! ## A call as an argument of a call -/

/-- The names of the registry are not empty and have none of the characters that
`splitArgs` looks for. -/
theorem fnFuncAt_name_plain (F : Func) (fn : Ext → List Value → Res Value)
    (h : fnFuncAt F = some fn) :
    F ≠ [] ∧ ∀ c ∈ F, c ≠ Apostrophe ∧ c ≠ LeftBracket ∧ c ≠ LeftSquareBracket ∧
      c ≠ RightBracket ∧ c ≠ RightSquareBracket ∧ c ≠ Comma := by
  have hm : F ∈ fnFunc.map Prod.fst := by
    unfold fnFuncAt at h
    cases hf : fnFunc.find? (fun e => e.1 == F) with
    | none => rw [hf] at h; simp at h
    | some e =>
      have h1 := List.find?_some hf
      have h2 := List.mem_of_find?_eq_some hf
      have h3 : e.1 = F := by simpa using h1
      rw [← h3]
      exact List.mem_map_of_mem _ h2
  have hall : ∀ G ∈ fnFunc.map Prod.fst,
      G ≠ [] ∧ ∀ c ∈ G, c ≠ Apostrophe ∧ c ≠ LeftBracket ∧ c ≠ LeftSquareBracket ∧
        c ≠ RightBracket ∧ c ≠ RightSquareBracket ∧ c ≠ Comma := by decide
  exact hall F hm

theorem scanStep_shift (st st2 : Nat × Bool) (c : Char) (j : Nat)
    (h : scanStep st c = some st2) :
    scanStep (st.1 + j, st.2) c = some (st2.1 + j, st2.2) := by
  simp only [scanStep] at h ⊢
  split_ifs at h ⊢ <;> first
    | (cases h; rfl)
    | (cases h; simp only [Option.some.injEq, Prod.mk.injEq, and_true]; omega)
    | (exfalso; omega)
    | (rename_i h1 h2; exact absurd ⟨by omega, h1.2⟩ h2)

/-- The scan of a text below `j` more open brackets. -/
theorem scanArg_shift (x : Str) (j : Nat) : ∀ (st st2 : Nat × Bool),
    scanArg st x = some st2 → scanArg (st.1 + j, st.2) x = some (st2.1 + j, st2.2) := by
  induction x with
  | nil =>
    intro st st2 h
    simp only [scanArg, Option.some.injEq] at h ⊢
    rw [h]
  | cons c cs ih =>
    intro st st2 h
    simp only [scanArg] at h ⊢
    cases h1 : scanStep st c with
    | none => rw [h1] at h; simp at h
    | some st1 =>
      rw [h1] at h
      rw [scanStep_shift st st1 c j h1]
      simp only [Option.some_bind] at h ⊢
      exact ih st1 st2 h

theorem scanArg_joinChar_inner (as : List Str)
    (h : ∀ a ∈ as, scanArg (0, false) a = some (0, false)) :
    scanArg (1, false) (joinChar Comma as) = some (1, false) := by
  induction as with
  | nil => rfl
  | cons a rest ih =>
    have ha : scanArg (1, false) a = some (1, false) :=
      scanArg_shift a 1 (0, false) (0, false) (h a (List.mem_cons_self _ _))
    cases rest with
    | nil => exact ha
    | cons b rest2 =>
      have hc : scanStep (1, false) Comma = some (1, false) := by decide
      simp only [joinChar, scanArg_append, ha, Option.some_bind, scanArg, hc]
      exact ih (fun x hx => h x (List.mem_cons_of_mem _ hx))

theorem quotes_append (x y : Str) : quotes (x ++ y) = quotes x + quotes y := by
  simp [quotes, List.countP_append]

theorem quotes_joinChar (as : List Str) (h : ∀ a ∈ as, quotes a % 2 = 0) :
    quotes (joinChar Comma as) % 2 = 0 := by
  induction as with
  | nil => rfl
  | cons a rest ih =>
    have ha := h a (List.mem_cons_self _ _)
    cases rest with
    | nil => exact ha
    | cons b rest2 =>
      have hr := ih (fun x hx => h x (List.mem_cons_of_mem _ hx))
      have e : quotes (joinChar Comma (a :: b :: rest2)) =
          quotes a + quotes (joinChar Comma (b :: rest2)) := by
        simp only [joinChar]
        rw [quotes_append]
        simp [quotes, List.countP_cons, show (Comma == Apostrophe) = false by decide]
      rw [e]
      omega

/-- A call of a registered function on arguments that `splitArgs` scans from top level
to top level is itself such an argument. -/
theorem callText_scan (G : Func) (gn : Ext → List Value → Res Value) (as : List Str)
    (hG : fnFuncAt G = some gn)
    (hw : ∀ a ∈ as, a ≠ [] ∧ quotes a % 2 = 0 ∧ scanArg (0, false) a = some (0, false)) :
    callText G as ≠ [] ∧ quotes (callText G as) % 2 = 0 ∧
    scanArg (0, false) (callText G as) = some (0, false) := by
  obtain ⟨hne, hpl⟩ := fnFuncAt_name_plain G gn hG
  refine ⟨by simp [callText, hne], ?_, ?_⟩
  · have e : callText G as = G ++ ([LeftBracket] ++ (joinChar Comma as ++ [RightBracket])) := by
      simp [callText]
    rw [e, quotes_append, quotes_append, quotes_append,
      quotes_of_not_mem G (fun hm => (hpl _ hm).1 rfl)]
    have := quotes_joinChar as (fun a ha => (hw a ha).2.1)
    have e1 : quotes [LeftBracket] = 0 := by decide
    have e2 : quotes [RightBracket] = 0 := by decide
    omega
  · have e : callText G as = G ++ (LeftBracket :: (joinChar Comma as ++ [RightBracket])) := by
      simp [callText]
    have h1 : scanStep (0, false) LeftBracket = some (1, false) := by decide
    have h2 : scanStep (1, false) RightBracket = some (0, false) := by decide
    rw [e, scanArg_append, scanArg_plain G (0, false) hpl]
    simp only [Option.some_bind, scanArg, h1, scanArg_append,
      scanArg_joinChar_inner as (fun a ha => (hw a ha).2.2), h2]

theorem scan_of_wellFormed (a : Str) (h : WellFormedArg a) :
    a ≠ [] ∧ quotes a % 2 = 0 ∧ scanArg (0, false) a = some (0, false) :=
  ⟨h.1, h.2.1, scanArg_wellFormed a h⟩

/-! ## An operator symbol between apostrophes -/

theorem lastIndex_none_of_not_mem (d : Char) (s : Str) (h : d ∉ s) :
    lastIndex [d] s = none := by
  induction s with
  | nil => simp [lastIndex]
  | cons c cs ih =>
    have hc : d ≠ c := fun e => h (by simp [e])
    have hcs : d ∉ cs := fun e => h (List.mem_cons_of_mem _ e)
    simp [lastIndex, ih hcs, List.isPrefixOf, hc]

theorem lastIndex_single (d : Char) (pre post : Str) (h : d ∉ post) :
    lastIndex [d] (pre ++ d :: post) = some pre.length := by
  induction pre with
  | nil => simp [lastIndex, lastIndex_none_of_not_mem d post h, List.isPrefixOf]
  | cons c cs ih => simp [lastIndex, ih]

theorem removeWhitespace_open_quote (u : Str) (h : Apostrophe ∉ u) :
    removeWhitespace (Apostrophe :: u) = Apostrophe :: u := by
  unfold removeWhitespace
  have e := splitChar_append Apostrophe [] u (by simp)
  simp only [List.nil_append] at e
  rw [e, splitChar_of_not_mem _ _ h]
  rfl

/-- A text that opens an apostrophe and does not close it, free of operator symbols, is
no literal, no path and no constant: `Parse` returns the error `unknown string`. -/
theorem Parse_open_quote (E : Ext) (visit : List Nat → List Operator) (path : List Nat)
    (p : Parser) (u : Str) (fuel : Nat) (hp : (visit path).Perm opKeys) (hu : u ≠ [])
    (ha : Apostrophe ∉ u)
    (hc : ∀ c ∈ u, c ≠ '=' ∧ c ≠ '<' ∧ c ≠ '*' ∧ c ≠ '/' ∧ c ≠ '+' ∧ c ≠ '-') :
    Parse E visit (fuel + 1) path p (Apostrophe :: u) =
      some (.error (.unknownString (Apostrophe :: u)), p) := by
  have hw := removeWhitespace_open_quote u ha
  rw [Parse_literal E visit fuel path p _]
  · rw [hw]
    have h1 : parseInt (Apostrophe :: u) = none := by
      have e1 : Apostrophe ≠ '-' := by decide
      have e2 : Apostrophe ≠ '+' := by decide
      have e3 : digitVal Apostrophe = none := by decide
      simp [parseInt, e1, e2, parseUintDigits, parseDigits, e3]
    have h2 : E.parseFloat (Apostrophe :: u) = none := by
      cases hx : E.parseFloat (Apostrophe :: u) with
      | none => rfl
      | some f =>
        have := (E.parseFloat_chars _ f hx).2 Apostrophe (by simp)
        exact absurd this (by decide)
    have h3 : hasSuffixOf (Apostrophe :: u) [Apostrophe] = false := by
      obtain ⟨w, c, e⟩ : ∃ w c, u = w ++ [c] := by
        rcases List.eq_nil_or_concat u with h | ⟨w, c, h⟩
        · exact absurd h hu
        · exact ⟨w, c, by rw [h, List.concat_eq_append]⟩
      have hne : Apostrophe ≠ c := fun e2 => ha (by rw [e]; simp [e2])
      rw [e]
      simp [hasSuffixOf, List.isPrefixOf, hne]
    have h4 : hasPrefixOf (Apostrophe :: u) [LeftSquareBracket] = false := by
      have : (LeftSquareBracket == Apostrophe) = false := by decide
      simp [hasPrefixOf, List.isPrefixOf, this]
    have h5 : constMapAt (E.toUpper (Apostrophe :: u)) = none := by
      have e : E.toUpper (Apostrophe :: u) = Apostrophe :: E.toUpper u := by
        simp only [Ext.toUpper, List.map_cons]
        rw [E.unicodeToUpper_ascii Apostrophe (by decide)]
        rfl
      rw [e]
      have n1 : ('N' == Apostrophe) = false := by decide
      have n2 : ('T' == Apostrophe) = false := by decide
      have n3 : ('F' == Apostrophe) = false := by decide
      have n4 : ('E' == Apostrophe) = false := by decide
      simp only [constMapAt, constMap, Const.Nil, Const.True, Const.False, Const.NoParam,
        Const.EmptyArray, String.toList, List.find?]
      simp [n1, n2, n3, n4]
    simp only [parseLiteral, h1, h2, h3, h4, h5, Bool.and_false, Bool.false_and,
      Bool.false_eq_true, if_false]
  · rw [hw]
    apply fnFuncAt_none_of_head
    intro c hc2
    have hb : (Apostrophe != LeftBracket) = true := by decide
    simp only [beforeFirst, List.takeWhile, hb, List.head?_cons, Option.some.injEq] at hc2
    rw [← hc2]; decide
  · rw [hw]
    apply containsOp_none_of_chars _ _ hp
    intro c hc2
    rcases List.mem_cons.mp hc2 with e | e
    · rw [e]; decide
    · exact hc c e

/-- The only operator symbol of a text whose characters, a `-` apart, are none of
`= < * / + -`, is `-`: every visiting order finds it. -/
theorem containsOp_sub (order : List Operator) (hp : order.Perm opKeys) (x y : Str)
    (hx : ∀ c ∈ x, c ≠ '=' ∧ c ≠ '<' ∧ c ≠ '*' ∧ c ≠ '/' ∧ c ≠ '+' ∧ c ≠ '-')
    (hy : ∀ c ∈ y, c ≠ '=' ∧ c ≠ '<' ∧ c ≠ '*' ∧ c ≠ '/' ∧ c ≠ '+' ∧ c ≠ '-') :
    containsOp order (x ++ '-' :: y) = some Operator.Sub := by
  have hall : ∀ c ∈ x ++ '-' :: y, c ≠ '=' ∧ c ≠ '<' ∧ c ≠ '*' ∧ c ≠ '/' ∧ c ≠ '+' := by
    intro c hc
    rcases List.mem_append.mp hc with e | e
    · have := hx c e
      exact ⟨this.1, this.2.1, this.2.2.1, this.2.2.2.1, this.2.2.2.2.1⟩
    · rcases List.mem_cons.mp e with e | e
      · rw [e]; decide
      · have := hy c e
        exact ⟨this.1, this.2.1, this.2.2.1, this.2.2.2.1, this.2.2.2.2.1⟩
  apply containsOp_unique order hp _ Operator.Sub (by decide)
  · rw [containsStr_iff]
    exact ⟨x, y, by simp [Operator.Sub]⟩
  · intro op hop hcont
    simp only [opKeys, opFunc, List.map_cons, List.map_nil, List.mem_cons, List.mem_singleton,
      List.not_mem_nil, or_false] at hop
    have hno : ∀ (o : Operator) (c : Char), c ∈ o → c ∉ x ++ '-' :: y →
        containsStr (x ++ '-' :: y) o = true → False := by
      intro o c hco hcn hct
      rw [containsStr_false_of_not_mem _ o c hco hcn] at hct
      exact absurd hct (by simp)
    rcases hop with h | h | h | h | h | h
    · exact absurd hcont (fun hct => hno op '=' (by rw [h]; decide)
        (fun hm => (hall _ hm).1 rfl) hct)
    · exact absurd hcont (fun hct => hno op '<' (by rw [h]; decide)
        (fun hm => (hall _ hm).2.1 rfl) hct)
    · exact absurd hcont (fun hct => hno op '*' (by rw [h]; decide)
        (fun hm => (hall _ hm).2.2.1 rfl) hct)
    · exact absurd hcont (fun hct => hno op '/' (by rw [h]; decide)
        (fun hm => (hall _ hm).2.2.2.1 rfl) hct)
    · exact absurd hcont (fun hct => hno op '+' (by rw [h]; decide)
        (fun hm => (hall _ hm).2.2.2.2 rfl) hct)
    · exact h

/-! ## The conversion of an integer to float64 -/

theorem F64.log2Steps_skip (s : Nat) (ss : List Nat) (k acc : Nat) (h : ¬ 2 ^ s ≤ k) :
    F64.log2Steps (s :: ss) k acc = F64.log2Steps ss k acc := by
  simp [F64.log2Steps, h]

/-- The search in the strides `2^(m-1), ..., 2, 1` finds the position of the leading bit
of a number below `2 ^ 2 ^ m`. -/
theorem F64.log2Steps_pow (m : Nat) : ∀ (k acc : Nat), 0 < k → k < 2 ^ 2 ^ m →
    ∃ L, F64.log2Steps ((List.range m).reverse.map (fun i => 2 ^ i)) k acc = acc + L ∧
      2 ^ L ≤ k ∧ k < 2 ^ (L + 1) := by
  induction m with
  | zero =>
    intro k acc h0 h1
    refine ⟨0, rfl, ?_, ?_⟩
    · simpa using h0
    · simpa using h1
  | succ m ih =>
    intro k acc h0 h1
    have e : (List.range (m + 1)).reverse.map (fun i => 2 ^ i) =
        2 ^ m :: (List.range m).reverse.map (fun i => 2 ^ i) := by
      rw [List.range_succ]
      simp
    rw [e]
    have hpow : (2 : Nat) ^ 2 ^ (m + 1) = 2 ^ 2 ^ m * 2 ^ 2 ^ m := by
      rw [← pow_add]
      congr 1
      rw [pow_succ]
      ring
    by_cases hk : 2 ^ 2 ^ m ≤ k
    · have hpos : 0 < 2 ^ 2 ^ m := Nat.two_pow_pos _
      have h2 : 0 < k / 2 ^ 2 ^ m := Nat.div_pos hk hpos
      have h3 : k / 2 ^ 2 ^ m < 2 ^ 2 ^ m := by
        rw [Nat.div_lt_iff_lt_mul hpos, ← hpow]
        exact h1
      obtain ⟨L, hL, hlo, hhi⟩ := ih (k / 2 ^ 2 ^ m) (acc + 2 ^ m) h2 h3
      refine ⟨2 ^ m + L, ?_, ?_, ?_⟩
      · simp only [F64.log2Steps, hk, if_true]
        rw [hL]
        ring
      · rw [pow_add]
        calc 2 ^ 2 ^ m * 2 ^ L ≤ 2 ^ 2 ^ m * (k / 2 ^ 2 ^ m) := Nat.mul_le_mul_left _ hlo
          _ ≤ k := Nat.mul_div_le k _
      · have : k < 2 ^ 2 ^ m * 2 ^ (L + 1) := by
          have h4 := Nat.lt_mul_div_succ k hpos
          have h5 : k / 2 ^ 2 ^ m + 1 ≤ 2 ^ (L + 1) := hhi
          calc k < 2 ^ 2 ^ m * (k / 2 ^ 2 ^ m + 1) := h4
            _ ≤ 2 ^ 2 ^ m * 2 ^ (L + 1) := Nat.mul_le_mul_left _ h5
        rw [show 2 ^ m + L + 1 = 2 ^ m + (L + 1) by ring, pow_add]
        exact this
    · rw [F64.log2Steps_skip _ _ _ _ hk]
      exact ih k acc h0 (Nat.lt_of_not_le hk)

/-- The position of the leading bit of a number below `2 ^ 64`. -/
theorem F64.log2_spec (k : Nat) (h0 : 0 < k) (h1 : k < 2 ^ 64) :
    2 ^ F64.log2 k ≤ k ∧ k < 2 ^ (F64.log2 k + 1) := by
  have a1 : ¬ 2 ^ 256 ≤ k := by
    have : (2 : Nat) ^ 64 ≤ 2 ^ 256 := Nat.pow_le_pow_right (by norm_num) (by norm_num)
    omega
  have a2 : ¬ 2 ^ 128 ≤ k := by
    have : (2 : Nat) ^ 64 ≤ 2 ^ 128 := Nat.pow_le_pow_right (by norm_num) (by norm_num)
    omega
  have a3 : ¬ 2 ^ 64 ≤ k := by omega
  have e : F64.log2 k = F64.log2Steps ((List.range 6).reverse.map (fun i => 2 ^ i)) k 0 := by
    unfold F64.log2
    iterate 16 rw [F64.log2Steps_skip _ _ _ _ a1]
    rw [F64.log2Steps_skip _ _ _ _ a2, F64.log2Steps_skip _ _ _ _ a3]
    rfl
  obtain ⟨L, hL, hlo, hhi⟩ := F64.log2Steps_pow 6 k 0 h0 (by simpa using h1)
  rw [e, hL, Nat.zero_add]
  exact ⟨hlo, hhi⟩

theorem F64.roundScaled_withSign (s : Bool) (n d : Nat) (e : Int) :
    F64.roundScaled s n d e = F64.withSign s (F64.roundScaled false n d e) := by
  unfold F64.roundScaled
  split_ifs <;> cases s <;> simp [F64.withSign]

theorem F64.ofNat_small (n : Nat) (h0 : 0 < n) (h1 : n < 2 ^ 53) :
    ∃ L q, L ≤ 52 ∧ 2 ^ 52 ≤ q ∧ q < 2 ^ 53 ∧ q = n * 2 ^ (52 - L) ∧
      2 ^ L ≤ n ∧ n < 2 ^ (L + 1) ∧
      F64.roundScaled false n 1 0 = (L + 1022) * 2 ^ 52 + q := by
  obtain ⟨hlo, hhi⟩ := F64.log2_spec n h0 (by
    have : (2 : Nat) ^ 53 ≤ 2 ^ 64 := Nat.pow_le_pow_right (by norm_num) (by norm_num)
    omega)
  generalize hLdef : F64.log2 n = L at hlo hhi
  have hL : L ≤ 52 := by
    have : 2 ^ L < 2 ^ 53 := lt_of_le_of_lt hlo h1
    have := (Nat.pow_lt_pow_iff_right (by norm_num : 1 < 2)).mp this
    omega
  have hpow : 2 ^ L * 2 ^ (52 - L) = 2 ^ 52 := by
    rw [← pow_add]; congr 1; omega
  have hpow2 : 2 ^ (L + 1) * 2 ^ (52 - L) = 2 ^ 53 := by
    rw [← pow_add]; congr 1; omega
  have hP : 0 < 2 ^ (52 - L) := Nat.two_pow_pos _
  have hq1 : 2 ^ 52 ≤ n * 2 ^ (52 - L) := by
    rw [← hpow]; exact Nat.mul_le_mul_right _ hlo
  have hq2 : n * 2 ^ (52 - L) < 2 ^ 53 := by
    rw [← hpow2]; exact Nat.mul_lt_mul_of_pos_right hhi hP
  refine ⟨L, n * 2 ^ (52 - L), hL, hq1, hq2, rfl, hlo, hhi, ?_⟩
  have hL1 : F64.log2 1 = 0 := by decide
  have hn0 : ¬ n = 0 := by omega
  have hx0 : max ((L : Int) - ((0 : Nat) : Int) + 0 - 52) (-1074) = (L : Int) - 52 := by
    apply max_eq_left
    omega
  have hs : (0 : Int) - ((L : Int) - 52) = ((52 - L : Nat) : Int) := by omega
  have hquot : F64.quot n 1 ((52 - L : Nat) : Int) = (n * 2 ^ (52 - L), 0, 1) := by
    simp [F64.quot, Nat.mod_one]
  have hcond : ¬ ((-1074 : Int) < (L : Int) - 52 ∧ n * 2 ^ (52 - L) < 2 ^ 52) :=
    fun h => absurd h.2 (Nat.not_lt.mpr hq1)
  have hm : ((L : Int) - 52 + 1074).toNat = L + 1022 := by omega
  have hinf : ¬ F64.inf ≤ (L + 1022) * 2 ^ 52 + n * 2 ^ (52 - L) := by
    unfold F64.inf
    generalize n * 2 ^ (52 - L) = q at hq1 hq2
    norm_num at hq2 ⊢
    omega
  unfold F64.roundScaled
  simp only [hn0, if_false, hLdef, hL1, hx0, hs, hquot, hcond, hm]
  simp only [Nat.mul_zero, Nat.lt_irrefl, Nat.not_lt_zero, false_or, false_and, if_false,
    show ¬ ((0 : Nat) = 1) by decide, hinf, F64.withSign, Bool.false_eq_true]

theorem F64.ofNat_zero : F64.roundScaled false 0 1 0 = 0 := by
  simp [F64.roundScaled, F64.withSign]

theorem F64.ofNat_top : F64.roundScaled false (2 ^ 53) 1 0 = 1076 * 2 ^ 52 := by
  decide

theorem F64.ofNat_bounds (n : Nat) (hn : n ≤ 2 ^ 53) :
    F64.roundScaled false n 1 0 ≤ 1076 * 2 ^ 52 ∧
    (0 < n → 1023 * 2 ^ 52 ≤ F64.roundScaled false n 1 0) := by
  rcases Nat.eq_zero_or_pos n with h0 | h0
  · subst h0
    rw [F64.ofNat_zero]
    exact ⟨Nat.zero_le _, fun h => absurd h (Nat.lt_irrefl 0)⟩
  · rcases Nat.lt_or_eq_of_le hn with h1 | h1
    · obtain ⟨L, q, hL, hq1, hq2, _, _, _, e⟩ := F64.ofNat_small n h0 h1
      rw [e]
      norm_num at hq1 hq2 ⊢
      omega
    · subst h1
      rw [F64.ofNat_top]
      norm_num

/-- The conversion is strictly increasing on the integers up to `2 ^ 53`. -/
theorem F64.ofNat_lt (m n : Nat) (h : m < n) (hn : n ≤ 2 ^ 53) :
    F64.roundScaled false m 1 0 < F64.roundScaled false n 1 0 := by
  have hn0 : 0 < n := by omega
  rcases Nat.eq_zero_or_pos m with h0 | h0
  · subst h0
    rw [F64.ofNat_zero]
    have := (F64.ofNat_bounds n hn).2 hn0
    norm_num at this ⊢
    omega
  · have hm1 : m < 2 ^ 53 := by omega
    obtain ⟨Lm, qm, hLm, hqm1, hqm2, hqm, hmlo, hmhi, em⟩ := F64.ofNat_small m h0 hm1
    rcases Nat.lt_or_eq_of_le hn with h1 | h1
    · obtain ⟨Ln, qn, hLn, hqn1, hqn2, hqn, hnlo, hnhi, en⟩ := F64.ofNat_small n hn0 h1
      rw [em, en]
      have hLL : Lm ≤ Ln := by
        have : 2 ^ Lm < 2 ^ (Ln + 1) := lt_of_le_of_lt hmlo (lt_trans h hnhi)
        have := (Nat.pow_lt_pow_iff_right (by norm_num : 1 < 2)).mp this
        omega
      rcases Nat.lt_or_eq_of_le hLL with h2 | h2
      · norm_num at hqm2 hqn1 ⊢
        omega
      · subst h2
        have : qm < qn := by
          rw [hqm, hqn]
          exact Nat.mul_lt_mul_of_pos_right h (Nat.two_pow_pos _)
        omega
    · subst h1
      rw [em, F64.ofNat_top]
      norm_num at hqm2 ⊢
      omega

theorem F64.ofInt_eq (a : Int) :
    F64.ofInt a = F64.withSign (decide (a < 0)) (F64.roundScaled false a.natAbs 1 0) := by
  unfold F64.ofInt
  exact F64.roundScaled_withSign _ _ _ _

theorem F64.props_withSign (s : Bool) (m : Nat) (hm : m ≤ 1076 * 2 ^ 52) :
    F64.neg (F64.withSign s m) = s ∧ F64.abs (F64.withSign s m) = m ∧
    F64.isNaN (F64.withSign s m) = false ∧ F64.isZero (F64.withSign s m) = (m == 0) ∧
    F64.withSign s m % 2 ^ 64 = F64.withSign s m := by
  have hm2 : m < 2 ^ 63 := by norm_num at hm ⊢; omega
  have he : F64.expField (F64.withSign s m) ≠ 2047 := by
    rw [(F64.fields_withSign s m hm2).2.1]
    norm_num at hm ⊢
    omega
  have ha : F64.abs (F64.withSign s m) = m := by
    cases s <;> simp only [F64.abs, F64.withSign, F64.signBit] <;> norm_num at hm2 ⊢ <;> omega
  refine ⟨(F64.fields_withSign s m hm2).1, ha, ?_, ?_, ?_⟩
  · simp [F64.isNaN, he]
  · simp [F64.isZero, ha]
  · cases s <;> simp only [F64.withSign, F64.signBit] <;> norm_num at hm2 ⊢ <;> omega

/-- The order of float64 on the conversions of two integers of magnitude up to `2 ^ 53`
is the order of the integers. -/
theorem F64.lt_ofInt (a b : Int) (ha : a.natAbs ≤ 2 ^ 53) (hb : b.natAbs ≤ 2 ^ 53) :
    F64.lt (F64.ofInt a) (F64.ofInt b) = decide (a < b) ∧
    F64.eq (F64.ofInt a) (F64.ofInt b) = decide (a = b) := by
  rw [F64.ofInt_eq a, F64.ofInt_eq b]
  obtain ⟨a1, a2, a3, a4, a5⟩ := F64.props_withSign (decide (a < 0))
    (F64.roundScaled false a.natAbs 1 0) (F64.ofNat_bounds _ ha).1
  obtain ⟨b1, b2, b3, b4, b5⟩ := F64.props_withSign (decide (b < 0))
    (F64.roundScaled false b.natAbs 1 0) (F64.ofNat_bounds _ hb).1
  have hza : F64.roundScaled false a.natAbs 1 0 = 0 ↔ a = 0 := by
    constructor
    · intro h
      by_contra hne
      have := (F64.ofNat_bounds _ ha).2 (Int.natAbs_pos.mpr hne)
      rw [h] at this
      norm_num at this
    · intro h
      rw [h]
      exact F64.ofNat_zero
  have hzb : F64.roundScaled false b.natAbs 1 0 = 0 ↔ b = 0 := by
    constructor
    · intro h
      by_contra hne
      have := (F64.ofNat_bounds _ hb).2 (Int.natAbs_pos.mpr hne)
      rw [h] at this
      norm_num at this
    · intro h
      rw [h]
      exact F64.ofNat_zero
  have hmono : ∀ m n : Nat, m ≤ 2 ^ 53 → n ≤ 2 ^ 53 →
      (F64.roundScaled false m 1 0 < F64.roundScaled false n 1 0 ↔ m < n) := by
    intro m n hm hn
    constructor
    · intro h
      by_contra hc
      rcases Nat.lt_or_eq_of_le (Nat.not_lt.mp hc) with h2 | h2
      · exact absurd (F64.ofNat_lt n m h2 hm) (Nat.lt_asymm h)
      · rw [h2] at h
        exact absurd h (Nat.lt_irrefl _)
    · intro h
      exact F64.ofNat_lt m n h hn
  have hinj : F64.roundScaled false a.natAbs 1 0 = F64.roundScaled false b.natAbs 1 0 ↔
      a.natAbs = b.natAbs := by
    constructor
    · intro h
      by_contra hc
      rcases Nat.lt_or_gt_of_ne hc with h2 | h2
      · exact absurd h (Nat.ne_of_lt (F64.ofNat_lt _ _ h2 hb))
      · exact absurd h.symm (Nat.ne_of_lt (F64.ofNat_lt _ _ h2 ha))
    · intro h
      rw [h]
  have hlt := hmono a.natAbs b.natAbs ha hb
  have hgt := hmono b.natAbs a.natAbs hb ha
  generalize F64.roundScaled false a.natAbs 1 0 = Ma at *
  generalize F64.roundScaled false b.natAbs 1 0 = Mb at *
  constructor
  · simp only [F64.lt, a1, a2, a3, a4, b1, b2, b3, b4]
    by_cases h1 : a < 0 <;> by_cases h2 : b < 0 <;>
      simp only [h1, h2, decide_True, decide_False, Bool.not_false, Bool.true_and]
    · have hMa : (Ma == 0) = false := by
        rw [beq_eq_false_iff_ne]
        intro h; have := hza.mp h; omega
      simp only [hMa, Bool.false_and, Bool.not_false, Bool.true_and]
      rw [decide_eq_decide, hgt]
      omega
    · have hMa : (Ma == 0) = false := by
        rw [beq_eq_false_iff_ne]
        intro h; have := hza.mp h; omega
      have hab : a < b := by omega
      simp [hMa, hab]
    · have hab : ¬ a < b := by omega
      simp [hab]
    · have e : (!(Ma == 0 && Mb == 0) && decide (Ma < Mb)) = decide (Ma < Mb) := by
        by_cases h : Ma < Mb
        · have hMb : (Mb == 0) = false := by
            rw [beq_eq_false_iff_ne]; omega
          simp [h, hMb]
        · simp [h]
      rw [e, decide_eq_decide, hlt]
      omega
  · simp only [F64.eq, a3, a4, a5, b3, b4, b5, Bool.not_false, Bool.true_and]
    by_cases hab : a = b
    · have hm : Ma = Mb := hinj.mpr (by rw [hab])
      subst hab
      simp [hm]
    · have hne : ¬ (F64.withSign (decide (a < 0)) Ma = F64.withSign (decide (b < 0)) Mb) := by
        intro h
        have hs : decide (a < 0) = decide (b < 0) := by rw [← a1, ← b1, h]
        have hm : Ma = Mb := by rw [← a2, ← b2, h]
        have h3 := hinj.mp hm
        rw [decide_eq_decide] at hs
        omega
      have hz : (Ma == 0 && Mb == 0) = false := by
        rw [Bool.and_eq_false_iff, beq_eq_false_iff_ne, beq_eq_false_iff_ne]
        by_contra hc
        simp only [not_or, not_not] at hc
        have := hza.mp hc.1
        have := hzb.mp hc.2
        omega
      simp [hz, hne, hab]

/-- IF evaluates its three arguments before it chooses.  For well-formed argument
texts `c`, `A`, `B` whose evaluations (at their places in the call, with `fuel`) return
`rc`, `rA`, `rB`, none of the first two a panic: if `B` returns an error then
`Parse("IF(" + c + "," + A + "," + B + ")")` returns an error, and it is the error of
`B` when `c` and `A` return values, whatever the value of `c` (so also when it is
true); when all three return values, the result is the value of `A` if `c` coerces to
true and the value of `B` if `c` coerces to false. -/
theorem if_of_results (E : Ext) (visit : List Nat → List Operator)
    (fuel : Nat) (path : List Nat) (p : Parser) (c A B : Str) (rc rA rB : Res Value)
    (hc : WellFormedArg c) (hA : WellFormedArg A) (hB : WellFormedArg B)
    (ec : eval E visit fuel (path ++ [0]) (pushFunc p Func.If) c = some rc)
    (eA : eval E visit fuel (path ++ [1]) (pushFunc p Func.If) A = some rA)
    (eB : eval E visit fuel (path ++ [2]) (pushFunc p Func.If) B = some rB)
    (nc : ∀ x, rc ≠ .panic x) (nA : ∀ x, rA ≠ .panic x) :
    (∀ e, rB = .error e →
      ∃ e2, Parse E visit (fuel + 1) path p (callText Func.If [c, A, B]) =
        some (.error e2, p)) ∧
    (∀ e vc vA, rc = .ok vc → rA = .ok vA → rB = .error e →
      Parse E visit (fuel + 1) path p (callText Func.If [c, A, B]) = some (.error e, p)) ∧
    (∀ vc vA vB, rc = .ok vc → rA = .ok vA → rB = .ok vB → E.toBoolE vc = some true →
      Parse E visit (fuel + 1) path p (callText Func.If [c, A, B]) = some (.ok vA, p)) ∧
    (∀ vc vA vB, rc = .ok vc → rA = .ok vA → rB = .ok vB → E.toBoolE vc = some false →
      Parse E visit (fuel + 1) path p (callText Func.If [c, A, B]) = some (.ok vB, p)) := by
  have hcall := Parse_callText E visit fuel path p Func.If ifFunc [c, A, B] rfl (by simp)
    (by
      intro a ha
      simp only [List.mem_cons, List.mem_singleton, List.not_mem_nil, or_false] at ha
      rcases ha with e | e | e <;> rw [e] <;> assumption)
  rw [eval_eq] at ec eA eB
  have hpop := popFunc_pushFunc p Func.If
  cases rc with
  | panic x => exact absurd rfl (nc x)
  | error e1 =>
    have hP : Parse E visit (fuel + 1) path p (callText Func.If [c, A, B]) =
        some (.error e1, p) := by
      rw [hcall]
      simp [parseArgs, ec, hpop]
    refine ⟨fun _ _ => ⟨e1, hP⟩, ?_, ?_, ?_⟩ <;> intro _ _ _ h <;> cases h
  | ok vc =>
    cases rA with
    | panic x => exact absurd rfl (nA x)
    | error e2 =>
      have hP : Parse E visit (fuel + 1) path p (callText Func.If [c, A, B]) =
          some (.error e2, p) := by
        rw [hcall]
        simp [parseArgs, ec, eA, hpop]
      refine ⟨fun _ _ => ⟨e2, hP⟩, ?_, ?_, ?_⟩ <;> intro _ _ _ _ h <;> cases h
    | ok vA =>
      refine ⟨?_, ?_, ?_, ?_⟩
      · intro e he
        subst he
        refine ⟨e, ?_⟩
        rw [hcall]
        simp [parseArgs, ec, eA, eB, hpop]
      · intro e vc2 vA2 h1 h2 h3
        subst h3
        rw [hcall]
        simp [parseArgs, ec, eA, eB, hpop]
      · intro vc2 vA2 vB h1 h2 h3 hb
        cases h1
        cases h2
        subst h3
        rw [hcall]
        simp [parseArgs, ec, eA, eB, hpop, ifFunc, hb]
      · intro vc2 vA2 vB h1 h2 h3 hb
        cases h1
        cases h2
        subst h3
        rw [hcall]
        simp [parseArgs, ec, eA, eB, hpop, ifFunc, hb]

/-- The bare function name `SET` is its own only argument text: `Parse` calls itself on
the same text at every depth and no recursion budget gives a result. -/
theorem Parse_set_none (E : Ext) (visit : List Nat → List Operator) :
    ∀ (fuel : Nat) (path : List Nat) (p : Parser),
      Parse E visit fuel path p "SET".toList = none := by
  have hs : splitArgs (trimSuffixOf (trimPrefixOf (removeWhitespace "SET".toList)
      (beforeFirst LeftBracket (removeWhitespace "SET".toList) ++ [LeftBracket]))
      [RightBracket]) = ["SET".toList] := by decide
  intro fuel
  induction fuel with
  | zero => intro path p; rfl
  | succ n ih =>
    intro path p
    rw [Parse_call E visit n path p _ _ setFunc _ rfl (by rfl) hs]
    simp only [parseArgs, ih]

/-! ## The rounding of a quotient does not depend on the scale -/

/-- The search in strides finds the position of the leading bit: a run of equal strides
`B` in front of a list that serves the numbers below `2 ^ B`. -/
theorem F64.log2Steps_strides (tail : List Nat) (B : Nat)
    (ht : ∀ k acc, 0 < k → k < 2 ^ B →
      ∃ L, F64.log2Steps tail k acc = acc + L ∧ 2 ^ L ≤ k ∧ k < 2 ^ (L + 1)) :
    ∀ (j k acc : Nat), 0 < k → k < 2 ^ (B * (j + 1)) →
      ∃ L, F64.log2Steps (List.replicate j B ++ tail) k acc = acc + L ∧
        2 ^ L ≤ k ∧ k < 2 ^ (L + 1) := by
  intro j
  induction j with
  | zero =>
    intro k acc h0 h1
    simp only [List.replicate, List.nil_append]
    exact ht k acc h0 (by simpa using h1)
  | succ j ih =>
    intro k acc h0 h1
    have e : List.replicate (j + 1) B ++ tail = B :: (List.replicate j B ++ tail) := rfl
    rw [e]
    have hpow : (2 : Nat) ^ (B * (j + 1 + 1)) = 2 ^ B * 2 ^ (B * (j + 1)) := by
      rw [← pow_add]
      congr 1
      ring
    by_cases hk : 2 ^ B ≤ k
    · have hpos : 0 < 2 ^ B := Nat.two_pow_pos _
      have h2 : 0 < k / 2 ^ B := Nat.div_pos hk hpos
      have h3 : k / 2 ^ B < 2 ^ (B * (j + 1)) := by
        rw [Nat.div_lt_iff_lt_mul hpos, Nat.mul_comm, ← hpow]
        exact h1
      obtain ⟨L, hL, hlo, hhi⟩ := ih (k / 2 ^ B) (acc + B) h2 h3
      refine ⟨B + L, ?_, ?_, ?_⟩
      · simp only [F64.log2Steps, hk, if_true]
        rw [hL]
        ring
      · rw [pow_add]
        calc 2 ^ B * 2 ^ L ≤ 2 ^ B * (k / 2 ^ B) := Nat.mul_le_mul_left _ hlo
          _ ≤ k := Nat.mul_div_le k _
      · have : k < 2 ^ B * 2 ^ (L + 1) := by
          have h4 := Nat.lt_mul_div_succ k hpos
          have h5 : k / 2 ^ B + 1 ≤ 2 ^ (L + 1) := hhi
          calc k < 2 ^ B * (k / 2 ^ B + 1) := h4
            _ ≤ 2 ^ B * 2 ^ (L + 1) := Nat.mul_le_mul_left _ h5
        rw [show B + L + 1 = B + (L + 1) by ring, pow_add]
        exact this
    · rw [F64.log2Steps_skip _ _ _ _ hk]
      by_cases hj : k < 2 ^ (B * (j + 1))
      · exact ih k acc h0 hj
      · exfalso
        have h5 : (2 : Nat) ^ B ≤ 2 ^ (B * (j + 1)) :=
          Nat.pow_le_pow_right (by norm_num) (by
            calc B = B * 1 := (Nat.mul_one B).symm
              _ ≤ B * (j + 1) := Nat.mul_le_mul_left _ (by omega))
        omega

/-- The position of the leading bit of a number below `2 ^ 4352`. -/
theorem F64.log2_big (k : Nat) (h0 : 0 < k) (h1 : k < 2 ^ 4352) :
    2 ^ F64.log2 k ≤ k ∧ k < 2 ^ (F64.log2 k + 1) := by
  have e : F64.log2 k = F64.log2Steps
      (List.replicate 16 256 ++ (List.range 8).reverse.map (fun i => 2 ^ i)) k 0 := rfl
  obtain ⟨L, hL, hlo, hhi⟩ := F64.log2Steps_strides
    ((List.range 8).reverse.map (fun i => 2 ^ i)) 256
    (fun k acc a b => F64.log2Steps_pow 8 k acc a b) 16 k 0 h0
    (by rw [show 256 * (16 + 1) = 4352 from rfl]; exact h1)
  rw [e, hL, Nat.zero_add]
  exact ⟨hlo, hhi⟩

/-- The position of the leading bit is determined by its two bounds. -/
theorem F64.log2_unique (k a b : Nat) (ha1 : 2 ^ a ≤ k) (ha2 : k < 2 ^ (a + 1))
    (hb1 : 2 ^ b ≤ k) (hb2 : k < 2 ^ (b + 1)) : a = b := by
  have h1 : 2 ^ a < 2 ^ (b + 1) := lt_of_le_of_lt ha1 hb2
  have h2 : 2 ^ b < 2 ^ (a + 1) := lt_of_le_of_lt hb1 ha2
  have h3 := (Nat.pow_lt_pow_iff_right (by norm_num : 1 < 2)).mp h1
  have h4 := (Nat.pow_lt_pow_iff_right (by norm_num : 1 < 2)).mp h2
  omega

/-- A factor `2 ^ i` moves the leading bit by `i` places. -/
theorem F64.log2_shift (n i : Nat) (h0 : 0 < n) (h1 : n * 2 ^ i < 2 ^ 4352) :
    F64.log2 (n * 2 ^ i) = F64.log2 n + i := by
  have hP : 0 < 2 ^ i := Nat.two_pow_pos i
  have hn : n < 2 ^ 4352 := lt_of_le_of_lt (Nat.le_mul_of_pos_right n hP) h1
  obtain ⟨a1, a2⟩ := F64.log2_big n h0 hn
  obtain ⟨b1, b2⟩ := F64.log2_big (n * 2 ^ i) (Nat.mul_pos h0 hP) h1
  refine F64.log2_unique (n * 2 ^ i) _ _ b1 b2 ?_ ?_
  · rw [pow_add]
    exact Nat.mul_le_mul_right _ a1
  · rw [show F64.log2 n + i + 1 = F64.log2 n + 1 + i by ring, pow_add]
    exact Nat.mul_lt_mul_of_pos_right a2 hP

/-- The rounding of a quotient looks at the leading bits of the two numbers, at the
whole quotients and at the place of the remainder against the divisor, and at nothing
else. -/
theorem F64.roundScaled_congr (s : Bool) (n d n2 d2 : Nat) (e e2 : Int)
    (hz : n = 0 ↔ n2 = 0)
    (hb : n ≠ 0 → (F64.log2 n : Int) - (F64.log2 d : Int) + e =
      (F64.log2 n2 : Int) - (F64.log2 d2 : Int) + e2)
    (hq : ∀ t : Int, (F64.quot n d (e - t)).1 = (F64.quot n2 d2 (e2 - t)).1 ∧
      ∃ c, 0 < c ∧ (F64.quot n d (e - t)).2.1 = (F64.quot n2 d2 (e2 - t)).2.1 * c ∧
        (F64.quot n d (e - t)).2.2 = (F64.quot n2 d2 (e2 - t)).2.2 * c) :
    F64.roundScaled s n d e = F64.roundScaled s n2 d2 e2 := by
  unfold F64.roundScaled
  by_cases hn : n = 0
  · rw [if_pos hn, if_pos (hz.mp hn)]
  · rw [if_neg hn, if_neg (fun h => hn (hz.mpr h))]
    simp only [hb hn, fun t => (hq t).1]
    generalize (if -1074 < max ((F64.log2 n2 : Int) - (F64.log2 d2 : Int) + e2 - 52) (-1074) ∧
        (F64.quot n2 d2 (e2 - max ((F64.log2 n2 : Int) - (F64.log2 d2 : Int) + e2 - 52)
          (-1074))).1 < 2 ^ 52
      then max ((F64.log2 n2 : Int) - (F64.log2 d2 : Int) + e2 - 52) (-1074) - 1
      else max ((F64.log2 n2 : Int) - (F64.log2 d2 : Int) + e2 - 52) (-1074)) = x
    obtain ⟨c, hc, hr, hdd⟩ := (hq x).2
    have hcond : ((F64.quot n d (e - x)).2.2 < 2 * (F64.quot n d (e - x)).2.1 ∨
        2 * (F64.quot n d (e - x)).2.1 = (F64.quot n d (e - x)).2.2 ∧
          (F64.quot n2 d2 (e2 - x)).1 % 2 = 1) ↔
        ((F64.quot n2 d2 (e2 - x)).2.2 < 2 * (F64.quot n2 d2 (e2 - x)).2.1 ∨
        2 * (F64.quot n2 d2 (e2 - x)).2.1 = (F64.quot n2 d2 (e2 - x)).2.2 ∧
          (F64.quot n2 d2 (e2 - x)).1 % 2 = 1) := by
      rw [hr, hdd]
      have e1 : 2 * ((F64.quot n2 d2 (e2 - x)).2.1 * c) =
          2 * (F64.quot n2 d2 (e2 - x)).2.1 * c := by ring
      rw [e1, Nat.mul_lt_mul_right hc, Nat.mul_left_inj (Nat.pos_iff_ne_zero.mp hc)]
    simp only [hcond]

theorem F64.quot_nonneg (n d a : Nat) :
    F64.quot n d (a : Int) = (n * 2 ^ a / d, n * 2 ^ a % d, d) := by
  simp [F64.quot]

theorem F64.quot_neg (n d a : Nat) (h : 0 < a) :
    F64.quot n d (-(a : Int)) = (n / (d * 2 ^ a), n % (d * 2 ^ a), d * 2 ^ a) := by
  have : ¬ (0 : Int) ≤ -(a : Int) := by omega
  simp [F64.quot, this]

/-- A factor `2 ^ i` of the numerator is worth `i` on the exponent. -/
theorem F64.quot_scale_num (n d i : Nat) (t : Int) :
    (F64.quot (n * 2 ^ i) d t).1 = (F64.quot n d (t + i)).1 ∧
    ∃ c, 0 < c ∧ (F64.quot (n * 2 ^ i) d t).2.1 = (F64.quot n d (t + i)).2.1 * c ∧
      (F64.quot (n * 2 ^ i) d t).2.2 = (F64.quot n d (t + i)).2.2 * c := by
  by_cases h1 : 0 ≤ t
  · obtain ⟨a, rfl⟩ := Int.eq_ofNat_of_zero_le h1
    have e : ((a : Int) + (i : Int)) = ((a + i : Nat) : Int) := by push_cast; rfl
    rw [e, F64.quot_nonneg, F64.quot_nonneg]
    have e2 : n * 2 ^ i * 2 ^ a = n * 2 ^ (a + i) := by rw [pow_add]; ring
    rw [e2]
    exact ⟨rfl, 1, by norm_num, by simp, by simp⟩
  · obtain ⟨k, hk⟩ : ∃ k : Nat, t = -(k : Int) := ⟨(-t).toNat, by omega⟩
    have hk0 : 0 < k := by omega
    subst hk
    rw [F64.quot_neg _ _ _ hk0]
    by_cases h2 : k ≤ i
    · obtain ⟨m, rfl⟩ := Nat.exists_eq_add_of_le h2
      have e : (-(k : Int) + ((k + m : Nat) : Int)) = (m : Int) := by push_cast; ring
      rw [e, F64.quot_nonneg]
      have e2 : n * 2 ^ (k + m) = n * 2 ^ m * 2 ^ k := by rw [pow_add]; ring
      have hP : 0 < 2 ^ k := Nat.two_pow_pos k
      rw [e2]
      refine ⟨Nat.mul_div_mul_right _ _ hP, 2 ^ k, hP, Nat.mul_mod_mul_right _ _ _, rfl⟩
    · obtain ⟨m, hm⟩ := Nat.exists_eq_add_of_le (Nat.le_of_lt (Nat.lt_of_not_le h2))
      have hm0 : 0 < m := by omega
      have e : (-(k : Int) + (i : Int)) = -(m : Int) := by rw [hm]; push_cast; ring
      rw [e, F64.quot_neg _ _ _ hm0]
      have e2 : d * 2 ^ k = d * 2 ^ m * 2 ^ i := by rw [hm, pow_add]; ring
      have hP : 0 < 2 ^ i := Nat.two_pow_pos i
      rw [e2]
      refine ⟨Nat.mul_div_mul_right _ _ hP, 2 ^ i, hP, Nat.mul_mod_mul_right _ _ _, rfl⟩

/-- A factor `2 ^ j` of the divisor is worth `-j` on the exponent. -/
theorem F64.quot_scale_den (n d j : Nat) (t : Int) :
    (F64.quot n (d * 2 ^ j) t).1 = (F64.quot n d (t - j)).1 ∧
    ∃ c, 0 < c ∧ (F64.quot n (d * 2 ^ j) t).2.1 = (F64.quot n d (t - j)).2.1 * c ∧
      (F64.quot n (d * 2 ^ j) t).2.2 = (F64.quot n d (t - j)).2.2 * c := by
  by_cases h1 : 0 ≤ t
  · obtain ⟨a, rfl⟩ := Int.eq_ofNat_of_zero_le h1
    rw [F64.quot_nonneg]
    by_cases h2 : j ≤ a
    · obtain ⟨m, rfl⟩ := Nat.exists_eq_add_of_le h2
      have e : (((j + m : Nat) : Int) - (j : Int)) = (m : Int) := by push_cast; ring
      rw [e, F64.quot_nonneg]
      have e2 : n * 2 ^ (j + m) = n * 2 ^ m * 2 ^ j := by rw [pow_add]; ring
      have hP : 0 < 2 ^ j := Nat.two_pow_pos j
      rw [e2]
      refine ⟨Nat.mul_div_mul_right _ _ hP, 2 ^ j, hP, Nat.mul_mod_mul_right _ _ _, rfl⟩
    · obtain ⟨m, hm⟩ := Nat.exists_eq_add_of_le (Nat.le_of_lt (Nat.lt_of_not_le h2))
      have hm0 : 0 < m := by omega
      have e : ((a : Int) - (j : Int)) = -(m : Int) := by rw [hm]; push_cast; ring
      rw [e, F64.quot_neg _ _ _ hm0]
      have e2 : d * 2 ^ j = d * 2 ^ m * 2 ^ a := by rw [hm, pow_add]; ring
      have hP : 0 < 2 ^ a := Nat.two_pow_pos a
      rw [e2]
      refine ⟨Nat.mul_div_mul_right _ _ hP, 2 ^ a, hP, Nat.mul_mod_mul_right _ _ _, rfl⟩
  · obtain ⟨k, hk⟩ : ∃ k : Nat, t = -(k : Int) := ⟨(-t).toNat, by omega⟩
    have hk0 : 0 < k := by omega
    subst hk
    have e : (-(k : Int) - (j : Int)) = -((k + j : Nat) : Int) := by push_cast; ring
    rw [e, F64.quot_neg _ _ _ hk0, F64.quot_neg _ _ _ (by omega)]
    have e2 : d * 2 ^ j * 2 ^ k = d * 2 ^ (k + j) := by rw [pow_add]; ring
    rw [e2]
    exact ⟨rfl, 1, by norm_num, by simp, by simp⟩

/-- The rounding of `n * 2 ^ i / d * 2 ^ e` is the rounding of `n / d * 2 ^ (e + i)`. -/
theorem F64.roundScaled_scale_num (s : Bool) (n d i : Nat) (e : Int)
    (h : n * 2 ^ i < 2 ^ 4352) :
    F64.roundScaled s (n * 2 ^ i) d e = F64.roundScaled s n d (e + i) := by
  have hP : 0 < 2 ^ i := Nat.two_pow_pos i
  apply F64.roundScaled_congr
  · constructor
    · intro h0
      rcases Nat.mul_eq_zero.mp h0 with h1 | h1
      · exact h1
      · omega
    · intro h0
      rw [h0, Nat.zero_mul]
  · intro hn
    have hn0 : 0 < n := by
      rcases Nat.eq_zero_or_pos n with h0 | h0
      · rw [h0, Nat.zero_mul] at hn
        exact absurd rfl hn
      · exact h0
    rw [F64.log2_shift n i hn0 h]
    push_cast
    ring
  · intro t
    have e1 : e + (i : Int) - t = e - t + (i : Int) := by ring
    rw [e1]
    exact F64.quot_scale_num n d i (e - t)

/-- The rounding of `n / (d * 2 ^ j) * 2 ^ e` is the rounding of `n / d * 2 ^ (e - j)`. -/
theorem F64.roundScaled_scale_den (s : Bool) (n d j : Nat) (e : Int) (hd : 0 < d)
    (h : d * 2 ^ j < 2 ^ 4352) :
    F64.roundScaled s n (d * 2 ^ j) e = F64.roundScaled s n d (e - j) := by
  apply F64.roundScaled_congr
  · exact Iff.rfl
  · intro _
    rw [F64.log2_shift d j hd h]
    push_cast
    ring
  · intro t
    have e1 : e - (j : Int) - t = e - t - (j : Int) := by ring
    rw [e1]
    exact F64.quot_scale_den n d j (e - t)

/-! ## Rounding to decimal digits -/

/-- The whole number nearest to `n * 2 ^ e`, computed at any scale `2 ^ K` that makes
`n * 2 ^ (e + K)` whole. -/
theorem nearestHalfAway_scale (n : Nat) (e : Int) (K : Nat) (h : 0 ≤ e + K) :
    nearestHalfAway n e = (2 * (n * 2 ^ (e + K).toNat) + 2 ^ K) / (2 * 2 ^ K) := by
  have hK : 0 < 2 ^ K := Nat.two_pow_pos K
  by_cases h1 : 0 ≤ e
  · obtain ⟨a, rfl⟩ := Int.eq_ofNat_of_zero_le h1
    have e1 : ((a : Int) + (K : Int)).toNat = a + K := by omega
    rw [e1]
    simp only [nearestHalfAway, h1, if_true, Int.toNat_ofNat]
    have e2 : 2 * (n * 2 ^ (a + K)) + 2 ^ K = (2 * (n * 2 ^ a) + 1) * 2 ^ K := by
      rw [pow_add]; ring
    rw [e2, Nat.mul_div_mul_right _ _ hK]
    omega
  · obtain ⟨k, hk⟩ : ∃ k : Nat, e = -(k : Int) := ⟨(-e).toNat, by omega⟩
    subst hk
    obtain ⟨m, rfl⟩ : ∃ m, K = k + m := Nat.exists_eq_add_of_le (by omega)
    have e1 : (-(k : Int) + ((k + m : Nat) : Int)).toNat = m := by omega
    have e3 : (- -(k : Int)).toNat = k := by omega
    rw [e1]
    simp only [nearestHalfAway, h1, if_false, e3]
    have e2 : 2 * (n * 2 ^ m) + 2 ^ (k + m) = (2 * n + 2 ^ k) * 2 ^ m := by
      rw [pow_add]; ring
    have e4 : 2 * 2 ^ (k + m) = 2 * 2 ^ k * 2 ^ m := by rw [pow_add]; ring
    rw [e2, e4, Nat.mul_div_mul_right _ _ (Nat.two_pow_pos m)]

/-- Equal magnitudes at a common scale. -/
theorem F64.sameMag_scale (m1 : Nat) (e1 : Int) (m2 : Nat) (e2 : Int)
    (h : F64.sameMag m1 e1 m2 e2) (K : Nat) (h1 : 0 ≤ e1 + K) (h2 : 0 ≤ e2 + K) :
    m1 * 2 ^ (e1 + K).toNat = m2 * 2 ^ (e2 + K).toNat := by
  unfold F64.sameMag at h
  have a1 : (e1 + K).toNat = (e1 - min e1 e2).toNat + (min e1 e2 + K).toNat := by omega
  have a2 : (e2 + K).toNat = (e2 - min e1 e2).toNat + (min e1 e2 + K).toNat := by omega
  rw [a1, a2, pow_add, pow_add, ← Nat.mul_assoc, ← Nat.mul_assoc, h]

/-- The nearest whole number belongs to the magnitude, not to the way it is written. -/
theorem nearestHalfAway_sameMag (m1 : Nat) (e1 : Int) (m2 : Nat) (e2 : Int)
    (h : F64.sameMag m1 e1 m2 e2) : nearestHalfAway m1 e1 = nearestHalfAway m2 e2 := by
  obtain ⟨K, h1, h2⟩ : ∃ K : Nat, 0 ≤ e1 + K ∧ 0 ≤ e2 + K :=
    ⟨(max (-e1) (-e2)).toNat, by omega, by omega⟩
  rw [nearestHalfAway_scale m1 e1 K h1, nearestHalfAway_scale m2 e2 K h2,
    F64.sameMag_scale m1 e1 m2 e2 h K h1 h2]

/-- The rounding of a quotient belongs to the magnitude of the numerator. -/
theorem F64.roundScaled_sameMag_num (s : Bool) (m1 m2 d : Nat) (e1 e2 : Int)
    (h : F64.sameMag m1 e1 m2 e2)
    (hb : m1 * 2 ^ (e1 - min e1 e2).toNat < 2 ^ 4352) :
    F64.roundScaled s m1 d e1 = F64.roundScaled s m2 d e2 := by
  unfold F64.sameMag at h
  have a1 := F64.roundScaled_scale_num s m1 d (e1 - min e1 e2).toNat (min e1 e2) hb
  have a2 := F64.roundScaled_scale_num s m2 d (e2 - min e1 e2).toNat (min e1 e2)
    (by rw [← h]; exact hb)
  have c1 : min e1 e2 + ((e1 - min e1 e2).toNat : Int) = e1 := by omega
  have c2 : min e1 e2 + ((e2 - min e1 e2).toNat : Int) = e2 := by omega
  rw [c1] at a1
  rw [c2] at a2
  rw [← a1, ← a2, h]

/-- The rounding of a quotient belongs to the magnitude of the divisor. -/
theorem F64.roundScaled_sameMag_den (s : Bool) (n d1 d2 : Nat) (e e1 e2 : Int)
    (h : F64.sameMag d1 e1 d2 e2) (hd1 : 0 < d1) (hd2 : 0 < d2)
    (hb : d1 * 2 ^ (e1 - min e1 e2).toNat < 2 ^ 4352) :
    F64.roundScaled s n d1 (e - e1) = F64.roundScaled s n d2 (e - e2) := by
  unfold F64.sameMag at h
  have a1 := F64.roundScaled_scale_den s n d1 (e1 - min e1 e2).toNat (e - min e1 e2) hd1 hb
  have a2 := F64.roundScaled_scale_den s n d2 (e2 - min e1 e2).toNat (e - min e1 e2) hd2
    (by rw [← h]; exact hb)
  have c1 : e - min e1 e2 - ((e1 - min e1 e2).toNat : Int) = e - e1 := by omega
  have c2 : e - min e1 e2 - ((e2 - min e1 e2).toNat : Int) = e - e2 := by omega
  rw [c1] at a1
  rw [c2] at a2
  rw [← a1, ← a2, h]

theorem F64.sig_lt (f : Nat) : F64.sig f < 2 ^ 53 := by
  have hfr : F64.frac f < 2 ^ 52 := Nat.mod_lt _ (by norm_num)
  unfold F64.sig
  split <;> omega

theorem F64.expo_le (f : Nat) : F64.expo f ≤ 972 ∧ -1074 ≤ F64.expo f := by
  have he : F64.expField f < 2048 := Nat.mod_lt _ (by norm_num)
  unfold F64.expo
  split <;> omega

/-- A magnitude below one half has the nearest whole number zero. -/
theorem nearestHalfAway_small (n k : Nat) (hn : n < 2 ^ 53) :
    nearestHalfAway n (-((54 + k : Nat) : Int)) = 0 := by
  simp only [nearestHalfAway]
  rw [if_neg (by omega)]
  have : (- -((54 + k : Nat) : Int)).toNat = 54 + k := by omega
  rw [this, pow_add]
  have hpos : 1 ≤ 2 ^ k := Nat.one_le_two_pow
  generalize (2 : Nat) ^ k = P at hpos
  rw [Nat.div_eq_zero_iff (by positivity)]
  norm_num at hn ⊢
  nlinarith

/-- The value of `math.Round` on a finite float64: a finite float64 of the same sign
whose magnitude is the whole number nearest to the magnitude of the argument, halves
going up. -/
theorem F64.round_value (y : Nat) (hy : F64.expField y < 2047) :
    F64.expField (F64.round y) < 2047 ∧ F64.neg (F64.round y) = F64.neg y ∧
    F64.sameMag (F64.sig (F64.round y)) (F64.expo (F64.round y))
      (nearestHalfAway (F64.sig y) (F64.expo y)) 0 := by
  have hfr : F64.frac y < 2 ^ 52 := Nat.mod_lt _ (by norm_num)
  by_cases h1 : F64.expField y < 1023
  · -- magnitudes below one
    have hr : F64.round y = F64.withSign (F64.neg y)
        (if F64.expField y = 1022 then 0x3FF0000000000000 else 0) := by
      simp only [F64.round, h1, if_true]
    by_cases h2 : F64.expField y = 1022
    · rw [hr, if_pos h2]
      obtain ⟨f1, f2, f3⟩ := F64.fields_withSign (F64.neg y) 0x3FF0000000000000 (by norm_num)
      have g2 : F64.expField (F64.withSign (F64.neg y) 0x3FF0000000000000) = 1023 := by
        rw [f2]; norm_num
      have g3 : F64.frac (F64.withSign (F64.neg y) 0x3FF0000000000000) = 0 := by
        rw [f3]; norm_num
      refine ⟨by rw [g2]; norm_num, f1, ?_⟩
      have hN : nearestHalfAway (F64.sig y) (F64.expo y) = 1 := by
        have hs : F64.sig y = 2 ^ 52 + F64.frac y := by
          simp only [F64.sig]
          rw [if_neg (by omega)]
        have hx : F64.expo y = -53 := by
          simp only [F64.expo]
          rw [if_neg (by omega), h2]
          norm_num
        rw [hs, hx]
        simp only [nearestHalfAway]
        rw [if_neg (by norm_num)]
        have : (-(-53 : Int)).toNat = 53 := by decide
        rw [this]
        generalize F64.frac y = fr at hfr
        norm_num at hfr ⊢
        omega
      rw [hN]
      have hx2 : F64.expo (F64.withSign (F64.neg y) 0x3FF0000000000000) = -52 := by
        simp only [F64.expo, g2]
        norm_num
      have hs2 : F64.sig (F64.withSign (F64.neg y) 0x3FF0000000000000) = 2 ^ 52 := by
        simp only [F64.sig, g2, g3]
        norm_num
      rw [hx2, hs2]
      decide
    · rw [hr, if_neg h2]
      obtain ⟨f1, f2, f3⟩ := F64.fields_withSign (F64.neg y) 0 (by norm_num)
      have g2 : F64.expField (F64.withSign (F64.neg y) 0) = 0 := by rw [f2]; norm_num
      have g3 : F64.frac (F64.withSign (F64.neg y) 0) = 0 := by rw [f3]; norm_num
      refine ⟨by rw [g2]; norm_num, f1, ?_⟩
      have hN : nearestHalfAway (F64.sig y) (F64.expo y) = 0 := by
        obtain ⟨k, hk⟩ : ∃ k : Nat, F64.expo y = -((54 + k : Nat) : Int) := by
          refine ⟨(-F64.expo y).toNat - 54, ?_⟩
          simp only [F64.expo]
          split <;> omega
        rw [hk]
        exact nearestHalfAway_small _ _ (F64.sig_lt y)
      rw [hN]
      simp only [F64.sameMag, F64.sig, g2, g3]
      norm_num
  · by_cases h2 : F64.expField y < 1075
    · -- magnitudes in [1, 2 ^ 52)
      obtain ⟨r1, r2, r3, r4⟩ := F64.round_nearest y (by omega) h2
      refine ⟨by omega, r1, ?_⟩
      have hx : F64.expo y = -((1075 - F64.expField y : Nat) : Int) := by
        simp only [F64.expo]
        rw [if_neg (by omega)]
        omega
      have hxr : F64.expo (F64.round y) = -((1075 - F64.expField (F64.round y) : Nat) : Int) := by
        simp only [F64.expo]
        rw [if_neg (by omega)]
        omega
      obtain ⟨k, hk⟩ : ∃ k : Nat, 1075 - F64.expField y = k + 1 :=
        ⟨1075 - F64.expField y - 1, by omega⟩
      have hN : nearestHalfAway (F64.sig y) (F64.expo y) =
          (F64.sig y + 2 ^ (1075 - F64.expField y) / 2) / 2 ^ (1075 - F64.expField y) := by
        rw [hx]
        simp only [nearestHalfAway]
        rw [if_neg (by omega)]
        have : (- -((1075 - F64.expField y : Nat) : Int)).toNat = 1075 - F64.expField y := by
          omega
        rw [this, hk]
        have e1 : (2 : Nat) ^ (k + 1) / 2 = 2 ^ k := by
          rw [pow_succ]
          omega
        have e2 : 2 * F64.sig y + 2 ^ (k + 1) = 2 * (F64.sig y + 2 ^ k) := by
          rw [pow_succ]; ring
        rw [e1, e2, Nat.mul_div_mul_left _ _ (by norm_num)]
      rw [hN, r4, hxr]
      simp only [F64.sameMag]
      have m1 : min (-((1075 - F64.expField (F64.round y) : Nat) : Int)) 0 =
          -((1075 - F64.expField (F64.round y) : Nat) : Int) := by omega
      rw [m1]
      have m2 : (-((1075 - F64.expField (F64.round y) : Nat) : Int) -
          -((1075 - F64.expField (F64.round y) : Nat) : Int)).toNat = 0 := by omega
      have m3 : ((0 : Int) - -((1075 - F64.expField (F64.round y) : Nat) : Int)).toNat =
          1075 - F64.expField (F64.round y) := by omega
      rw [m2, m3, pow_zero, Nat.mul_one]
    · -- magnitudes from 2 ^ 52 on
      have hr : F64.round y = y := by
        simp only [F64.round, h1, h2, if_false]
      rw [hr]
      refine ⟨hy, rfl, ?_⟩
      obtain ⟨k, hk⟩ : ∃ k : Nat, F64.expo y = (k : Int) := by
        refine ⟨F64.expField y - 1075, ?_⟩
        simp only [F64.expo]
        rw [if_neg (by omega)]
        omega
      rw [hk]
      simp only [nearestHalfAway, F64.sameMag]
      rw [if_pos (by omega)]
      have m1 : min (k : Int) 0 = 0 := by omega
      rw [m1]
      simp

theorem F64.roundScaled_le_inf (n d : Nat) (e : Int) :
    F64.roundScaled false n d e ≤ F64.inf := by
  have key : ∀ m : Nat, (if F64.inf ≤ m then F64.inf else m) ≤ F64.inf := by
    intro m
    split <;> omega
  unfold F64.roundScaled
  by_cases hn : n = 0
  · rw [if_pos hn]
    decide
  · rw [if_neg hn]
    simp only [F64.withSign, Bool.false_eq_true, if_false]
    exact key _

theorem F64.neg_roundScaled (s : Bool) (n d : Nat) (e : Int) :
    F64.neg (F64.roundScaled s n d e) = s := by
  rw [F64.roundScaled_withSign]
  have h := F64.roundScaled_le_inf n d e
  exact (F64.fields_withSign s _ (by unfold F64.inf at h; norm_num at h ⊢; omega)).1

/-- A finite float64 product by a finite positive factor comes from a finite float64 and
has its sign. -/
theorem F64.mul_finite (x D : Nat) (hD : F64.expField D < 2047) (hn : F64.neg D = false)
    (hy : F64.expField (F64.mul x D) < 2047) :
    F64.neg (F64.mul x D) = F64.neg x := by
  have hDn : F64.isNaN D = false := by
    simp only [F64.isNaN, Bool.and_eq_false_imp, beq_iff_eq]
    omega
  have hDi : F64.isInf D = false := by
    simp only [F64.isInf, Bool.and_eq_false_imp, beq_iff_eq]
    omega
  have e1 : F64.expField F64.nan = 2047 := by decide
  have e2 : ∀ s, F64.expField (F64.withSign s F64.inf) = 2047 := by
    intro s
    cases s <;> decide
  have e3 : (F64.neg x != false) = F64.neg x := by cases F64.neg x <;> rfl
  unfold F64.mul at hy ⊢
  simp only [hDn, hDi, hn, Bool.or_false, e3] at hy ⊢
  by_cases h1 : F64.isNaN x = true
  · rw [if_pos h1, e1] at hy
    omega
  · rw [if_neg h1] at hy ⊢
    by_cases h2 : F64.isInf x = true
    · rw [if_pos h2] at hy
      split at hy
      · rw [e1] at hy
        omega
      · rw [e2] at hy
        omega
    · rw [if_neg h2]
      exact F64.neg_roundScaled _ _ _ _

/-- The quotient of a finite float64 by a finite positive float64 is the rounding of
the quotient of the two magnitudes. -/
theorem F64.div_finite (r D : Nat) (hr : F64.expField r < 2047) (hD : F64.expField D < 2047)
    (hn : F64.neg D = false) (hz : F64.isZero D = false) :
    F64.div r D =
      F64.roundScaled (F64.neg r) (F64.sig r) (F64.sig D) (F64.expo r - F64.expo D) := by
  have hDn : F64.isNaN D = false := by
    simp only [F64.isNaN, Bool.and_eq_false_imp, beq_iff_eq]
    omega
  have hDi : F64.isInf D = false := by
    simp only [F64.isInf, Bool.and_eq_false_imp, beq_iff_eq]
    omega
  have hrn : F64.isNaN r = false := by
    simp only [F64.isNaN, Bool.and_eq_false_imp, beq_iff_eq]
    omega
  have hri : F64.isInf r = false := by
    simp only [F64.isInf, Bool.and_eq_false_imp, beq_iff_eq]
    omega
  unfold F64.div
  simp [hDn, hDi, hrn, hri, hn, hz]

/-- The float64 of `10 ^ u` for `u ≤ 22`: finite, positive, and `10 ^ u` itself. -/
theorem F64.pow10_exact : ∀ u : Nat, u ≤ 22 →
    F64.expField (F64.ofInt ((10 ^ u : Nat) : Int)) < 2047 ∧
    F64.neg (F64.ofInt ((10 ^ u : Nat) : Int)) = false ∧
    F64.isZero (F64.ofInt ((10 ^ u : Nat) : Int)) = false ∧
    0 < F64.sig (F64.ofInt ((10 ^ u : Nat) : Int)) ∧
    F64.sameMag (F64.sig (F64.ofInt ((10 ^ u : Nat) : Int)))
      (F64.expo (F64.ofInt ((10 ^ u : Nat) : Int))) (10 ^ u) 0 := by
  decide

theorem F64.mul_pow_lt (m k T : Nat) (hm : m < 2 ^ 53) (hk : 53 + k ≤ T) :
    m * 2 ^ k < 2 ^ T := by
  have h5 : (2 : Nat) ^ (53 + k) ≤ 2 ^ T := Nat.pow_le_pow_right (by norm_num) hk
  have h6 : m * 2 ^ k < 2 ^ 53 * 2 ^ k := Nat.mul_lt_mul_of_pos_right hm (Nat.two_pow_pos _)
  rw [← pow_add] at h6
  exact lt_of_lt_of_le h6 h5

theorem F64.sig_scaled_lt (f : Nat) :
    F64.sig f * 2 ^ (F64.expo f - min (F64.expo f) 0).toNat < 2 ^ 4352 := by
  obtain ⟨h2, h3⟩ := F64.expo_le f
  exact F64.mul_pow_lt _ _ _ (F64.sig_lt f) (by omega)

/-- The last line of `floatFunc` on an exact product: `math.Round(x * 10^u) / 10^u` in
float64 is `x` rounded to `u` decimal digits, halves away from zero. -/
theorem F64.round_div_exact (x u : Nat) (hu : u ≤ 22) (hex : F64.exactTimesPow10 x u) :
    F64.div (F64.round (F64.mul x (F64.ofInt ((10 ^ u : Nat) : Int))))
      (F64.ofInt ((10 ^ u : Nat) : Int)) = roundToDigits nearestHalfAway x u := by
  obtain ⟨d1, d2, d3, d4, d5⟩ := F64.pow10_exact u hu
  obtain ⟨hy, hmag⟩ := hex
  have hneg := F64.mul_finite x _ d1 d2 hy
  obtain ⟨r1, r2, r3⟩ := F64.round_value _ hy
  rw [F64.div_finite _ _ r1 d1 d2 d3, r2, hneg]
  unfold roundToDigits
  rw [← nearestHalfAway_sameMag _ _ _ _ hmag]
  have a := F64.roundScaled_sameMag_den (F64.neg x)
    (F64.sig (F64.round (F64.mul x (F64.ofInt ((10 ^ u : Nat) : Int)))))
    (F64.sig (F64.ofInt ((10 ^ u : Nat) : Int))) (10 ^ u)
    (F64.expo (F64.round (F64.mul x (F64.ofInt ((10 ^ u : Nat) : Int)))))
    (F64.expo (F64.ofInt ((10 ^ u : Nat) : Int))) 0 d5 d4 (by positivity)
    (F64.sig_scaled_lt _)
  have b := F64.roundScaled_sameMag_num (F64.neg x) _ _ (10 ^ u) _ _ r3
    (F64.sig_scaled_lt _)
  rw [a, sub_zero, b]

/-! ## The tests of the repository -/

/-- The embedding, with the library instance `refExt`, passes every row of the table of
`TestParser_Parse`. -/
theorem parserTests_pass : parserTests.all (testPasses refExt) = true := by rfl

/-- TestRemoveWhitespace. -/
theorem test_removeWhitespace :
    removeWhitespace (Func.String ++ LeftBracket :: Apostrophe :: ("a b c".toList ++
      [Apostrophe, RightBracket, ' '])) =
    Func.String ++ LeftBracket :: Apostrophe :: ("a b c".toList ++ [Apostrophe, RightBracket]) := by
  decide

/-- TestSplitByComma. -/
theorem test_splitArgs :
    (splitArgs ("VAR([abc],[def]),STRING(".toList ++ Apostrophe :: ("a,b".toList ++
      [Apostrophe, RightBracket]))).length = 2 := by
  decide

/-! ## C1: INT of a decimal literal -/

/-- A run of decimal digits is parsed as the number it writes. -/
theorem Parse_digits (E : Ext) (visit : List Nat → List Operator) (path : List Nat)
    (p : Parser) (n fuel : Nat) (hp : (visit path).Perm opKeys) (hn : n < 2 ^ 63) :
    Parse E visit (fuel + 1) path p (formatUint n) = some (.ok (.int64 (n : Int)), p) := by
  have hd := formatUint_digits n
  have hne := formatUint_ne_nil n
  have hw : removeWhitespace (formatUint n) = formatUint n := by
    apply removeWhitespace_of_not_mem
    · intro hm
      obtain ⟨d, hd1, hd2⟩ := hd _ hm
      exact (digitChar_props d hd1).1 hd2.symm
    · intro c hc
      obtain ⟨d, hd1, hd2⟩ := hd c (List.mem_of_mem_head? hc)
      rw [hd2]; exact (digitChar_props d hd1).2.2.2.2.2.2.2.1
    · intro c hc
      obtain ⟨d, hd1, hd2⟩ := hd c (List.mem_of_mem_getLast? hc)
      rw [hd2]; exact (digitChar_props d hd1).2.2.2.2.2.2.2.1
  have hb : beforeFirst LeftBracket (formatUint n) = formatUint n := by
    apply beforeFirst_of_not_mem
    intro hm
    obtain ⟨d, hd1, hd2⟩ := hd _ hm
    exact (digitChar_props d hd1).2.1 hd2.symm
  rw [Parse_literal E visit fuel path p (formatUint n)]
  · rw [hw]
    simp [parseLiteral, parseInt_formatUint n hn]
  · rw [hw, hb]
    apply fnFuncAt_none_of_head
    intro c hc
    obtain ⟨d, hd1, hd2⟩ := hd c (List.mem_of_mem_head? hc)
    rw [hd2]; exact (digitChar_props d hd1).2.2.2.2.2.2.2.2.1
  · rw [hw]
    apply containsOp_none_of_chars (visit path) _ hp
    intro c hc
    obtain ⟨d, hd1, hd2⟩ := hd c hc
    rw [hd2]; exact (digitChar_props d hd1).2.2.2.2.2.2.2.2.2

/-- C1 (amended): for every integer `n` with `0 ≤ n ≤ 2^63 - 1`, every input document
and every choice of the visiting orders of the operator table, Parse of `INT(` followed
by the decimal text of `n` and `)` returns the Int64 value `n` without error, as soon as
the recursion budget is at least 2; the parser is left as it was. -/
theorem c1_int_of_decimal (E : Ext) (visit : List Nat → List Operator) (path : List Nat)
    (p : Parser) (n fuel : Nat)
    (hp : ∀ q, (visit q).Perm opKeys) (hn : n < 2 ^ 63) (hf : 2 ≤ fuel) :
    Parse E visit fuel path p ("INT(".toList ++ formatInt (n : Int) ++ ")".toList) =
      some (.ok (.int64 (n : Int)), p) := by
  obtain ⟨f, rfl⟩ : ∃ f, fuel = f + 2 := ⟨fuel - 2, by omega⟩
  rw [formatInt_ofNat]
  have hd := formatUint_digits n
  have hstr : "INT(".toList ++ formatUint n ++ ")".toList =
      Func.Int ++ LeftBracket :: (formatUint n ++ [RightBracket]) := by
    simp [Func.Int, LeftBracket, RightBracket]
  have hw : removeWhitespace ("INT(".toList ++ formatUint n ++ ")".toList) =
      Func.Int ++ LeftBracket :: (formatUint n ++ [RightBracket]) := by
    rw [hstr]
    apply removeWhitespace_of_not_mem
    · intro hm
      simp only [List.mem_append, List.mem_cons] at hm
      rcases hm with hm | hm | hm | hm
      · revert hm; decide
      · revert hm; decide
      · obtain ⟨d, hd1, hd2⟩ := hd _ hm
        exact (digitChar_props d hd1).1 hd2.symm
      · simp at hm; revert hm; decide
    · intro c hc
      simp [Func.Int] at hc
      rw [← hc]; decide
    · intro c hc
      rw [show Func.Int ++ LeftBracket :: (formatUint n ++ [RightBracket]) =
        (Func.Int ++ LeftBracket :: formatUint n) ++ [RightBracket] by simp] at hc
      rw [List.getLast?_concat] at hc
      rw [← Option.some.inj hc]; decide
  have h3 : trimSuffixOf (trimPrefixOf (Func.Int ++ LeftBracket :: (formatUint n ++ [RightBracket]))
      (Func.Int ++ [LeftBracket])) [RightBracket] = formatUint n := by
    rw [show Func.Int ++ LeftBracket :: (formatUint n ++ [RightBracket]) =
      (Func.Int ++ [LeftBracket]) ++ (formatUint n ++ [RightBracket]) by simp]
    rw [trimPrefixOf_append, trimSuffixOf_append]
  rw [Parse_call_one E visit (f + 1) path p _ Func.Int intFunc (formatUint n) (.int64 (n : Int))]
  · simp [intFunc, castRes, E.toInt64E_int64]
  · rw [hw]
    exact beforeFirst_append LeftBracket Func.Int _ (by decide)
  · rfl
  · rw [hw, h3]
    apply splitArgs_plain _ (formatUint_ne_nil n)
    intro c hc
    obtain ⟨d, hd1, hd2⟩ := hd c hc
    have := digitChar_props d hd1
    rw [hd2]
    exact ⟨this.1, this.2.1, this.2.2.1, this.2.2.2.1, this.2.2.2.2.1, this.2.2.2.2.2.1⟩
  · exact Parse_digits E visit _ _ n f (hp _) hn

/-- C1, witness: `INT(123)` with the library instance `refExt`. -/
theorem c1_int_of_decimal_witness :
    (∀ q, (always sourceOrder q).Perm opKeys) ∧ 123 < 2 ^ 63 ∧ 2 ≤ 2 ∧
    Parse refExt (always sourceOrder) 2 [] (NewParser [])
      ("INT(".toList ++ formatInt ((123 : Nat) : Int) ++ ")".toList) =
      some (.ok (.int64 ((123 : Nat) : Int)), NewParser []) :=
  ⟨fun _ => List.Perm.refl _, by norm_num, le_refl _,
    c1_int_of_decimal refExt (always sourceOrder) [] (NewParser []) 123 2
      (fun _ => List.Perm.refl _) (by norm_num) (le_refl _)⟩

/-- C1, counterexample: for `n = -5` the text is `INT(-5)`; the argument `-5` holds the
operator `-`, is split into the empty text and `5`, and the empty text is an unknown
string.  The call returns this error, whatever the budget, and never the Int64 `-5`. -/
theorem c1_negative_literal_fails :
    formatInt (-5) = "-5".toList ∧
    Parse refExt (always sourceOrder) 3 [] (NewParser [])
      ("INT(".toList ++ formatInt (-5) ++ ")".toList) =
      some (.error (.unknownString []), NewParser []) ∧
    ∀ fuel, Parse refExt (always sourceOrder) fuel [] (NewParser [])
      ("INT(".toList ++ formatInt (-5) ++ ")".toList) ≠ some (.ok (.int64 (-5)), NewParser []) := by
  have h3 : Parse refExt (always sourceOrder) 3 [] (NewParser [])
      ("INT(".toList ++ formatInt (-5) ++ ")".toList) =
      some (.error (.unknownString []), NewParser []) := by rfl
  refine ⟨by rfl, h3, fun fuel => ?_⟩
  by_cases hf : fuel < 3
  · interval_cases fuel
    · intro h; exact absurd h (by simp [Parse])
    · intro h
      have : Parse refExt (always sourceOrder) 1 [] (NewParser [])
        ("INT(".toList ++ formatInt (-5) ++ ")".toList) = none := by rfl
      rw [this] at h; exact absurd h (by simp)
    · intro h
      have : Parse refExt (always sourceOrder) 2 [] (NewParser [])
        ("INT(".toList ++ formatInt (-5) ++ ")".toList) = none := by rfl
      rw [this] at h; exact absurd h (by simp)
  · obtain ⟨k, rfl⟩ : ∃ k, fuel = 3 + k := ⟨fuel - 3, by omega⟩
    rw [Parse_mono refExt (always sourceOrder) 3 k _ _ _ _ h3]
    intro h
    simp at h

/-! ## C2: a function name without parentheses -/

/-- C2 (the code at the failing input `SET`): the text `SET` is a function name, the
prefix `SET(` and the suffix `)` are not there to be trimmed, so the argument list is
`SET` itself and the only argument text is again `SET`: the recursive call is made on
a text of the same length.  No recursion budget is enough for Parse to return. -/
theorem c2_bare_function_name_never_returns (E : Ext) (visit : List Nat → List Operator) :
    splitArgs (trimSuffixOf (trimPrefixOf (removeWhitespace "SET".toList)
      (beforeFirst LeftBracket (removeWhitespace "SET".toList) ++ [LeftBracket]))
      [RightBracket]) = ["SET".toList] ∧
    ∀ (fuel : Nat) (path : List Nat) (p : Parser),
      Parse E visit fuel path p "SET".toList = none := by
  have hs : splitArgs (trimSuffixOf (trimPrefixOf (removeWhitespace "SET".toList)
      (beforeFirst LeftBracket (removeWhitespace "SET".toList) ++ [LeftBracket]))
      [RightBracket]) = ["SET".toList] := by decide
  refine ⟨hs, fun fuel => ?_⟩
  induction fuel with
  | zero => intro path p; rfl
  | succ n ih =>
    intro path p
    rw [Parse_call E visit n path p _ _ setFunc _ rfl (by rfl) hs]
    simp only [parseArgs, ih]

/-! ## C3: the visiting order of the operator table -/

/-- C3 (the code at the failing inputs `1=2*3` and `1+2*3`): two visiting orders of the
operator table, both rotations of the order of the source text, give different results.
For `1=2*3` the order that meets `=` first compares `1` with the product and returns the
Bool `false`, the order that meets `*` first multiplies the comparison by `3` and
returns a Float64, with every library.  For `1+2*3` the two orders return 9 and 7. -/
theorem c3_result_depends_on_visiting_order :
    (sourceOrder.rotate 2).Perm opKeys ∧ (sourceOrder.rotate 4).Perm opKeys ∧
    (∀ (E : Ext) (p : Parser),
      Parse E (always sourceOrder) 3 [] p "1=2*3".toList = some (.ok (.bool false), p) ∧
      Parse E (always (sourceOrder.rotate 2)) 3 [] p "1=2*3".toList =
        some (.ok (.float64 (F64.mul (E.toFloat64 (.bool false)) (E.toFloat64 (.int64 3)))), p)) ∧
    Parse refExt (always sourceOrder) 3 [] (NewParser []) "1+2*3".toList =
      some (.ok (.float64 (F64.ofInt 9)), NewParser []) ∧
    Parse refExt (always (sourceOrder.rotate 4)) 3 [] (NewParser []) "1+2*3".toList =
      some (.ok (.float64 (F64.ofInt 7)), NewParser []) ∧
    F64.eq (F64.ofInt 9) (F64.ofInt 7) = false := by
  refine ⟨?_, ?_, fun E p => ⟨by rfl, by rfl⟩, by rfl, by rfl, by decide⟩
  · exact List.rotate_perm _ _
  · exact List.rotate_perm _ _

/-! ## C4: the index past the end in `switchFunc` -/

theorem castRes_ne_panic {α : Type} (v : Value) (f : α → Value) (o : Option α) (x : Panic) :
    castRes v f o ≠ .panic x := by
  cases o <;> simp [castRes]

theorem andLoop_ne_panic (E : Ext) (x : Panic) : ∀ args : List Value, andLoop E args ≠ .panic x := by
  intro args
  induction args with
  | nil => simp [andLoop]
  | cons a rest ih =>
    simp only [andLoop]
    cases E.toBoolE a with
    | none => simp
    | some b => cases b <;> simp [ih]

theorem orLoop_ne_panic (E : Ext) (x : Panic) : ∀ args : List Value, orLoop E args ≠ .panic x := by
  intro args
  induction args with
  | nil => simp [orLoop]
  | cons a rest ih =>
    simp only [orLoop]
    cases E.toBoolE a with
    | none => simp
    | some b => cases b <;> simp [ih]

theorem compareFunc_ne_panic (cmp : Nat → Nat → Bool) (E : Ext) (args : List Value) (x : Panic) :
    compareFunc cmp E args ≠ .panic x := by
  unfold compareFunc
  split
  · rename_i a b
    cases E.toFloat64E a with
    | none => simp
    | some f => cases E.toFloat64E b <;> simp
  · simp

/-- C4 (the code at the failing input `SWITCH(1,2,3,1)`): the subject `1` differs from
the case `2` and equals the trailing default `1`; the loop of `switchFunc` reaches
`i = 3`, finds the match and reads `args[4]` of a list of length 4.  The panic leaves
`switchFunc` and `Parse`.  The seventeen other functions of the registry return a value
or an error on every argument list. -/
theorem c4_switch_reads_past_the_end (E : Ext) (p : Parser) (args : List Value) (x : Panic) :
    switchFunc E [.int64 1, .int64 2, .int64 3, .int64 1] = .panic (.indexOutOfRange 4 4) ∧
    Parse E (always sourceOrder) 2 [] p "SWITCH(1,2,3,1)".toList =
      some (.panic (.indexOutOfRange 4 4), p) ∧
    (stringFunc E args ≠ .panic x ∧ intFunc E args ≠ .panic x ∧ floatFunc E args ≠ .panic x ∧
     boolFunc E args ≠ .panic x ∧ objectFunc E args ≠ .panic x ∧ arrayFunc E args ≠ .panic x ∧
     varFunc E args ≠ .panic x ∧ setFunc E args ≠ .panic x ∧ lenFunc E args ≠ .panic x ∧
     sliceStrFunc E args ≠ .panic x ∧ ifFunc E args ≠ .panic x ∧ andFunc E args ≠ .panic x ∧
     orFunc E args ≠ .panic x ∧ gteFunc E args ≠ .panic x ∧ gtFunc E args ≠ .panic x ∧
     lteFunc E args ≠ .panic x ∧ ltFunc E args ≠ .panic x) := by
  refine ⟨by rfl, ?_, ?_⟩
  · have : popFunc ⟨p.input, p.funcStack ++ [Func.Switch]⟩ = p := by
      simp [popFunc]
    conv_rhs => rw [← this]
    rfl
  · refine ⟨?_, ?_, ?_, ?_, ?_, ?_, ?_, ?_, ?_, ?_, ?_, ?_, ?_, ?_, ?_, ?_, ?_⟩
    · unfold stringFunc; split
      · exact castRes_ne_panic _ _ _ _
      · simp
    · unfold intFunc; split
      · exact castRes_ne_panic _ _ _ _
      · simp
    · unfold floatFunc; split
      · rename_i a; cases E.toFloat64E a <;> simp
      · rename_i a b
        cases E.toFloat64E a with
        | none => simp
        | some f => cases E.toUintE b <;> simp
      · simp
    · unfold boolFunc; split
      · exact castRes_ne_panic _ _ _ _
      · simp
    · unfold objectFunc; split
      · simp
      · split <;> simp
      · simp
    · unfold arrayFunc; split
      · simp
      · split <;> simp
      · simp
    · unfold varFunc; split
      · split <;> simp
      · simp
    · unfold setFunc; split <;> simp
    · unfold lenFunc; split
      · split <;> simp
      · simp
    · unfold sliceStrFunc; split
      · rename_i a b c
        cases E.toIntE b with
        | none => simp
        | some i =>
          cases E.toIntE c with
          | none => simp
          | some j =>
            simp only
            cases utf8Slice ((E.toStringE a).getD []) i j <;> simp
      · simp
    · unfold ifFunc; split
      · rename_i a y z
        cases E.toBoolE a with
        | none => simp
        | some b => cases b <;> simp
      · simp
    · unfold andFunc; split
      · simp
      · exact andLoop_ne_panic E x args
    · unfold orFunc; split
      · simp
      · exact orLoop_ne_panic E x args
    · exact compareFunc_ne_panic _ E args x
    · exact compareFunc_ne_panic _ E args x
    · exact compareFunc_ne_panic _ E args x
    · exact compareFunc_ne_panic _ E args x

/-! ## C5: STRING of a quoted text -/

theorem removeWhitespace_quoted (x y s : Str) (hx : Apostrophe ∉ x) (hy : Apostrophe ∉ y)
    (hs : Apostrophe ∉ s) (tx : trimSpace x = x) (ty : trimSpace y = y) :
    removeWhitespace (x ++ Apostrophe :: (s ++ Apostrophe :: y)) =
      x ++ Apostrophe :: (s ++ Apostrophe :: y) := by
  unfold removeWhitespace
  rw [splitChar_append _ _ _ hx, splitChar_append _ _ _ hs, splitChar_of_not_mem _ _ hy]
  simp [trimEven, joinChar, tx, ty]

/-- A text between apostrophes, free of apostrophes and of operator symbols, is parsed
as the string between the apostrophes. -/
theorem Parse_quoted (E : Ext) (visit : List Nat → List Operator) (path : List Nat)
    (p : Parser) (s : Str) (fuel : Nat)
    (hp : (visit path).Perm opKeys) (ha : Apostrophe ∉ s)
    (hop : ∀ op ∈ opKeys, containsStr s op = false) :
    Parse E visit (fuel + 1) path p (Apostrophe :: (s ++ [Apostrophe])) =
      some (.ok (.string s), p) := by
  have hw : removeWhitespace (Apostrophe :: (s ++ [Apostrophe])) =
      Apostrophe :: (s ++ [Apostrophe]) := by
    have := removeWhitespace_quoted [] [] s (by simp) (by simp) ha rfl rfl
    simpa using this
  rw [Parse_literal E visit fuel path p _]
  · rw [hw]
    have h1 : parseInt (Apostrophe :: (s ++ [Apostrophe])) = none := by
      have e1 : Apostrophe ≠ '-' := by decide
      have e2 : Apostrophe ≠ '+' := by decide
      have e3 : digitVal Apostrophe = none := by decide
      simp [parseInt, e1, e2, parseUintDigits, parseDigits, e3]
    have h2 : E.parseFloat (Apostrophe :: (s ++ [Apostrophe])) = none := by
      cases hx : E.parseFloat (Apostrophe :: (s ++ [Apostrophe])) with
      | none => rfl
      | some f =>
        have := (E.parseFloat_chars _ f hx).2 Apostrophe (by simp)
        exact absurd this (by decide)
    have h3 : hasPrefixOf (Apostrophe :: (s ++ [Apostrophe])) [Apostrophe] = true := by
      simp [hasPrefixOf]
    have h4 : hasSuffixOf (Apostrophe :: (s ++ [Apostrophe])) [Apostrophe] = true := by
      simp [hasSuffixOf]
    have h5 : trimSuffixOf (trimPrefixOf (Apostrophe :: (s ++ [Apostrophe])) [Apostrophe])
        [Apostrophe] = s := by
      have := trimPrefixOf_append [Apostrophe] (s ++ [Apostrophe])
      simp only [List.singleton_append] at this
      rw [this, trimSuffixOf_append]
    simp only [parseLiteral, h1, h2, h3, h4, h5, Bool.and_self, if_true]
  · rw [hw]
    apply fnFuncAt_none_of_head
    intro c hc
    have e : Apostrophe ≠ LeftBracket := by decide
    have hb : (Apostrophe != LeftBracket) = true := by decide
    simp only [beforeFirst, List.takeWhile, hb, List.head?_cons, Option.some.injEq] at hc
    rw [← hc]; decide
  · rw [hw]
    apply containsOp_eq_none
    intro op hmem
    have hk := hp.subset hmem
    exact containsStr_wrap Apostrophe op s (opKeys_no_apostrophe op hk).1
      (opKeys_no_apostrophe op hk).2 (hop op hk)

/-- C5: for every text `s` without apostrophe, closing parenthesis, closing square
bracket and operator symbol, Parse of `STRING(` apostrophe `s` apostrophe `)` returns
exactly the string `s` (white space, commas and opening brackets of `s` included), for
every input document, library and choice of visiting orders, as soon as the recursion
budget is at least 2. -/
theorem c5_string_of_quoted (E : Ext) (visit : List Nat → List Operator) (path : List Nat)
    (p : Parser) (s : Str)
    (fuel : Nat) (hp : ∀ q, (visit q).Perm opKeys) (ha : Apostrophe ∉ s)
    (hr : RightBracket ∉ s)
    (hq : RightSquareBracket ∉ s) (hop : ∀ op ∈ opKeys, containsStr s op = false)
    (hf : 2 ≤ fuel) :
    Parse E visit fuel path p
      (Func.String ++ LeftBracket :: Apostrophe :: (s ++ [Apostrophe, RightBracket])) =
      some (.ok (.string s), p) := by
  obtain ⟨f, rfl⟩ : ∃ f, fuel = f + 2 := ⟨fuel - 2, by omega⟩
  have hstr : Func.String ++ LeftBracket :: Apostrophe :: (s ++ [Apostrophe, RightBracket]) =
      (Func.String ++ [LeftBracket]) ++ Apostrophe :: (s ++ Apostrophe :: [RightBracket]) := by
    simp
  have hw : removeWhitespace
      (Func.String ++ LeftBracket :: Apostrophe :: (s ++ [Apostrophe, RightBracket])) =
      Func.String ++ LeftBracket :: Apostrophe :: (s ++ [Apostrophe, RightBracket]) := by
    rw [hstr]
    exact removeWhitespace_quoted _ _ s (by decide) (by decide) ha (by decide) (by decide)
  have h3 : trimSuffixOf (trimPrefixOf
      (Func.String ++ LeftBracket :: Apostrophe :: (s ++ [Apostrophe, RightBracket]))
      (Func.String ++ [LeftBracket])) [RightBracket] = Apostrophe :: (s ++ [Apostrophe]) := by
    rw [show Func.String ++ LeftBracket :: Apostrophe :: (s ++ [Apostrophe, RightBracket]) =
      (Func.String ++ [LeftBracket]) ++ ((Apostrophe :: (s ++ [Apostrophe])) ++ [RightBracket])
      by simp]
    rw [trimPrefixOf_append, trimSuffixOf_append]
  rw [Parse_call_one E visit (f + 1) path p _ Func.String stringFunc
    (Apostrophe :: (s ++ [Apostrophe])) (.string s)]
  · simp [stringFunc, castRes, E.toStringE_string]
  · rw [hw]
    exact beforeFirst_append LeftBracket Func.String _ (by decide)
  · rfl
  · rw [hw, h3]
    apply splitArgs_quoted
    intro c hc
    exact ⟨fun e => ha (e ▸ hc), fun e => hr (e ▸ hc), fun e => hq (e ▸ hc)⟩
  · exact Parse_quoted E visit _ _ s f (hp _) ha hop

/-- C5, witness: the text ` hello, (world ` with white space at both ends, a comma and an
opening parenthesis. -/
theorem c5_string_of_quoted_witness :
    (∀ q, (always sourceOrder q).Perm opKeys) ∧ Apostrophe ∉ " hello, (world ".toList ∧
    RightBracket ∉ " hello, (world ".toList ∧ RightSquareBracket ∉ " hello, (world ".toList ∧
    (∀ op ∈ opKeys, containsStr " hello, (world ".toList op = false) ∧ 2 ≤ 2 ∧
    Parse refExt (always sourceOrder) 2 [] (NewParser [])
      (Func.String ++ LeftBracket :: Apostrophe ::
        (" hello, (world ".toList ++ [Apostrophe, RightBracket])) =
      some (.ok (.string " hello, (world ".toList), NewParser []) :=
  ⟨fun _ => List.Perm.refl _, by decide, by decide, by decide, by decide, le_refl _,
    c5_string_of_quoted refExt (always sourceOrder) [] (NewParser []) " hello, (world ".toList 2
      (fun _ => List.Perm.refl _) (by decide) (by decide) (by decide) (by decide) (le_refl _)⟩

/-! ## C6 and C7: the input path resolver -/

/-- C6 (the code at the failing input): the path `[a.b]` against a document whose only
key is `b`.  The segment `a` is not a key; the loop of `parseInputByKey` does not
return there, it goes on to the segment `b` in the same container and returns the
value stored under `b`, whatever it is, where the claim promises Null. -/
theorem c6_missing_segment_is_skipped :
    (∀ (v : Value) (stack : List Func),
      lookupKey "a".toList [("b".toList, v)] = none ∧
      parseInputByKey ⟨[("b".toList, v)], stack⟩ "[a.b]".toList = .ok v) ∧
    Parse refExt (always sourceOrder) 1 [] (NewParser [("b".toList, .int64 5)]) "[a.b]".toList =
      some (.ok (.int64 5), NewParser [("b".toList, .int64 5)]) := by
  refine ⟨fun v stack => ⟨by rfl, ?_⟩, by rfl⟩
  have h1 : trimSuffixOf (trimPrefixOf "[a.b]".toList [LeftSquareBracket]) [RightSquareBracket] =
      "a.b".toList := by decide
  have h2 : splitChar Dot "a.b".toList = ["a".toList, "b".toList] := by decide
  have h3 : lookupKey "a".toList [("b".toList, v)] = none := by rfl
  have h4 : lookupKey "b".toList [("b".toList, v)] = some v := by rfl
  simp only [parseInputByKey, h1, h2, keyLoop, h3, h4]
  cases v <;> rfl

theorem lookupKey_enumFrom (xs : List Value) : ∀ (k i : Nat), k ≤ i →
    lookupKey (formatUint i) ((xs.enumFrom k).map (fun iv => (formatInt (iv.1 : Int), iv.2))) =
      xs.get? (i - k) := by
  induction xs with
  | nil => intro k i _; rfl
  | cons x rest ih =>
    intro k i hki
    simp only [List.enumFrom, List.map_cons, lookupKey, formatInt_ofNat]
    by_cases hk : k = i
    · subst hk; simp
    · have hne : formatUint k ≠ formatUint i := fun e => hk (formatUint_injective k i e)
      simp only [hne, if_false]
      have := ih (k + 1) i (by omega)
      simp only [formatInt_ofNat] at this
      rw [this]
      have e : i - k = (i - (k + 1)) + 1 := by omega
      rw [e]; rfl

theorem lookupKey_reindex (xs : List Value) (i : Nat) :
    lookupKey (formatUint i) (reindex xs) = xs.get? i := by
  have := lookupKey_enumFrom xs 0 i (Nat.zero_le _)
  simpa [reindex, List.enum] using this

theorem keyLoop_of_resolvePath : ∀ (ks : List Str) (m : List (Str × Value)) (v : Value),
    resolvePath m ks = some v → keyLoop m ks = v := by
  intro ks
  induction ks with
  | nil => intro m v h; simp [resolvePath] at h
  | cons k rest ih =>
    intro m v h
    cases rest with
    | nil =>
      simp only [resolvePath, Option.some.injEq] at h
      simp only [keyLoop]
      cases hl : lookupKey k m with
      | none => rw [hl] at h; simpa using h
      | some val =>
        rw [hl] at h
        simp only [Option.getD_some] at h
        subst h
        cases val <;> rfl
    | cons k2 rest2 =>
      simp only [resolvePath] at h
      simp only [keyLoop]
      cases hl : lookupKey k m with
      | none => rw [hl] at h; simp at h
      | some val =>
        rw [hl] at h
        cases val with
        | map m2 => exact ih m2 v h
        | slice xs => exact ih _ v h
        | mapSlice ms => exact ih _ v h
        | nil => simp at h
        | bool b => simp at h
        | int n => simp at h
        | int64 n => simp at h
        | float64 f => simp at h
        | string s => simp at h
        | noParam => simp at h

theorem parseInputByKey_joinChar (p : Parser) (ks : List Str) (hne : ks ≠ [])
    (hdot : ∀ k ∈ ks, Dot ∉ k) :
    parseInputByKey p (LeftSquareBracket :: (joinChar Dot ks ++ [RightSquareBracket])) =
      .ok (keyLoop p.input ks) := by
  have h1 : trimSuffixOf (trimPrefixOf (LeftSquareBracket :: (joinChar Dot ks ++
      [RightSquareBracket])) [LeftSquareBracket]) [RightSquareBracket] = joinChar Dot ks := by
    have := trimPrefixOf_append [LeftSquareBracket] (joinChar Dot ks ++ [RightSquareBracket])
    simp only [List.singleton_append] at this
    rw [this, trimSuffixOf_append]
  simp only [parseInputByKey, h1, splitChar_joinChar Dot ks hne hdot]

/-- C7: whenever the strict walk of the specification reaches a value `v` along the
segments `k1 ... kn` (every segment before the last is a key of the container reached
so far and maps to a Map or to a List), `parseInputByKey` on the bracketed path
`[k1.k2...kn]` returns `v` without error; and for a List stored under a key, the path
made of the key and of the decimal text of an index `i` below the length returns the
element at `i`. -/
theorem c7_path_resolves :
    (∀ (p : Parser) (ks : List Str) (v : Value), (∀ k ∈ ks, Dot ∉ k) →
      resolvePath p.input ks = some v →
      parseInputByKey p (LeftSquareBracket :: (joinChar Dot ks ++ [RightSquareBracket])) =
        .ok v) ∧
    (∀ (p : Parser) (key : Str) (xs : List Value) (i : Nat) (v : Value), Dot ∉ key →
      lookupKey key p.input = some (.slice xs) → xs.get? i = some v →
      parseInputByKey p (LeftSquareBracket :: (joinChar Dot [key, formatInt (i : Int)] ++
        [RightSquareBracket])) = .ok v) := by
  constructor
  · intro p ks v hdot h
    have hne : ks ≠ [] := by
      intro e; rw [e] at h; simp [resolvePath] at h
    rw [parseInputByKey_joinChar p ks hne hdot, keyLoop_of_resolvePath ks p.input v h]
  · intro p key xs i v hkey hl hv
    have hdot : ∀ k ∈ [key, formatInt (i : Int)], Dot ∉ k := by
      intro k hk
      simp only [List.mem_cons, List.mem_singleton, List.not_mem_nil, or_false] at hk
      rcases hk with rfl | rfl
      · exact hkey
      · rw [formatInt_ofNat]
        intro hm
        obtain ⟨d, hd1, hd2⟩ := formatUint_digits i _ hm
        exact (digitChar_props d hd1).2.2.2.2.2.2.1 hd2.symm
    rw [parseInputByKey_joinChar p _ (by simp) hdot]
    have : resolvePath p.input [key, formatInt (i : Int)] = some v := by
      simp only [resolvePath, hl, formatInt_ofNat, lookupKey_reindex, hv, Option.getD_some]
    rw [keyLoop_of_resolvePath _ p.input v this]

/-- C7, witness: `[a.b.c]` against the document with `42` under `a`, `b`, `c` returns 42,
and `[a.1]` against the document with the list `1, 2, 3` under `a` returns `2`. -/
theorem c7_path_resolves_witness :
    (joinChar Dot ["a".toList, "b".toList, "c".toList] = "a.b.c".toList ∧
     parseInputByKey (NewParser [("a".toList, .map [("b".toList, .map [("c".toList, .int64 42)])])])
        (LeftSquareBracket :: (joinChar Dot ["a".toList, "b".toList, "c".toList] ++
          [RightSquareBracket])) = .ok (.int64 42)) ∧
    (joinChar Dot ["a".toList, formatInt ((1 : Nat) : Int)] = "a.1".toList ∧
     parseInputByKey (NewParser [("a".toList, .slice [.int64 1, .int64 2, .int64 3])])
        (LeftSquareBracket :: (joinChar Dot ["a".toList, formatInt ((1 : Nat) : Int)] ++
          [RightSquareBracket])) = .ok (.int64 2)) :=
  ⟨⟨by decide, c7_path_resolves.1
      (NewParser [("a".toList, .map [("b".toList, .map [("c".toList, .int64 42)])])])
      ["a".toList, "b".toList, "c".toList] (.int64 42) (by decide) (by rfl)⟩,
   ⟨by decide, c7_path_resolves.2
      (NewParser [("a".toList, .slice [.int64 1, .int64 2, .int64 3])]) "a".toList
      [.int64 1, .int64 2, .int64 3] 1 (.int64 2) (by decide) (by rfl) (by rfl)⟩⟩

/-! ## C8: the operator `<>` -/

/-- C8 (the code at the failing input `1<>2`): whatever the visiting orders, `<>` is the
only operator symbol found; the text is cut at the offset `idx` of `<>` into `str[:idx]`,
which is `1`, and `str[idx+1:]`, which is `>2` and still holds the second character of
the symbol.  `>2` is no literal, path or constant, and Parse returns the error
`unknown string >2`, while `1=2` evaluates to the Bool `false`. -/
theorem c8_not_equal_keeps_second_character (E : Ext)
    (visit : List Nat → { l : List Operator // l.Perm opKeys }) (path : List Nat) (p : Parser)
    (fuel : Nat) :
    List.drop (1 + 1) "1<>2".toList = ">2".toList ∧
    Parse E (fun q => (visit q).1) (fuel + 2) path p "1<>2".toList =
      some (.error (.unknownString ">2".toList), p) ∧
    Parse E (fun q => (visit q).1) (fuel + 2) path p "1=2".toList =
      some (.ok (.bool false), p) := by
  have hp : ∀ q, ((fun q => (visit q).1) q).Perm opKeys := fun q => (visit q).2
  generalize (fun q => (visit q).1) = vis at hp
  have hlit : ∀ (q : List Nat) (s : Str) (v : Res Value), removeWhitespace s = s →
      fnFuncAt (beforeFirst LeftBracket s) = none →
      (∀ c ∈ s, c ≠ '=' ∧ c ≠ '<' ∧ c ≠ '*' ∧ c ≠ '/' ∧ c ≠ '+' ∧ c ≠ '-') →
      parseLiteral E p s = v → Parse E vis (fuel + 1) q p s = some (v, p) := by
    intro q s v hw hfn hch hv
    rw [Parse_literal E vis fuel q p s (by rw [hw]; exact hfn)
      (by rw [hw]; exact containsOp_none_of_chars (vis q) s (hp q) hch), hw, hv]
  have h1 : ∀ q, Parse E vis (fuel + 1) q p "1".toList = some (.ok (.int64 1), p) :=
    fun q => hlit q _ _ (by decide) (by rfl) (by decide) (by rfl)
  have h2 : ∀ q, Parse E vis (fuel + 1) q p "2".toList = some (.ok (.int64 2), p) :=
    fun q => hlit q _ _ (by decide) (by rfl) (by decide) (by rfl)
  have h3 : ∀ q, Parse E vis (fuel + 1) q p ">2".toList =
      some (.error (.unknownString ">2".toList), p) := by
    intro q
    apply hlit q _ _ (by decide) (by rfl) (by decide)
    have e1 : parseInt ">2".toList = none := by decide
    have e2 : E.parseFloat ">2".toList = none := by
      cases hx : E.parseFloat ">2".toList with
      | none => rfl
      | some f =>
        have := (E.parseFloat_chars _ f hx).2 '>' (by decide)
        exact absurd this (by decide)
    have e3 : E.toUpper ">2".toList = ">2".toList := by
      simp only [Ext.toUpper, String.toList, List.map_cons, List.map_nil]
      rw [E.unicodeToUpper_ascii '>' (by decide), E.unicodeToUpper_ascii '2' (by decide)]
      rfl
    have e4 : constMapAt ">2".toList = none := by rfl
    have e5 : (hasPrefixOf ">2".toList [Apostrophe] && hasSuffixOf ">2".toList [Apostrophe]) =
        false := by decide
    have e6 : (hasPrefixOf ">2".toList [LeftSquareBracket] &&
        hasSuffixOf ">2".toList [RightSquareBracket]) = false := by decide
    simp only [parseLiteral, e1, e2, e3, e4, e5, e6]
    rfl
  refine ⟨by rfl, ?_, ?_⟩
  · rw [Parse_op E vis (fuel + 1) path p "1<>2".toList Operator.NotEq 1 (by rfl)
      (containsOp_unique (vis path) (hp path) _ _ (by decide) (by decide) (by decide))
      (by decide)]
    have hw : removeWhitespace "1<>2".toList = "1<>2".toList := by decide
    rw [hw]
    have t1 : List.take 1 "1<>2".toList = "1".toList := by rfl
    have t2 : List.drop (1 + 1) "1<>2".toList = ">2".toList := by rfl
    rw [t1, t2, h1]
    simp only [h3]
  · rw [Parse_op E vis (fuel + 1) path p "1=2".toList Operator.Eq 1 (by rfl)
      (containsOp_unique (vis path) (hp path) _ _ (by decide) (by decide) (by decide))
      (by decide)]
    have hw : removeWhitespace "1=2".toList = "1=2".toList := by decide
    rw [hw]
    have t1 : List.take 1 "1=2".toList = "1".toList := by rfl
    have t2 : List.drop (1 + 1) "1=2".toList = "2".toList := by rfl
    rw [t1, t2, h1]
    simp only [h2]
    rfl

/-! ## C9 and C10: the number of arguments of SWITCH -/

theorem index_ne_error (args : List Value) (i : Nat) (e : Err) : index args i ≠ .error e := by
  unfold index
  cases args.get? i <;> simp

/-- C9 (amended): SWITCH takes 2k+2 arguments (k >= 0), the subject, k pairs and the
default: `switchFunc` returns an error whenever the total number of arguments is odd or
zero, and returns no error at all, so none on arity grounds, when the total number of
arguments is even and not zero. -/
theorem c9_switch_arity (E : Ext) (args : List Value) :
    ((args.length % 2 = 1 ∨ args.length = 0) → ∃ e, switchFunc E args = .error e) ∧
    (args.length % 2 = 0 → 0 < args.length → ∀ e, switchFunc E args ≠ .error e) := by
  constructor
  · intro h
    rcases h with h | h
    · exact ⟨.invalidOddNumberOfArguments args.length, by simp [switchFunc, h]⟩
    · exact ⟨.invalidNumberOfArguments 0, by simp [switchFunc, h]⟩
  · intro h0 hpos e
    have h1 : ¬ args.length % 2 ≠ 0 := by omega
    have h2 : ¬ args.length = 0 := by omega
    simp only [switchFunc, h1, h2, if_false]
    split
    · exact index_ne_error _ _ _
    · split
      · exact index_ne_error _ _ _
      · exact index_ne_error _ _ _

/-- C9, witness: one argument is rejected, the two arguments of
`SWITCH([a], 'zero')` are accepted. -/
theorem c9_switch_arity_witness :
    (([Value.nil].length % 2 = 1 ∨ [Value.nil].length = 0) ∧
      ∃ e, switchFunc refExt [.nil] = .error e) ∧
    ([Value.nil, Value.string "zero".toList].length % 2 = 0 ∧
      0 < [Value.nil, Value.string "zero".toList].length ∧
      ∀ e, switchFunc refExt [.nil, .string "zero".toList] ≠ .error e) :=
  ⟨⟨Or.inl rfl, (c9_switch_arity refExt [.nil]).1 (Or.inl rfl)⟩,
   ⟨rfl, by decide, (c9_switch_arity refExt [.nil, .string "zero".toList]).2 rfl (by decide)⟩⟩

/-- C9, counterexample: with two arguments, an even number, `switchFunc` returns the
second one without error; with one argument, an odd number, it fails on arity grounds. -/
theorem c9_even_accepted_odd_rejected :
    [Value.nil, Value.string "zero".toList].length % 2 = 0 ∧
    switchFunc refExt [.nil, .string "zero".toList] = .ok (.string "zero".toList) ∧
    [Value.nil].length % 2 = 1 ∧
    switchFunc refExt [.nil] = .error (.invalidOddNumberOfArguments 1) :=
  ⟨rfl, rfl, rfl, rfl⟩

/-- C10: for every argument list whose length is odd, and for the empty argument list,
`switchFunc` returns an error: `invalid odd number of arguments` for an odd length,
`invalid number of arguments: 0` for the empty list. -/
theorem c10_switch_rejects_odd_and_empty (E : Ext) (args : List Value)
    (h : args.length % 2 = 1 ∨ args = []) :
    switchFunc E args = .error (if args.length = 0 then .invalidNumberOfArguments 0
      else .invalidOddNumberOfArguments args.length) := by
  rcases h with h | h
  · have h0 : args.length ≠ 0 := by omega
    simp [switchFunc, h, h0]
  · subst h; rfl

/-- C10, witness: the three arguments of `SWITCH([a], INT(1), 'zero')` and the empty
argument list of `SWITCH()`. -/
theorem c10_switch_rejects_odd_and_empty_witness :
    ([Value.nil, Value.int64 1, Value.string "zero".toList].length % 2 = 1 ∧
      switchFunc refExt [.nil, .int64 1, .string "zero".toList] =
        .error (.invalidOddNumberOfArguments 3)) ∧
    (([] : List Value) = [] ∧ switchFunc refExt [] = .error (.invalidNumberOfArguments 0)) :=
  ⟨⟨rfl, c10_switch_rejects_odd_and_empty refExt [.nil, .int64 1, .string "zero".toList]
      (Or.inl rfl)⟩,
   ⟨rfl, c10_switch_rejects_odd_and_empty refExt [] (Or.inr rfl)⟩⟩

/-- C11 (the code at the failing inputs `[n, n + 1, r, n]`): the subject, the Int64
`n`, differs from the only case `n + 1` and is equal to the trailing default.  The loop
of `switchFunc` takes the default at `i = 3` for a case, finds it equal to the subject
and returns `args[i+1] = args[4]` of a list of length 4: a panic, where the default `n`
is due.  This is the defect of C4, seen from the contract of the default.  With a
default that differs from the subject the default is returned, and `SWITCH(5,6,7,5)`
panics in `Parse`. -/
theorem c11_default_equal_to_subject_panics (E : Ext) (n : Int) (r : Value)
    (t : Str) (p : Parser) :
    switchFunc E [.int64 n, .int64 (n + 1), r, .int64 n] = .panic (.indexOutOfRange 4 4) ∧
    switchFunc E [.int64 n, .int64 (n + 1), r, .string t] = .ok (.string t) ∧
    Parse E (always sourceOrder) 2 [] p "SWITCH(5,6,7,5)".toList =
      some (.panic (.indexOutOfRange 4 4), p) := by
  have hne : (n == n + 1) = false := by
    rw [beq_eq_false_iff_ne]
    omega
  refine ⟨?_, ?_, ?_⟩
  · simp [switchFunc, oddIndices, List.range, List.range.loop, List.filter, List.find?,
      switchMatch, typeOf, deepEqual, index, hne]
  · simp [switchFunc, oddIndices, List.range, List.range.loop, List.filter, List.find?,
      switchMatch, typeOf, deepEqual, index, hne]
  · have : popFunc ⟨p.input, p.funcStack ++ [Func.Switch]⟩ = p := by
      simp [popFunc]
    conv_rhs => rw [← this]
    rfl

/-- A call without arguments: the text `f()` of a registered function fails with the
arity error of `f`, whatever the function answers for the empty argument list. -/
theorem Parse_call_empty (E : Ext) (visit : List Nat → List Operator) (fuel : Nat)
    (path : List Nat) (p : Parser) (f : Func) (fn : Ext → List Value → Res Value) (err : Err)
    (h1 : beforeFirst LeftBracket (removeWhitespace (f ++ [LeftBracket, RightBracket])) = f)
    (h2 : fnFuncAt f = some fn)
    (h3 : splitArgs (trimSuffixOf (trimPrefixOf
      (removeWhitespace (f ++ [LeftBracket, RightBracket])) (f ++ [LeftBracket]))
      [RightBracket]) = [])
    (h4 : fn E [] = .error err) :
    Parse E visit (fuel + 1) path p (f ++ [LeftBracket, RightBracket]) =
      some (.error (.func f err), p) := by
  rw [Parse_call E visit fuel path p _ f fn [] h1 h2 h3]
  simp [parseArgs, h4, popFunc]

/-- C12: for every function name `f` of the registry, `Parse(f + "()")` returns an
error, the arity error for zero arguments wrapped with the name of `f`: the empty
argument text is split into zero arguments and every function rejects them. -/
theorem c12_empty_call_is_an_error (E : Ext) (visit : List Nat → List Operator)
    (fuel : Nat) (path : List Nat) (p : Parser) (f : Func)
    (hf : f ∈ fnFunc.map Prod.fst) :
    splitArgs [] = [] ∧
    (∀ fn, fnFuncAt f = some fn → fn E [] = .error (.invalidNumberOfArguments 0)) ∧
    Parse E visit (fuel + 1) path p (f ++ [LeftBracket, RightBracket]) =
      some (.error (.func f (.invalidNumberOfArguments 0)), p) := by
  refine ⟨rfl, ?_, ?_⟩
  · simp only [fnFunc, List.map_cons, List.map_nil, List.mem_cons, List.mem_singleton,
      List.not_mem_nil, or_false] at hf
    rcases hf with h | h | h | h | h | h | h | h | h | h | h | h | h | h | h | h | h | h <;>
      subst h <;> intro fn hfn <;>
      · have e := Option.some.inj hfn
        rw [← e]
        rfl
  · simp only [fnFunc, List.map_cons, List.map_nil, List.mem_cons, List.mem_singleton,
      List.not_mem_nil, or_false] at hf
    rcases hf with h | h | h | h | h | h | h | h | h | h | h | h | h | h | h | h | h | h <;>
      subst h
    · exact Parse_call_empty E visit fuel path p _ stringFunc _ (by decide) rfl (by decide) rfl
    · exact Parse_call_empty E visit fuel path p _ intFunc _ (by decide) rfl (by decide) rfl
    · exact Parse_call_empty E visit fuel path p _ floatFunc _ (by decide) rfl (by decide) rfl
    · exact Parse_call_empty E visit fuel path p _ boolFunc _ (by decide) rfl (by decide) rfl
    · exact Parse_call_empty E visit fuel path p _ objectFunc _ (by decide) rfl (by decide) rfl
    · exact Parse_call_empty E visit fuel path p _ arrayFunc _ (by decide) rfl (by decide) rfl
    · exact Parse_call_empty E visit fuel path p _ varFunc _ (by decide) rfl (by decide) rfl
    · exact Parse_call_empty E visit fuel path p _ setFunc _ (by decide) rfl (by decide) rfl
    · exact Parse_call_empty E visit fuel path p _ lenFunc _ (by decide) rfl (by decide) rfl
    · exact Parse_call_empty E visit fuel path p _ sliceStrFunc _ (by decide) rfl (by decide) rfl
    · exact Parse_call_empty E visit fuel path p _ ifFunc _ (by decide) rfl (by decide) rfl
    · exact Parse_call_empty E visit fuel path p _ switchFunc _ (by decide) rfl (by decide) rfl
    · exact Parse_call_empty E visit fuel path p _ andFunc _ (by decide) rfl (by decide) rfl
    · exact Parse_call_empty E visit fuel path p _ orFunc _ (by decide) rfl (by decide) rfl
    · exact Parse_call_empty E visit fuel path p _ gteFunc _ (by decide) rfl (by decide) rfl
    · exact Parse_call_empty E visit fuel path p _ gtFunc _ (by decide) rfl (by decide) rfl
    · exact Parse_call_empty E visit fuel path p _ lteFunc _ (by decide) rfl (by decide) rfl
    · exact Parse_call_empty E visit fuel path p _ ltFunc _ (by decide) rfl (by decide) rfl

/-- C12 at `STRING()`, the row `empty string` of the test table. -/
theorem c12_empty_call_is_an_error_witness :
    Func.String ∈ fnFunc.map Prod.fst ∧
    (splitArgs [] = [] ∧
     (∀ fn, fnFuncAt Func.String = some fn →
       fn refExt [] = .error (.invalidNumberOfArguments 0)) ∧
     Parse refExt (always sourceOrder) 1 [] (NewParser []) "STRING()".toList =
       some (.error (.func Func.String (.invalidNumberOfArguments 0)), NewParser [])) :=
  ⟨by decide, c12_empty_call_is_an_error refExt (always sourceOrder) 0 [] (NewParser [])
    Func.String (by decide)⟩

/-- C13 (the code at the failing input `SET('a)b')`): `splitArgs` drops a closing
bracket met while its bracket counter is 0, also between two apostrophes, so the
argument text of the call becomes `'ab'` and the call returns the String `ab`; the
literal `'a)b'` alone is parsed as the String `a)b`. -/
theorem c13_set_drops_closing_bracket_in_quotes (E : Ext)
    (visit : List Nat → { l : List Operator // l.Perm opKeys }) (path : List Nat) (p : Parser)
    (fuel : Nat) :
    splitArgs "'a)b'".toList = ["'ab'".toList] ∧
    Parse E (fun q => (visit q).1) (fuel + 2) path p "SET('a)b')".toList =
      some (.ok (.string "ab".toList), p) ∧
    Parse E (fun q => (visit q).1) (fuel + 2) path p "'a)b'".toList =
      some (.ok (.string "a)b".toList), p) := by
  have hp : ∀ q, ((fun q => (visit q).1) q).Perm opKeys := fun q => (visit q).2
  generalize (fun q => (visit q).1) = vis at hp
  refine ⟨by decide, ?_, ?_⟩
  · rw [Parse_call_one E vis (fuel + 1) path p _ Func.Set setFunc "'ab'".toList
      (.string "ab".toList) (by decide) rfl (by decide)]
    · rfl
    · exact Parse_quoted E vis _ _ "ab".toList fuel (hp _) (by decide) (by decide)
  · exact Parse_quoted E vis path p "a)b".toList (fuel + 1) (hp _) (by decide) (by decide)

/-- C14 (the code at the failing inputs `IF(TRUE,SET,STRING())`,
`IF(TRUE,SWITCH(1,2,3,1),STRING())` and `IF(SWITCH(1,2,3,1),'x',STRING())`): every
argument text is a well-formed top-level argument, the condition `TRUE` evaluates to
`true`, which coerces to true, and the third argument `STRING()` returns an error.  IF
evaluates its arguments from left to right before it chooses, so the call hangs on
what the first or the second argument does: with the second argument `SET`, the bare
function name of C2, `Parse` returns nothing for any recursion budget; with
`SWITCH(1,2,3,1)`, the faulting call of C4, as the second or as the first argument,
`Parse` leaves with the index out of range panic.  None of the three calls returns an
error.  With the second argument `'x'` the call returns the error of `STRING()`. -/
theorem c14_if_hangs_on_earlier_argument (p : Parser) :
    (WellFormedArg "TRUE".toList ∧ WellFormedArg "SET".toList ∧
      WellFormedArg "SWITCH(1,2,3,1)".toList ∧ WellFormedArg "'x'".toList ∧
      WellFormedArg "STRING()".toList) ∧
    (callText Func.If ["TRUE".toList, "SET".toList, "STRING()".toList] =
        "IF(TRUE,SET,STRING())".toList ∧
      callText Func.If ["TRUE".toList, "SWITCH(1,2,3,1)".toList, "STRING()".toList] =
        "IF(TRUE,SWITCH(1,2,3,1),STRING())".toList ∧
      callText Func.If ["SWITCH(1,2,3,1)".toList, "'x'".toList, "STRING()".toList] =
        "IF(SWITCH(1,2,3,1),'x',STRING())".toList) ∧
    (∀ fuel path q, eval refExt (always sourceOrder) (fuel + 1) path q "TRUE".toList =
      some (.ok (.bool true))) ∧
    refExt.toBoolE (.bool true) = some true ∧
    (∀ fuel path q, eval refExt (always sourceOrder) (fuel + 1) path q "STRING()".toList =
      some (.error (.func Func.String (.invalidNumberOfArguments 0)))) ∧
    (∀ fuel path, Parse refExt (always sourceOrder) fuel path p
      "IF(TRUE,SET,STRING())".toList = none) ∧
    (∀ fuel path, Parse refExt (always sourceOrder) (fuel + 3) path p
      "IF(TRUE,SWITCH(1,2,3,1),STRING())".toList =
        some (.panic (.indexOutOfRange 4 4), p)) ∧
    (∀ fuel path, Parse refExt (always sourceOrder) (fuel + 3) path p
      "IF(SWITCH(1,2,3,1),'x',STRING())".toList =
        some (.panic (.indexOutOfRange 4 4), p)) ∧
    (∀ fuel path, Parse refExt (always sourceOrder) (fuel + 2) path p
      "IF(TRUE,'x',STRING())".toList =
        some (.error (.func Func.String (.invalidNumberOfArguments 0)), p)) := by
  have hpop := popFunc_pushFunc p Func.If
  have hT : ∀ fuel path q, Parse refExt (always sourceOrder) (fuel + 1) path q
      "TRUE".toList = some (.ok (.bool true), q) := by
    intro fuel path q
    have h := Parse_mono refExt (always sourceOrder) 1 fuel path q "TRUE".toList
      (.ok (.bool true), q) rfl
    rwa [Nat.add_comm] at h
  have hS : ∀ fuel path q, Parse refExt (always sourceOrder) (fuel + 1) path q
      "STRING()".toList =
        some (.error (.func Func.String (.invalidNumberOfArguments 0)), q) := by
    intro fuel path q
    exact Parse_call_empty refExt (always sourceOrder) fuel path q Func.String stringFunc _
      (by decide) rfl (by decide) rfl
  have hX : ∀ fuel path q, Parse refExt (always sourceOrder) (fuel + 1) path q
      "'x'".toList = some (.ok (.string "x".toList), q) := by
    intro fuel path q
    have h := Parse_mono refExt (always sourceOrder) 1 fuel path q "'x'".toList
      (.ok (.string "x".toList), q) rfl
    rwa [Nat.add_comm] at h
  have hW : ∀ fuel path q, Parse refExt (always sourceOrder) (fuel + 2) path q
      "SWITCH(1,2,3,1)".toList = some (.panic (.indexOutOfRange 4 4), q) := by
    intro fuel path q
    have e : popFunc (pushFunc q Func.Switch) = q := popFunc_pushFunc q Func.Switch
    have h := Parse_mono refExt (always sourceOrder) 2 fuel path q "SWITCH(1,2,3,1)".toList
      (.panic (.indexOutOfRange 4 4), popFunc (pushFunc q Func.Switch)) rfl
    rw [e] at h
    rwa [Nat.add_comm] at h
  refine ⟨by decide, by decide, ?_, rfl, ?_, ?_, ?_, ?_, ?_⟩
  · intro fuel path q
    rw [eval_eq]
    exact hT fuel path q
  · intro fuel path q
    rw [eval_eq]
    exact hS fuel path q
  · intro fuel path
    cases fuel with
    | zero => rfl
    | succ n =>
      have hc := Parse_callText refExt (always sourceOrder) n path p Func.If ifFunc
        ["TRUE".toList, "SET".toList, "STRING()".toList] rfl (by simp) (by decide)
      have ht : callText Func.If ["TRUE".toList, "SET".toList, "STRING()".toList] =
          "IF(TRUE,SET,STRING())".toList := by decide
      rw [ht] at hc
      rw [hc]
      cases n with
      | zero => rfl
      | succ m =>
        simp only [parseArgs, List.length_nil, hT, List.nil_append, List.length_singleton,
          List.length_cons, Parse_set_none]
  · intro fuel path
    have hc := Parse_callText refExt (always sourceOrder) (fuel + 2) path p Func.If ifFunc
      ["TRUE".toList, "SWITCH(1,2,3,1)".toList, "STRING()".toList] rfl (by simp) (by decide)
    have ht : callText Func.If ["TRUE".toList, "SWITCH(1,2,3,1)".toList, "STRING()".toList] =
        "IF(TRUE,SWITCH(1,2,3,1),STRING())".toList := by decide
    rw [ht] at hc
    rw [hc]
    simp only [parseArgs, List.length_nil, hT (fuel + 1), List.nil_append,
      List.length_singleton, List.length_cons, hW, hpop]
  · intro fuel path
    have hc := Parse_callText refExt (always sourceOrder) (fuel + 2) path p Func.If ifFunc
      ["SWITCH(1,2,3,1)".toList, "'x'".toList, "STRING()".toList] rfl (by simp) (by decide)
    have ht : callText Func.If ["SWITCH(1,2,3,1)".toList, "'x'".toList, "STRING()".toList] =
        "IF(SWITCH(1,2,3,1),'x',STRING())".toList := by decide
    rw [ht] at hc
    rw [hc]
    simp only [parseArgs, List.length_nil, hW, hpop]
  · intro fuel path
    have hc := Parse_callText refExt (always sourceOrder) (fuel + 1) path p Func.If ifFunc
      ["TRUE".toList, "'x'".toList, "STRING()".toList] rfl (by simp) (by decide)
    have ht : callText Func.If ["TRUE".toList, "'x'".toList, "STRING()".toList] =
        "IF(TRUE,'x',STRING())".toList := by decide
    rw [ht] at hc
    rw [hc]
    simp only [parseArgs, List.length_nil, hT, hX, hS, List.nil_append,
      List.length_singleton, List.length_cons, hpop]

/-- C15 (the code at the failing input `VAR([k], 'a)b')` on the empty document): the
default `'a)b'` alone evaluates to the String `a)b`; in the call, `splitArgs` drops the
closing bracket between the apostrophes (the defect of C13), the second argument
becomes `'ab'`, the key `k` is absent and VAR returns the String `ab`, not the value
of the default. -/
theorem c15_var_default_loses_closing_bracket (E : Ext)
    (visit : List Nat → { l : List Operator // l.Perm opKeys }) (path : List Nat)
    (stack : List Func) (fuel : Nat) :
    Parse E (fun q => (visit q).1) (fuel + 2) path ⟨[], stack⟩ "'a)b'".toList =
      some (.ok (.string "a)b".toList), ⟨[], stack⟩) ∧
    splitArgs "[k],'a)b'".toList = ["[k]".toList, "'ab'".toList] ∧
    Parse E (fun q => (visit q).1) (fuel + 2) path ⟨[], stack⟩ "VAR([k], 'a)b')".toList =
      some (.ok (.string "ab".toList), ⟨[], stack⟩) := by
  have hp : ∀ q, ((fun q => (visit q).1) q).Perm opKeys := fun q => (visit q).2
  generalize (fun q => (visit q).1) = vis at hp
  refine ⟨?_, by decide, ?_⟩
  · exact Parse_quoted E vis path _ "a)b".toList (fuel + 1) (hp _) (by decide) (by decide)
  · rw [Parse_call E vis (fuel + 1) path _ _ Func.Var varFunc
      ["[k]".toList, "'ab'".toList] (by decide) rfl (by decide)]
    have h0 := Parse_key_absent E vis (path ++ [0]) ⟨[], stack ++ [Func.Var]⟩ "k".toList fuel
      (hp _) (by decide) rfl
    have h1 := Parse_quoted E vis (path ++ [1]) ⟨[], stack ++ [Func.Var]⟩ "ab".toList fuel
      (hp _) (by decide) (by decide)
    have e0 : "[k]".toList = LeftSquareBracket :: ("k".toList ++ [RightSquareBracket]) := rfl
    have e1 : "'ab'".toList = Apostrophe :: ("ab".toList ++ [Apostrophe]) := rfl
    rw [e0, e1]
    simp only [parseArgs, List.length_nil, h0, List.nil_append, List.length_singleton, h1]
    simp [varFunc, popFunc]

/-- C16: `lenFunc` on one argument returns the number of characters of a String (the
text is a list of code points, not of bytes), the number of elements of a `[]any`, the
number of keys of a `map[string]any`, and an error that names the type for a nil, a
bool, an int, an int64 and a float64 (and likewise for the two Go types that are none
of these, a `[]map[string]any` and the pointer `NO_PARAM`); `LEN('héllo')` is 5. -/
theorem c16_len_counts_characters_elements_keys (E : Ext) (s : Str) (xs : List Value)
    (kvs : List (Str × Value)) (b : Bool) (n : Int) (f : Nat)
    (ms : List (List (Str × Value)))
    (visit : List Nat → { l : List Operator // l.Perm opKeys }) (path : List Nat) (p : Parser)
    (fuel : Nat) :
    lenFunc E [.string s] = .ok (.int s.length) ∧
    lenFunc E [.slice xs] = .ok (.int xs.length) ∧
    lenFunc E [.map kvs] = .ok (.int kvs.length) ∧
    lenFunc E [.nil] = .error (.invalidType .nil) ∧
    lenFunc E [.bool b] = .error (.invalidType .bool) ∧
    lenFunc E [.int n] = .error (.invalidType .int) ∧
    lenFunc E [.int64 n] = .error (.invalidType .int64) ∧
    lenFunc E [.float64 f] = .error (.invalidType .float64) ∧
    lenFunc E [.mapSlice ms] = .error (.invalidType .mapSlice) ∧
    lenFunc E [.noParam] = .error (.invalidType .pointer) ∧
    Parse E (fun q => (visit q).1) (fuel + 2) path p "LEN('héllo')".toList =
      some (.ok (.int 5), p) := by
  have hp : ∀ q, ((fun q => (visit q).1) q).Perm opKeys := fun q => (visit q).2
  generalize (fun q => (visit q).1) = vis at hp
  refine ⟨rfl, rfl, rfl, rfl, rfl, rfl, rfl, rfl, rfl, rfl, ?_⟩
  rw [Parse_call_one E vis (fuel + 1) path p _ Func.Len lenFunc "'héllo'".toList
    (.string "héllo".toList) (by decide) rfl (by decide)]
  · rfl
  · exact Parse_quoted E vis _ _ "héllo".toList fuel (hp _) (by decide) (by decide)

/-- The text that `utf8Slice` returns has the characters of `s` at the offsets
`a, ..., b - 1`. -/
theorem take_drop_offsets (s : Str) (a b : Nat) (hb : b ≤ s.length) :
    ((s.drop a).take (b - a)).length = b - a ∧
    ∀ i, i < b - a → ((s.drop a).take (b - a)).get? i = s.get? (a + i) := by
  constructor
  · rw [List.length_take, List.length_drop]
    omega
  · intro i hi
    rw [List.get?_eq_getElem?, List.get?_eq_getElem?, List.getElem?_take_of_lt hi,
      List.getElem?_drop]

/-- C17: for a string `s` of `n` characters and integers `start`, `end` (given as
int64, the type of a parsed literal, or as int, the type of a result of LEN),
`sliceStrFunc` returns the characters of `s` at the offsets `[start, end)` when
`0 <= start <= end <= n` and the error `invalid arguments` otherwise; it never lets a
panic escape, whatever its arguments. -/
theorem c17_slice_str_range (E : Ext) (s : Str) (start stop : Int) (args : List Value)
    (x : Panic) :
    sliceStrFunc E [.string s, .int64 start, .int64 stop] =
      (if 0 ≤ start ∧ start ≤ stop ∧ stop ≤ s.length then
        .ok (.string ((s.drop start.toNat).take (stop.toNat - start.toNat)))
       else .error .invalidArguments) ∧
    sliceStrFunc E [.string s, .int start, .int stop] =
      (if 0 ≤ start ∧ start ≤ stop ∧ stop ≤ s.length then
        .ok (.string ((s.drop start.toNat).take (stop.toNat - start.toNat)))
       else .error .invalidArguments) ∧
    (0 ≤ start ∧ start ≤ stop ∧ stop ≤ s.length →
      ((s.drop start.toNat).take (stop.toNat - start.toNat)).length = (stop - start).toNat ∧
      ∀ i, i < stop.toNat - start.toNat →
        ((s.drop start.toNat).take (stop.toNat - start.toNat)).get? i =
          s.get? (start.toNat + i)) ∧
    sliceStrFunc E args ≠ .panic x := by
  refine ⟨?_, ?_, ?_, ?_⟩
  · simp only [sliceStrFunc, E.toIntE_int64, E.toStringE_string, Option.getD_some, utf8Slice]
    by_cases h : 0 ≤ start ∧ start ≤ stop ∧ stop ≤ s.length
    · rw [if_pos h, if_pos h]
    · rw [if_neg h, if_neg h]
  · simp only [sliceStrFunc, E.toIntE_int, E.toStringE_string, Option.getD_some, utf8Slice]
    by_cases h : 0 ≤ start ∧ start ≤ stop ∧ stop ≤ s.length
    · rw [if_pos h, if_pos h]
    · rw [if_neg h, if_neg h]
  · intro h
    have hb : stop.toNat ≤ s.length := by omega
    have := take_drop_offsets s start.toNat stop.toNat hb
    refine ⟨?_, this.2⟩
    rw [this.1]
    omega
  · unfold sliceStrFunc
    split
    · rename_i a b c
      simp only
      cases E.toIntE b with
      | none => simp
      | some i =>
        cases E.toIntE c with
        | none => simp
        | some j =>
          simp only
          split <;> simp
    · simp

/-- C18 (the claim fails in two ways).  At `FLOAT(0.125, 2)` the product `0.125 * 100`
is exactly `12.5`, halfway between 12 and 13: rounded half to even, `0.125` is `0.12`,
and the code returns `0.13`, so the tie rule is not half-to-even.  At `FLOAT(2.675, 2)`
the float64 `2.675` lies below the halfway point (its product with 100 is nearer to 267
than to 268, under either tie rule), so `x` rounded to two digits is `2.67`; the float64
product is not exact, it is rounded up to `267.5`, and the code returns `2.68`: the
result is not always `x` rounded to `p` digits. -/
theorem c18_neither_half_even_nor_always_nearest :
    (refExt.parseFloat "0.125".toList = some 0x3FC0000000000000 ∧
      refExt.parseFloat "0.12".toList = some 0x3FBEB851EB851EB8 ∧
      refExt.parseFloat "0.13".toList = some 0x3FC0A3D70A3D70A4 ∧
      F64.sameMag (2 * (F64.sig 0x3FC0000000000000 * 10 ^ 2))
        (F64.expo 0x3FC0000000000000) 25 0 ∧
      nearestHalfEven (F64.sig 0x3FC0000000000000 * 10 ^ 2) (F64.expo 0x3FC0000000000000) = 12 ∧
      roundToDigits nearestHalfEven 0x3FC0000000000000 2 = 0x3FBEB851EB851EB8 ∧
      floatFunc refExt [.float64 0x3FC0000000000000, .int64 2] =
        .ok (.float64 0x3FC0A3D70A3D70A4) ∧
      floatFunc refExt [.float64 0x3FC0000000000000, .int64 2] ≠
        .ok (.float64 (roundToDigits nearestHalfEven 0x3FC0000000000000 2)) ∧
      Parse refExt (always sourceOrder) 2 [] (NewParser []) "FLOAT(0.125,2)".toList =
        some (.ok (.float64 0x3FC0A3D70A3D70A4), NewParser [])) ∧
    (refExt.parseFloat "2.675".toList = some 0x4005666666666666 ∧
      refExt.parseFloat "2.67".toList = some 0x40055C28F5C28F5C ∧
      refExt.parseFloat "2.68".toList = some 0x400570A3D70A3D71 ∧
      refExt.parseFloat "267.5".toList = some 0x4070B80000000000 ∧
      nearestHalfEven (F64.sig 0x4005666666666666 * 10 ^ 2) (F64.expo 0x4005666666666666) = 267 ∧
      nearestHalfAway (F64.sig 0x4005666666666666 * 10 ^ 2) (F64.expo 0x4005666666666666) = 267 ∧
      roundToDigits nearestHalfEven 0x4005666666666666 2 = 0x40055C28F5C28F5C ∧
      roundToDigits nearestHalfAway 0x4005666666666666 2 = 0x40055C28F5C28F5C ∧
      F64.mul 0x4005666666666666 (refExt.pow F64.ten (F64.ofInt 2)) = 0x4070B80000000000 ∧
      ¬ F64.exactTimesPow10 0x4005666666666666 2 ∧
      floatFunc refExt [.float64 0x4005666666666666, .int64 2] =
        .ok (.float64 0x400570A3D70A3D71) ∧
      floatFunc refExt [.float64 0x4005666666666666, .int64 2] ≠
        .ok (.float64 (roundToDigits nearestHalfEven 0x4005666666666666 2)) ∧
      floatFunc refExt [.float64 0x4005666666666666, .int64 2] ≠
        .ok (.float64 (roundToDigits nearestHalfAway 0x4005666666666666 2)) ∧
      Parse refExt (always sourceOrder) 2 [] (NewParser []) "FLOAT(2.675,2)".toList =
        some (.ok (.float64 0x400570A3D70A3D71), NewParser [])) := by
  have f1 : floatFunc refExt [.float64 0x3FC0000000000000, .int64 2] =
      .ok (.float64 0x3FC0A3D70A3D70A4) := by rfl
  have f2 : floatFunc refExt [.float64 0x4005666666666666, .int64 2] =
      .ok (.float64 0x400570A3D70A3D71) := by rfl
  have s1 : roundToDigits nearestHalfEven 0x3FC0000000000000 2 = 0x3FBEB851EB851EB8 := by
    decide
  have s2 : roundToDigits nearestHalfEven 0x4005666666666666 2 = 0x40055C28F5C28F5C := by
    decide
  have s3 : roundToDigits nearestHalfAway 0x4005666666666666 2 = 0x40055C28F5C28F5C := by
    decide
  refine ⟨⟨by rfl, by rfl, by rfl, by decide, by decide, s1, f1, ?_, by rfl⟩,
    ⟨by rfl, by rfl, by rfl, by rfl, by decide, by decide, s2, s3, by rfl,
      by decide, f2, ?_, ?_, by rfl⟩⟩
  · rw [f1, s1]
    intro h
    exact absurd (Value.float64.inj (Res.ok.inj h)) (by decide)
  · rw [f2, s2]
    intro h
    exact absurd (Value.float64.inj (Res.ok.inj h)) (by decide)
  · rw [f2, s3]
    intro h
    exact absurd (Value.float64.inj (Res.ok.inj h)) (by decide)

/-- C18, amended: when `math.Pow(10, p)` is `10 ^ p` (`p ≤ 22`) and the float64 product
`x * 10 ^ p` is exact, `floatFunc([x, p])` returns `x` rounded to `p` decimal digits
with halves away from zero, as the float64 nearest to that decimal; with one
argument `p` is 2.  Here `x` rounded to `p` decimal digits is `roundToDigits`, which is
written on whole numbers and not with the float64 operations of the code. -/
theorem c18_float_rounds_exact_product_half_away (E : Ext) (a b : Value) (x u : Nat)
    (ha : E.toFloat64E a = some x) (hb : E.toUintE b = some u) (hu : u ≤ 22)
    (hpow : E.pow F64.ten (F64.ofInt u) = F64.ofInt ((10 ^ u : Nat) : Int))
    (hex : F64.exactTimesPow10 x u) :
    floatFunc E [a, b] = .ok (.float64 (roundToDigits nearestHalfAway x u)) ∧
    (u = 2 → floatFunc E [a] = .ok (.float64 (roundToDigits nearestHalfAway x 2))) := by
  have key : roundAt E x (F64.ofInt u) = roundToDigits nearestHalfAway x u := by
    unfold roundAt
    rw [hpow]
    exact F64.round_div_exact x u hu hex
  refine ⟨?_, ?_⟩
  · simp only [floatFunc, ha, hb, key]
  · intro h2
    subst h2
    have e2 : F64.two = F64.ofInt ((2 : Nat) : Int) := by decide
    simp only [floatFunc, ha, e2, key]

/-- C18, amended, at `FLOAT(0.125, 2)` and `FLOAT(0.125)`: the product `12.5` is exact
and the result is `0.13`. -/
theorem c18_float_rounds_exact_product_half_away_witness :
    refExt.toFloat64E (.float64 0x3FC0000000000000) = some 0x3FC0000000000000 ∧
    refExt.toUintE (.int64 2) = some 2 ∧
    refExt.pow F64.ten (F64.ofInt ((2 : Nat) : Int)) = F64.ofInt ((10 ^ 2 : Nat) : Int) ∧
    F64.exactTimesPow10 0x3FC0000000000000 2 ∧
    roundToDigits nearestHalfAway 0x3FC0000000000000 2 = 0x3FC0A3D70A3D70A4 ∧
    floatFunc refExt [.float64 0x3FC0000000000000, .int64 2] =
      .ok (.float64 (roundToDigits nearestHalfAway 0x3FC0000000000000 2)) ∧
    floatFunc refExt [.float64 0x3FC0000000000000] =
      .ok (.float64 (roundToDigits nearestHalfAway 0x3FC0000000000000 2)) :=
  ⟨rfl, rfl, by decide, by decide, by decide,
    (c18_float_rounds_exact_product_half_away refExt (.float64 0x3FC0000000000000) (.int64 2)
      0x3FC0000000000000 2 rfl rfl (by decide) (by decide) (by decide)).1,
    (c18_float_rounds_exact_product_half_away refExt (.float64 0x3FC0000000000000) (.int64 2)
      0x3FC0000000000000 2 rfl rfl (by decide) (by decide) (by decide)).2 rfl⟩

/-- C19 (the code at the failing input `1 2`): `removeWhitespace` calls
`strings.TrimSpace` on the spans outside the apostrophes, which removes the white space
at the two ends of a span and leaves the white space inside it.  A text without
apostrophe is one span and comes back trimmed at its ends only: the space of `1 2`
and the spaces inside `a b` and `e f`, outside the apostrophes, are still there. -/
theorem c19_inner_white_space_stays (s : Str) :
    removeWhitespace (s.filter (fun c => c != Apostrophe)) =
      trimSpace (s.filter (fun c => c != Apostrophe)) ∧
    removeWhitespace "1 2".toList = "1 2".toList ∧
    removeWhitespace " a b 'c d' e f ".toList = "a b'c d'e f".toList := by
  refine ⟨?_, by decide, by decide⟩
  unfold removeWhitespace
  rw [splitChar_of_not_mem]
  · rfl
  · simp [List.mem_filter]

/-- C20: `splitArgs` splits at the top-level commas only.  For a non-empty list of
argument texts, each of them well formed (not empty, an even number of apostrophes,
as many closing as opening brackets and no prefix with more closing than opening ones,
brackets counted wherever they stand, and every comma behind an open bracket or an open
apostrophe), `splitArgs` of the texts joined with commas returns the list itself. -/
theorem c20_splitArgs_top_level_commas (as : List Str) (hne : as ≠ [])
    (hw : ∀ a ∈ as, WellFormedArg a) : splitArgs (joinChar Comma as) = as := by
  exact splitArgs_of_scan as hne (fun a ha => ⟨(hw a ha).1, scanArg_wellFormed a (hw a ha)⟩)

/-- C20 at the text of the test `TestSplitByComma`, with a third argument that has a
comma and a bracket between apostrophes. -/
theorem c20_splitArgs_top_level_commas_witness :
    ["VAR([abc],[def])".toList, "STRING('a,b')".toList, "IF(TRUE,'(x,',']')".toList] ≠ [] ∧
    (∀ a ∈ ["VAR([abc],[def])".toList, "STRING('a,b')".toList, "IF(TRUE,'(x,',']')".toList],
      WellFormedArg a) ∧
    splitArgs "VAR([abc],[def]),STRING('a,b'),IF(TRUE,'(x,',']')".toList =
      ["VAR([abc],[def])".toList, "STRING('a,b')".toList, "IF(TRUE,'(x,',']')".toList] :=
  ⟨by simp, by decide,
    c20_splitArgs_top_level_commas
      ["VAR([abc],[def])".toList, "STRING('a,b')".toList, "IF(TRUE,'(x,',']')".toList]
      (by simp) (by decide)⟩

/-- C21: AND and OR are decided by their first deciding argument.  For a non-empty
argument list, `andFunc` returns true exactly when every argument coerces to true; on a
list whose arguments before `a` all coerce to true it returns false, without error and
whatever follows `a`, when `a` coerces to false, and the error of the coercion when `a`
does not coerce to a Bool.  `orFunc` does the same with true and false exchanged. -/
theorem c21_and_or_first_deciding_argument (E : Ext) (args pre post : List Value)
    (a : Value) (hne : args ≠ []) :
    (andFunc E args = .ok (.bool true) ↔ ∀ x ∈ args, E.toBoolE x = some true) ∧
    ((∀ x ∈ pre, E.toBoolE x = some true) → E.toBoolE a = some false →
      andFunc E (pre ++ a :: post) = .ok (.bool false)) ∧
    ((∀ x ∈ pre, E.toBoolE x = some true) → E.toBoolE a = none →
      andFunc E (pre ++ a :: post) = .error (.cast a)) ∧
    (orFunc E args = .ok (.bool false) ↔ ∀ x ∈ args, E.toBoolE x = some false) ∧
    ((∀ x ∈ pre, E.toBoolE x = some false) → E.toBoolE a = some true →
      orFunc E (pre ++ a :: post) = .ok (.bool true)) ∧
    ((∀ x ∈ pre, E.toBoolE x = some false) → E.toBoolE a = none →
      orFunc E (pre ++ a :: post) = .error (.cast a)) := by
  refine ⟨?_, ?_, ?_, ?_, ?_, ?_⟩
  · rw [andFunc_eq E args hne]
    exact andLoop_true_iff E args
  · intro hpre ha
    rw [andFunc_eq E _ (by simp), andLoop_append E pre _ hpre]
    simp [andLoop, ha]
  · intro hpre ha
    rw [andFunc_eq E _ (by simp), andLoop_append E pre _ hpre]
    simp [andLoop, ha]
  · rw [orFunc_eq E args hne]
    exact orLoop_false_iff E args
  · intro hpre ha
    rw [orFunc_eq E _ (by simp), orLoop_append E pre _ hpre]
    simp [orLoop, ha]
  · intro hpre ha
    rw [orFunc_eq E _ (by simp), orLoop_append E pre _ hpre]
    simp [orLoop, ha]

/-- C21 at `[true, false, 'x']`: AND is false although `'x'` does not coerce to a Bool;
at `[false, true, 'x']` OR is true; at `[true, 'x']` AND fails. -/
theorem c21_and_or_first_deciding_argument_witness :
    [Value.bool true, Value.bool false, Value.string "x".toList] ≠ [] ∧
    refExt.toBoolE (.string "x".toList) = none ∧
    andFunc refExt [.bool true, .bool false, .string "x".toList] = .ok (.bool false) ∧
    andFunc refExt [.bool true, .string "x".toList] = .error (.cast (.string "x".toList)) ∧
    orFunc refExt [.bool false, .bool true, .string "x".toList] = .ok (.bool true) :=
  ⟨by simp, rfl,
    (c21_and_or_first_deciding_argument refExt
      [.bool true, .bool false, .string "x".toList] [.bool true] [.string "x".toList]
      (.bool false) (by simp)).2.1 (by simp [refExt, Ref.toBoolE]) rfl,
    (c21_and_or_first_deciding_argument refExt
      [.bool true, .bool false, .string "x".toList] [.bool true] []
      (.string "x".toList) (by simp)).2.2.1 (by simp [refExt, Ref.toBoolE]) rfl,
    (c21_and_or_first_deciding_argument refExt
      [.bool true, .bool false, .string "x".toList] [.bool false] [.string "x".toList]
      (.bool true) (by simp)).2.2.2.2.1 (by simp [refExt, Ref.toBoolE]) rfl⟩

/-- C22 (the claim fails at `a = 2^53 + 1`, `b = 2^53`): both operands are converted to
float64, `2^53 + 1` is rounded to `2^53`, and the two compare as equal: GT is false
although `a > b`, LTE is true although `a <= b` is not, and likewise LT and GTE with
the operands exchanged. -/
theorem c22_integers_above_2_53_compare_equal :
    F64.ofInt 9007199254740993 = F64.ofInt 9007199254740992 ∧
    gtFunc refExt [.int64 9007199254740993, .int64 9007199254740992] = .ok (.bool false) ∧
    lteFunc refExt [.int64 9007199254740993, .int64 9007199254740992] = .ok (.bool true) ∧
    ltFunc refExt [.int64 9007199254740992, .int64 9007199254740993] = .ok (.bool false) ∧
    gteFunc refExt [.int64 9007199254740992, .int64 9007199254740993] = .ok (.bool true) ∧
    Parse refExt (always sourceOrder) 2 [] (NewParser [])
        "GT(9007199254740993,9007199254740992)".toList =
      some (.ok (.bool false), NewParser []) := by
  refine ⟨by decide, by rfl, by rfl, by rfl, by rfl, by rfl⟩

/-- C22, amended: for 64-bit integers `a` and `b` of magnitude at most `2^53`, which
float64 holds exactly, the comparison functions agree with the integer order:
`gtFunc([a,b])` is true iff `a > b`, `gteFunc([a,b])` iff `a >= b`, `lteFunc([a,b])` iff
`a <= b` and `ltFunc([a,b])` iff `a < b`.  Above `2^53` the conversion rounds:
`gtFunc([2^53 + 1, 2^53])` is false. -/
theorem c22_compare_agrees_up_to_2_53 (E : Ext) (a b : Int)
    (ha : a.natAbs ≤ 2 ^ 53) (hb : b.natAbs ≤ 2 ^ 53) :
    gtFunc E [.int64 a, .int64 b] = .ok (.bool (decide (a > b))) ∧
    gteFunc E [.int64 a, .int64 b] = .ok (.bool (decide (a ≥ b))) ∧
    lteFunc E [.int64 a, .int64 b] = .ok (.bool (decide (a ≤ b))) ∧
    ltFunc E [.int64 a, .int64 b] = .ok (.bool (decide (a < b))) ∧
    gtFunc E [.int64 (2 ^ 53 + 1), .int64 (2 ^ 53)] = .ok (.bool false) := by
  have e1 : F64.ofInt (2 ^ 53 + 1) = 0x4340000000000000 := by decide
  have e2 : F64.ofInt (2 ^ 53) = 0x4340000000000000 := by decide
  obtain ⟨h1, h2⟩ := F64.lt_ofInt a b ha hb
  obtain ⟨h3, h4⟩ := F64.lt_ofInt b a hb ha
  have hle : ∀ x y : Int, (decide (x < y) || decide (x = y)) = decide (x ≤ y) := by
    intro x y
    by_cases h : x ≤ y
    · rcases lt_or_eq_of_le h with h5 | h5
      · simp [h5, h]
      · simp [h5]
    · have h5 : ¬ x < y := fun c => h (le_of_lt c)
      have h6 : ¬ x = y := fun c => h (le_of_eq c)
      simp [h, h5, h6]
  refine ⟨?_, ?_, ?_, ?_, ?_⟩
  · simp only [gtFunc, compareFunc, E.toFloat64E_int64, F64.gt, h3]
  · simp only [gteFunc, compareFunc, E.toFloat64E_int64, F64.ge, F64.le, h3, h4, hle]
  · simp only [lteFunc, compareFunc, E.toFloat64E_int64, F64.le, h1, h2, hle]
  · simp only [ltFunc, compareFunc, E.toFloat64E_int64, h1]
  · simp only [gtFunc, compareFunc, E.toFloat64E_int64, e1, e2]
    rfl

/-- C22, amended, at `a = 2^53`, `b = 2^53 - 1`. -/
theorem c22_compare_agrees_up_to_2_53_witness :
    (9007199254740992 : Int).natAbs ≤ 2 ^ 53 ∧ (9007199254740991 : Int).natAbs ≤ 2 ^ 53 ∧
    gtFunc refExt [.int64 9007199254740992, .int64 9007199254740991] = .ok (.bool true) ∧
    ltFunc refExt [.int64 9007199254740992, .int64 9007199254740991] = .ok (.bool false) :=
  ⟨by decide, by decide,
    (c22_compare_agrees_up_to_2_53 refExt 9007199254740992 9007199254740991
      (by decide) (by decide)).1,
    (c22_compare_agrees_up_to_2_53 refExt 9007199254740992 9007199254740991
      (by decide) (by decide)).2.2.2.1⟩

/-- C23 (the claim fails at `STRING(LEN(123))`): LEN rejects the Int64 `123`, the error
gets the entry `func LEN`, and the enclosing call of STRING returns it as it is: the
error has no entry for STRING.  With `INT('x')` for the inner call the same holds. -/
theorem c23_enclosing_function_adds_no_entry :
    Parse refExt (always sourceOrder) 3 [] (NewParser []) "STRING(LEN(123))".toList =
      some (.error (.func Func.Len (.invalidType .int64)), NewParser []) ∧
    Err.carries Func.Len (.func Func.Len (.invalidType .int64)) = true ∧
    Err.carries Func.String (.func Func.Len (.invalidType .int64)) = false ∧
    Parse refExt (always sourceOrder) 3 [] (NewParser []) "STRING(INT('x'))".toList =
      some (.error (.func Func.Int (.cast (.string "x".toList))), NewParser []) ∧
    Err.carries Func.String (.func Func.Int (.cast (.string "x".toList))) = false := by
  refine ⟨by rfl, by decide, by decide, by rfl, by decide⟩

/-- C23, amended: an error gets the entry of the function whose own evaluation failed
and of no enclosing function.  For registered `F` and `G` and a well-formed argument
`x`: when `x` evaluates to a value that `G` rejects with `err`, `Parse` of `F(G(x))`
returns `func G: err`, which has the entry of `G` and, for `F` other than `G` and not in
`err`, no entry of `F`; when `x` itself fails with `e`, `Parse` of `F(G(x))` returns `e`
unchanged. -/
theorem c23_error_carries_innermost_entry (E : Ext) (visit : List Nat → List Operator)
    (fuel : Nat) (path : List Nat) (p : Parser) (F G : Func)
    (fn gn : Ext → List Value → Res Value) (x : Str) (rx : Res Value)
    (hF : fnFuncAt F = some fn) (hG : fnFuncAt G = some gn) (hx : WellFormedArg x)
    (ex : eval E visit fuel (path ++ [0, 0]) (pushFunc (pushFunc p F) G) x = some rx) :
    (∀ v err, rx = .ok v → gn E [v] = .error err →
      Parse E visit (fuel + 2) path p (callText F [callText G [x]]) =
        some (.error (.func G err), p)) ∧
    (∀ e, rx = .error e →
      Parse E visit (fuel + 2) path p (callText F [callText G [x]]) = some (.error e, p)) ∧
    (∀ err, F ≠ G → Err.carries F err = false →
      Err.carries G (.func G err) = true ∧ Err.carries F (.func G err) = false) := by
  have hin := Parse_callText E visit fuel (path ++ [0]) (pushFunc p F) G gn [x] hG (by simp)
    (by intro a ha; rw [List.mem_singleton.mp ha]; exact hx)
  have hout := Parse_callText_scan E visit (fuel + 1) path p F fn [callText G [x]] hF
    (by simp)
    (by
      intro a ha
      rw [List.mem_singleton.mp ha]
      exact callText_scan G gn [x] hG
        (by intro b hb; rw [List.mem_singleton.mp hb]; exact scan_of_wellFormed x hx))
  rw [eval_eq] at ex
  refine ⟨?_, ?_, ?_⟩
  · intro v err hv herr
    subst hv
    have hin2 : Parse E visit (fuel + 1) (path ++ [0]) (pushFunc p F) (callText G [x]) =
        some (.error (.func G err), pushFunc p F) := by
      rw [hin]
      simp [parseArgs, ex, herr, popFunc_pushFunc]
    rw [hout]
    simp [parseArgs, hin2, popFunc_pushFunc]
  · intro e he
    subst he
    have hin2 : Parse E visit (fuel + 1) (path ++ [0]) (pushFunc p F) (callText G [x]) =
        some (.error e, pushFunc p F) := by
      rw [hin]
      simp [parseArgs, ex, popFunc_pushFunc]
    rw [hout]
    simp [parseArgs, hin2, popFunc_pushFunc]
  · intro err hne hc
    constructor
    · simp [Err.carries]
    · have : (G == F) = false := by
        rw [beq_eq_false_iff_ne]
        exact fun e => hne e.symm
      simp [Err.carries, this, hc]

/-- C23, amended, at `STRING(INT('x'))`: the error is `func INT: ...` and has no entry for
STRING. -/
theorem c23_error_carries_innermost_entry_witness :
    fnFuncAt Func.String = some stringFunc ∧ fnFuncAt Func.Int = some intFunc ∧
    WellFormedArg "'x'".toList ∧
    eval refExt (always sourceOrder) 1 [0, 0]
      (pushFunc (pushFunc (NewParser []) Func.String) Func.Int) "'x'".toList =
      some (.ok (.string "x".toList)) ∧
    intFunc refExt [.string "x".toList] = .error (.cast (.string "x".toList)) ∧
    Parse refExt (always sourceOrder) 3 [] (NewParser []) "STRING(INT('x'))".toList =
      some (.error (.func Func.Int (.cast (.string "x".toList))), NewParser []) :=
  ⟨rfl, rfl, by decide, rfl, rfl,
    (c23_error_carries_innermost_entry refExt (always sourceOrder) 1 [] (NewParser [])
      Func.String Func.Int stringFunc intFunc "'x'".toList (.ok (.string "x".toList))
      rfl rfl (by decide) rfl).1 _ _ rfl rfl⟩

/-- C24: the operator split does not look at apostrophes.  For texts `u`, `v` without
apostrophe, bracket, parenthesis and operator character, `u` not empty (`v` may even be
empty), the quoted literal
`'u-v'` is taken for a subtraction: `-` is the operator that `containsOp` finds, the
text is cut at its offset, the left operand `'u` is an unknown string and `Parse`
returns this error, not the String `u-v`; `Parse` of `STRING('u-v')`, such as
`STRING('a-b')`, returns the same error. -/
theorem c24_quoted_minus_is_split (E : Ext) (visit : List Nat → List Operator)
    (fuel : Nat) (path : List Nat) (p : Parser) (u v : Str)
    (hp : ∀ q, (visit q).Perm opKeys) (hu : u ≠ [])
    (hc : ∀ c ∈ u ++ v, c ∉ [Apostrophe, '(', ')', '[', ']', '=', '<', '>', '*', '/', '+',
      '-'])
    (hf : 2 ≤ fuel) :
    containsOp (visit path) (Apostrophe :: (u ++ '-' :: (v ++ [Apostrophe]))) =
      some Operator.Sub ∧
    lastIndex Operator.Sub (Apostrophe :: (u ++ '-' :: (v ++ [Apostrophe]))) =
      some (u.length + 1) ∧
    (Apostrophe :: (u ++ '-' :: (v ++ [Apostrophe]))).take (u.length + 1) = Apostrophe :: u ∧
    Parse E visit fuel path p (Apostrophe :: (u ++ '-' :: (v ++ [Apostrophe]))) =
      some (.error (.unknownString (Apostrophe :: u)), p) ∧
    Parse E visit fuel path p (Apostrophe :: (u ++ '-' :: (v ++ [Apostrophe]))) ≠
      some (.ok (.string (u ++ '-' :: v)), p) ∧
    Parse E visit (fuel + 1) path p
        (Func.String ++ LeftBracket ::
          (Apostrophe :: (u ++ '-' :: (v ++ [Apostrophe])) ++ [RightBracket])) =
      some (.error (.unknownString (Apostrophe :: u)), p) := by
  obtain ⟨f, rfl⟩ : ∃ f, fuel = f + 2 := ⟨fuel - 2, by omega⟩
  have hk : ∀ c ∈ u ++ v, c ≠ Apostrophe ∧ c ≠ RightBracket ∧ c ≠ RightSquareBracket ∧
      (c ≠ '=' ∧ c ≠ '<' ∧ c ≠ '*' ∧ c ≠ '/' ∧ c ≠ '+' ∧ c ≠ '-') := by
    intro c hm
    have := hc c hm
    simp only [List.mem_cons, List.mem_singleton, List.not_mem_nil, or_false, not_or] at this
    exact ⟨this.1, this.2.2.1, this.2.2.2.2.1, this.2.2.2.2.2.1, this.2.2.2.2.2.2.1,
      this.2.2.2.2.2.2.2.2.1, this.2.2.2.2.2.2.2.2.2.1, this.2.2.2.2.2.2.2.2.2.2.1,
      this.2.2.2.2.2.2.2.2.2.2.2⟩
  have hku : ∀ c ∈ u, c ≠ '=' ∧ c ≠ '<' ∧ c ≠ '*' ∧ c ≠ '/' ∧ c ≠ '+' ∧ c ≠ '-' :=
    fun c hm => (hk c (List.mem_append_left _ hm)).2.2.2
  have hkv : ∀ c ∈ v, c ≠ '=' ∧ c ≠ '<' ∧ c ≠ '*' ∧ c ≠ '/' ∧ c ≠ '+' ∧ c ≠ '-' :=
    fun c hm => (hk c (List.mem_append_right _ hm)).2.2.2
  have hau : Apostrophe ∉ u := fun hm => (hk _ (List.mem_append_left _ hm)).1 rfl
  have hav : Apostrophe ∉ v := fun hm => (hk _ (List.mem_append_right _ hm)).1 rfl
  have hs : Apostrophe ∉ u ++ '-' :: v := by
    intro hm
    rcases List.mem_append.mp hm with e | e
    · exact hau e
    · rcases List.mem_cons.mp e with e | e
      · exact absurd e (by decide)
      · exact hav e
  have hApo : ∀ c, c = Apostrophe →
      c ≠ '=' ∧ c ≠ '<' ∧ c ≠ '*' ∧ c ≠ '/' ∧ c ≠ '+' ∧ c ≠ '-' := by
    intro c e; rw [e]; decide
  have hT : Apostrophe :: (u ++ '-' :: (v ++ [Apostrophe])) =
      (Apostrophe :: u) ++ '-' :: (v ++ [Apostrophe]) := by simp
  have hw : removeWhitespace (Apostrophe :: (u ++ '-' :: (v ++ [Apostrophe]))) =
      Apostrophe :: (u ++ '-' :: (v ++ [Apostrophe])) := by
    have := removeWhitespace_quoted [] [] (u ++ '-' :: v) (by simp) (by simp) hs rfl rfl
    simpa using this
  have hop : ∀ q, containsOp (visit q) (Apostrophe :: (u ++ '-' :: (v ++ [Apostrophe]))) =
      some Operator.Sub := by
    intro q
    rw [hT]
    apply containsOp_sub (visit q) (hp q)
    · intro c hm
      rcases List.mem_cons.mp hm with e | e
      · exact hApo c e
      · exact hku c e
    · intro c hm
      rcases List.mem_append.mp hm with e | e
      · exact hkv c e
      · exact hApo c (List.mem_singleton.mp e)
  have hidx : lastIndex Operator.Sub (Apostrophe :: (u ++ '-' :: (v ++ [Apostrophe]))) =
      some (u.length + 1) := by
    rw [hT]
    have := lastIndex_single '-' (Apostrophe :: u) (v ++ [Apostrophe]) (by
      intro hm
      rcases List.mem_append.mp hm with e | e
      · exact (hkv _ e).2.2.2.2.2 rfl
      · exact absurd (List.mem_singleton.mp e) (by decide))
    simpa [Operator.Sub] using this
  have htake : (Apostrophe :: (u ++ '-' :: (v ++ [Apostrophe]))).take (u.length + 1) =
      Apostrophe :: u := by
    simp
  have hparse : ∀ (k : Nat) (q : List Nat) (p0 : Parser),
      Parse E visit (k + 2) q p0 (Apostrophe :: (u ++ '-' :: (v ++ [Apostrophe]))) =
        some (.error (.unknownString (Apostrophe :: u)), p0) := by
    intro k q p0
    rw [Parse_op E visit (k + 1) q p0 _ Operator.Sub (u.length + 1)
      (by
        rw [hw]
        apply fnFuncAt_none_of_head
        intro c hc2
        have hb : (Apostrophe != LeftBracket) = true := by decide
        simp only [beforeFirst, List.takeWhile, hb, List.head?_cons, Option.some.injEq] at hc2
        rw [← hc2]; decide)
      (by rw [hw]; exact hop q) (by rw [hw]; exact hidx)]
    rw [hw, htake, Parse_open_quote E visit (q ++ [0]) p0 u k (hp _) hu hau hku]
  refine ⟨hop path, hidx, htake, hparse f path p, ?_, ?_⟩
  · rw [hparse f path p]
    intro h
    cases h
  · have hstr : Func.String ++ LeftBracket ::
        (Apostrophe :: (u ++ '-' :: (v ++ [Apostrophe])) ++ [RightBracket]) =
        (Func.String ++ [LeftBracket]) ++
          Apostrophe :: ((u ++ '-' :: v) ++ Apostrophe :: [RightBracket]) := by
      simp
    have hw2 : removeWhitespace (Func.String ++ LeftBracket ::
        (Apostrophe :: (u ++ '-' :: (v ++ [Apostrophe])) ++ [RightBracket])) =
        Func.String ++ LeftBracket ::
          (Apostrophe :: (u ++ '-' :: (v ++ [Apostrophe])) ++ [RightBracket]) := by
      rw [hstr]
      exact removeWhitespace_quoted _ _ (u ++ '-' :: v) (by decide) (by decide) hs
        (by decide) (by decide)
    have h3 : trimSuffixOf (trimPrefixOf (Func.String ++ LeftBracket ::
        (Apostrophe :: (u ++ '-' :: (v ++ [Apostrophe])) ++ [RightBracket]))
        (Func.String ++ [LeftBracket])) [RightBracket] =
        Apostrophe :: ((u ++ '-' :: v) ++ [Apostrophe]) := by
      rw [show Func.String ++ LeftBracket ::
        (Apostrophe :: (u ++ '-' :: (v ++ [Apostrophe])) ++ [RightBracket]) =
        (Func.String ++ [LeftBracket]) ++
          ((Apostrophe :: ((u ++ '-' :: v) ++ [Apostrophe])) ++ [RightBracket]) by simp]
      rw [trimPrefixOf_append, trimSuffixOf_append]
    have hsplit : splitArgs (Apostrophe :: ((u ++ '-' :: v) ++ [Apostrophe])) =
        [Apostrophe :: ((u ++ '-' :: v) ++ [Apostrophe])] := by
      apply splitArgs_quoted
      intro c hm
      rcases List.mem_append.mp hm with e | e
      · have := hk c (List.mem_append_left _ e)
        exact ⟨this.1, this.2.1, this.2.2.1⟩
      · rcases List.mem_cons.mp e with e | e
        · rw [e]; decide
        · have := hk c (List.mem_append_right _ e)
          exact ⟨this.1, this.2.1, this.2.2.1⟩
    rw [Parse_call E visit (f + 2) path p _ Func.String stringFunc
      [Apostrophe :: ((u ++ '-' :: v) ++ [Apostrophe])]
      (by rw [hw2]; exact beforeFirst_append LeftBracket Func.String _ (by decide)) rfl
      (by rw [hw2, h3, hsplit])]
    have e : Apostrophe :: ((u ++ '-' :: v) ++ [Apostrophe]) =
        Apostrophe :: (u ++ '-' :: (v ++ [Apostrophe])) := by simp
    rw [e]
    simp [parseArgs, hparse f, popFunc]

/-- C24 at `u = a`, `v = b`: `'a-b'` and `STRING('a-b')` return the error
`unknown string 'a`. -/
theorem c24_quoted_minus_is_split_witness :
    (∀ q, (always sourceOrder q).Perm opKeys) ∧ "a".toList ≠ [] ∧
    (∀ c ∈ "a".toList ++ "b".toList,
      c ∉ [Apostrophe, '(', ')', '[', ']', '=', '<', '>', '*', '/', '+', '-']) ∧
    2 ≤ 2 ∧
    Parse refExt (always sourceOrder) 2 [] (NewParser []) "'a-b'".toList =
      some (.error (.unknownString "'a".toList), NewParser []) ∧
    Parse refExt (always sourceOrder) 3 [] (NewParser []) "STRING('a-b')".toList =
      some (.error (.unknownString "'a".toList), NewParser []) :=
  ⟨fun _ => List.Perm.refl _, by decide, by decide, le_refl _,
    (c24_quoted_minus_is_split refExt (always sourceOrder) 2 [] (NewParser []) "a".toList
      "b".toList (fun _ => List.Perm.refl _) (by decide) (by decide) (le_refl _)).2.2.2.1,
    (c24_quoted_minus_is_split refExt (always sourceOrder) 2 [] (NewParser []) "a".toList
      "b".toList (fun _ => List.Perm.refl _) (by decide) (by decide) (le_refl _)).2.2.2.2.2⟩

/-- C25: a call of `Parse` that returns, with a value, an error or a panic, leaves the
parser as it was on entry: the function names it pushed on `funcStack` are popped again
and the input is untouched.  A parser made by `NewParser` has an empty stack, so the
stack is empty after every top-level `Parse`. -/
theorem c25_parse_restores_funcStack (E : Ext) (visit : List Nat → List Operator)
    (fuel : Nat) (path : List Nat) (p p1 : Parser) (s : Str) (r : Res Value)
    (h : Parse E visit fuel path p s = some (r, p1)) :
    p1.funcStack = p.funcStack ∧ p1.input = p.input ∧
    (p.funcStack = [] → p1.funcStack = []) ∧
    (∀ (input : List (Str × Value)) (r2 : Res Value) (p2 : Parser),
      Parse E visit fuel path (NewParser input) s = some (r2, p2) → p2.funcStack = []) := by
  have e := Parse_state E visit fuel path p s r p1 h
  subst e
  refine ⟨rfl, rfl, fun h0 => h0, ?_⟩
  intro input r2 p2 h2
  rw [Parse_state E visit fuel path _ s r2 p2 h2]
  rfl

/-- C25 at `LEN(STRING('ab'))`, which returns a value, and at `LEN(STRING())`, which
returns an error from inside two calls: the stack is empty afterwards. -/
theorem c25_parse_restores_funcStack_witness :
    (Parse refExt (always sourceOrder) 3 [] (NewParser []) "LEN(STRING('ab'))".toList =
        some (.ok (.int 2), NewParser []) ∧
      (NewParser []).funcStack = (NewParser []).funcStack) ∧
    (Parse refExt (always sourceOrder) 3 [] (NewParser []) "LEN(STRING())".toList =
        some (.error (.func Func.String (.invalidNumberOfArguments 0)), NewParser []) ∧
      (NewParser []).funcStack = []) :=
  ⟨⟨rfl, (c25_parse_restores_funcStack refExt (always sourceOrder) 3 [] (NewParser [])
      (NewParser []) "LEN(STRING('ab'))".toList (.ok (.int 2)) rfl).1⟩,
   ⟨rfl, (c25_parse_restores_funcStack refExt (always sourceOrder) 3 [] (NewParser [])
      (NewParser []) "LEN(STRING())".toList
      (.error (.func Func.String (.invalidNumberOfArguments 0))) rfl).2.2.1 rfl⟩⟩

end Json2Json
